import Mathlib

/-! # ich7_pm: register access, command tokenizer and control file

A shallow embedding of `ich7_pm.c`.  Machine integers are `Nat`/`Int` with
explicit reduction modulo `2^32`; the I/O port space is a store from port
address to value, and every `inl`/`outl` is recorded in a trace so that
"no port access" is a statement about the trace.
-/

namespace Ich7

/-! ## Machine integers -/

/-- Number of values of a `u32`. -/
def U32 : Nat := 4294967296

/-- Conversion of a C `int` expression to `u32` (reduction modulo 2^32). -/
def int_to_u32 (x : Int) : Nat := (x % 4294967296).toNat

/-- The `int` expression `1 << bitno` for a shift count in `[0,32)`: the result
wraps into the 32-bit two's complement range, so `1 << 31` is `INT_MIN`. -/
def shl1 (bitno : Int) : Int :=
  let r : Int := (2 ^ bitno.toNat) % 4294967296
  if r < 2147483648 then r else r - 4294967296

/-- The `int` expression `~x`. -/
def bnot (x : Int) : Int := -x - 1

/-! ## Constants of the driver -/

def PM_BASE : Nat := 0x40
def ACPI_CNTL : Nat := 0x44
def ACPI_EN : Nat := 0x07
def ICH7_PM_SIZE : Nat := 128
def GPE0_STS : Nat := 0x28
def GPE0_EN : Nat := 0x2c

/-- A register assignment: `struct ich7_register`. -/
structure ich7_register where
  name : List Char
  base_reg : Nat
  offset : Nat
deriving DecidableEq

/-- The compiled-in register catalog. -/
def ich7_registers : List ich7_register :=
  [ { name := "GPE0_STS".toList, base_reg := PM_BASE, offset := GPE0_STS },
    { name := "GPE0_EN".toList, base_reg := PM_BASE, offset := GPE0_EN } ]

/-! ## Driver state -/

/-- One access to the I/O port space. -/
inductive PortEvent where
  | inl (port : Nat)
  | outl (value : Nat) (port : Nat)
deriving DecidableEq

/-- Length of the static `proc_message` buffer. -/
def PROC_MESSAGE_LENGTH : Nat := 512

/-- The global state of the module together with the I/O port space it acts on. -/
structure Driver where
  /-- Base IO address assigned to the PM register block (`u32`). -/
  nas_pm_io_base : Nat
  /-- Whether `pm_resource` is non-NULL (the region reservation is held). -/
  pm_resource : Bool
  /-- The I/O port space: port address to the 32-bit value held there. -/
  ports : Nat → Nat
  /-- Every `inl`/`outl` performed so far, oldest first. -/
  trace : List PortEvent
  /-- The static buffer `proc_message[PROC_MESSAGE_LENGTH]`. -/
  proc_message : List Char
  /-- The function-static flag `finished` of `ich7_proc_read_event`. -/
  finished : Bool

/-- The value `nas_pm_io_base` holds after `nas_pm_io_base &= 0x0000ffc0` in probe. -/
def masked_io_base (raw : Nat) : Nat := raw &&& 0x0000ffc0

/-- The `u32` value of the failure return `-1`. -/
def NO_PORT : Nat := int_to_u32 (-1)

/-- Port read `inl(port)`: returns the value held and records the access. -/
def inl (s : Driver) (port : Nat) : Nat × Driver :=
  (s.ports port, { s with trace := s.trace ++ [PortEvent.inl port] })

/-- Port write `outl(value, port)`. -/
def outl (s : Driver) (value port : Nat) : Driver :=
  { s with ports := Function.update s.ports port value,
           trace := s.trace ++ [PortEvent.outl value port] }

/-! ## Register access -/

/-- Port of a register; `reg = none` is the NULL pointer. -/
def get_reg_port (s : Driver) (reg : Option ich7_register) : Nat :=
  match reg with
  | none => NO_PORT
  | some r =>
    if r.base_reg = PM_BASE then (s.nas_pm_io_base + r.offset) % U32
    else NO_PORT

/-- Read a register: the value returned and the state afterwards. -/
def read_reg (s : Driver) (reg : Option ich7_register) : Nat × Driver :=
  let port := get_reg_port s reg
  if port = NO_PORT then (0x0, s)
  else inl s port

/-- Write a register. -/
def write_reg (s : Driver) (reg : Option ich7_register) (value : Nat) : Driver :=
  let port := get_reg_port s reg
  if port = NO_PORT then s
  else outl s value port

/-- Set or clear one bit of a register by read-modify-write. -/
def set_reg_bit (s : Driver) (reg : Option ich7_register) (bitno val : Int) : Driver :=
  let port := get_reg_port s reg
  if bitno < 0 ∨ bitno ≥ 32 then s
  else if val < 0 ∨ val ≥ 2 then s
  else if port = NO_PORT then s
  else
    let (in_val, s1) := inl s port
    let in_val :=
      if val ≠ 0 then in_val ||| int_to_u32 (shl1 bitno)
      else in_val &&& int_to_u32 (bnot (shl1 bitno))
    outl s1 in_val port

/-! ## C strings

A `char` buffer is a list of characters; the memory holding a C string is
followed by a terminating NUL, so reading past the end of the list reads NUL. -/

/-- The terminator `'\0'`. -/
def NUL : Char := Char.ofNat 0

/-- The function `strlen`: number of characters before the first NUL. -/
def strlen (mem : List Char) : Nat := (mem.takeWhile (fun c => c ≠ NUL)).length

/-- The C string that starts at offset `p` of a buffer. -/
def cstr (mem : List Char) (p : Nat) : List Char :=
  (mem.drop p).takeWhile (fun c => c ≠ NUL)

/-! ## Tokenizer -/

/-- The local variables of `token`.  The pointer `src` advances in step with
`i`, so it is the offset `i` into the buffer `buf`; `out` lists the stores
`out[slot] = pointer` in the order they are made. -/
structure TokenState where
  buf : List Char
  out : List (Nat × Nat)
  count : Nat
  i : Nat
  start_string_with_next : Bool
deriving DecidableEq

/-- One pass through the body of the `for` loop of `token`, followed by its
increment `src++, i++`. -/
def token_body (out_size : Int) (t : TokenState) : TokenState :=
  let t1 : TokenState :=
    if t.start_string_with_next then
      { t with out := t.out ++ [(t.count, t.i)],
               start_string_with_next := false,
               count := t.count + 1 }
    else t
  let c := t1.buf.getD t1.i NUL
  let t2 : TokenState :=
    if (c = ' ' ∨ c = '\n') ∧ (t1.count : Int) < out_size then
      { t1 with buf := t1.buf.set t1.i NUL, start_string_with_next := true }
    else t1
  { t2 with i := t2.i + 1 }

/-- The `for` loop of `token`, run for at most `fuel` tests of its condition;
`none` when the fuel is used up before the condition fails. -/
def token_loop (len : Nat) (out_size : Int) : Nat → TokenState → Option TokenState
  | 0, _ => none
  | fuel + 1, t =>
    if t.i < len ∧ (t.count : Int) < out_size then
      token_loop len out_size fuel (token_body out_size t)
    else some t

/-- Tokenize a string: the final state holds the return value `count`, the
stores made to `out` and the buffer with its delimiters overwritten. -/
def token (src : List Char) (out_size : Int) : Option TokenState :=
  token_loop (strlen src) out_size (strlen src + 1)
    { buf := src, out := [], count := 0, i := 0, start_string_with_next := true }

/-- The pointer held by `out[j]` after the stores `out`: the last store to slot `j`. -/
def out_slot (out : List (Nat × Nat)) (j : Nat) : Option Nat :=
  (out.reverse.find? (fun w => w.1 = j)).map Prod.snd

/-- The C string `out[j]` points to in the tokenized buffer. -/
def token_str (t : TokenState) (j : Nat) : Option (List Char) :=
  (out_slot t.out j).map (cstr t.buf)

/-- The strings of the first `count` slots of `out`, in order. -/
def token_strs (t : TokenState) : List (Option (List Char)) :=
  (List.range t.count).map (token_str t)

/-- The effect of the loop of `token` on the characters it has not visited yet,
by recursion on those characters: the characters as the loop leaves them, the
stores it makes to `out`, and the final `count`.  `token_loop_scan` shows that
the loop computes exactly this. -/
def token_scan (out_size : Int) :
    List Char → Nat → Nat → Bool → List Char × List (Nat × Nat) × Nat
  | [], _, count, _ => ([], [], count)
  | c :: r, i, count, start =>
    if (count : Int) < out_size then
      let count1 := if start then count + 1 else count
      let delim : Bool := decide ((c = ' ' ∨ c = '\n') ∧ (count1 : Int) < out_size)
      let res := token_scan out_size r (i + 1) count1 delim
      ((if delim then NUL else c) :: res.1,
        (if start then [(count, i)] else []) ++ res.2.1, res.2.2)
    else (c :: r, [], count)

/-! ## Register lookup -/

/-- The loop of `get_reg_by_name` over the catalog entries not yet compared;
`name` is the C string passed in, and `!strcmp` is equality of C strings. -/
def get_reg_by_name_loop (name : List Char) : List ich7_register → Option ich7_register
  | [] => none
  | r :: rs => if name = r.name then some r else get_reg_by_name_loop name rs

/-- Look a register up by name; `none` is the NULL return. -/
def get_reg_by_name (name : List Char) : Option ich7_register :=
  get_reg_by_name_loop name ich7_registers

/-! ## The kernel library's `sscanf` with the format `"%i"`

The driver parses its numeric arguments with `sscanf(str, "%i", &x)`.  The
definitions below follow the kernel's `vsscanf`, `simple_strtol`,
`simple_strtoul` and `simple_guess_base` for that single conversion. -/

def isdigit (c : Char) : Bool := decide ('0'.toNat ≤ c.toNat ∧ c.toNat ≤ '9'.toNat)

def isxdigit (c : Char) : Bool :=
  isdigit c || decide ('a'.toNat ≤ c.toNat ∧ c.toNat ≤ 'f'.toNat) ||
    decide ('A'.toNat ≤ c.toNat ∧ c.toNat ≤ 'F'.toNat)

/-- White space of the kernel's character table: 9..13, space and 0xa0. -/
def isspace (c : Char) : Bool :=
  decide ((9 ≤ c.toNat ∧ c.toNat ≤ 13) ∨ c.toNat = 32 ∨ c.toNat = 160)

/-- The kernel's `TOLOWER(x)`, which is `x | 0x20`. -/
def TOLOWER (c : Char) : Char := Char.ofNat (c.toNat ||| 0x20)

/-- Value of a hexadecimal digit character, as computed in `simple_strtoul`. -/
def digit_value (c : Char) : Nat :=
  if isdigit c then c.toNat - '0'.toNat else (TOLOWER c).toNat - 'a'.toNat + 10

def simple_guess_base (cp : List Char) : Nat :=
  if cp.getD 0 NUL = '0' then
    if TOLOWER (cp.getD 1 NUL) = 'x' ∧ isxdigit (cp.getD 2 NUL) then 16 else 8
  else 10

/-- The digit loop of `simple_strtoul`.  The accumulator is not reduced here:
the only caller converts the result to a 32-bit integer, and reduction modulo
the width of `unsigned long` commutes with that. -/
def strtoul_loop (base : Nat) : List Char → Nat → Nat
  | [], result => result
  | c :: cp, result =>
    if isxdigit c ∧ digit_value c < base then
      strtoul_loop base cp (result * base + digit_value c)
    else result

def simple_strtoul (cp : List Char) (base : Nat) : Nat :=
  let base := if base = 0 then simple_guess_base cp else base
  let cp := if base = 16 ∧ cp.getD 0 NUL = '0' ∧ TOLOWER (cp.getD 1 NUL) = 'x'
            then cp.drop 2 else cp
  strtoul_loop base cp 0

def simple_strtol (cp : List Char) (base : Nat) : Int :=
  if cp.getD 0 NUL = '-' then - (simple_strtoul (cp.drop 1) base : Int)
  else (simple_strtoul cp base : Int)

/-- Conversion to `int`: reduction into the 32-bit two's complement range. -/
def to_int (x : Int) : Int :=
  if x % 4294967296 < 2147483648 then x % 4294967296 else x % 4294967296 - 4294967296

/-- The call `sscanf(str, "%i", &x)` on a C string: the `int` stored through
the pointer, or `none` when the conversion fails and nothing is stored. -/
def sscanf_i (str : List Char) : Option Int :=
  if str = [] then none
  else
    let str := str.dropWhile isspace
    let digit := if str.getD 0 NUL = '-' then str.getD 1 NUL else str.getD 0 NUL
    if digit = NUL ∨ ¬ isdigit digit then none
    else some (to_int (simple_strtol str 0))

/-! ## The write handler of the control file -/

def READ_BUF : Nat := 127
def ARG_BUF : Nat := 12

/-- Number of elements of `char read_buf[READ_BUF + 1]`. -/
def READ_BUF_SIZE : Nat := READ_BUF + 1

def EINVAL : Int := 22

def FUNC_NULL : Nat := 0
def FUNC_SET : Nat := 1
def FUNC_SETBIT : Nat := 2

/-- What the stack of `ich7_proc_write_event` holds where the function reads
without having written: `mem i` is the byte at `read_buf + i` (the array for
`i < 128`, the memory after it beyond), and the locals `bitno`, `val` of the
`setbit` branch and `val` of the `set` branch. -/
structure Uninit where
  mem : Nat → Char
  bitno : Int
  val : Int
  val_u32 : Nat

/-- The bytes from `read_buf` up to the terminator stored by
`read_buf[count] = '\0'`, after `copy_from_user` has copied the first
`min(count, READ_BUF)` bytes of the user data. -/
def fill_read_buf (u : Uninit) (data : List Char) (count : Nat) : List Char :=
  (List.range count).map (fun i =>
    if i < (if count < READ_BUF then count else READ_BUF) then data.getD i NUL else u.mem i)

/-- The string `argv[j]`. -/
def argv (t : TokenState) (j : Nat) : List Char := (token_str t j).getD []

/-- The write handler.  `buf = none` is the NULL pointer, `some data` a user
buffer of which the bytes `data` can be read.  The result is the return value
and the state afterwards.  The result is `none` where the C function has no
defined behaviour: after a successful `copy_from_user`, the statement
`read_buf[count] = '\0'` with `count >= READ_BUF + 1` stores outside the array
`read_buf` (into the stack frame, which the module build guards with
`__stack_chk_fail`), so nothing can be said of what the call does from there
on. -/
def ich7_proc_write_event (s : Driver) (u : Uninit) (buf : Option (List Char))
    (count : Nat) : Option (Int × Driver) :=
  match buf with
  | none => some (-EINVAL, s)
  | some data =>
    if data.length < (if count < READ_BUF then count else READ_BUF) then some (-EINVAL, s)
    else if READ_BUF_SIZE ≤ count then none
    else
      let read_buf := fill_read_buf u data count
      (token read_buf ARG_BUF).map (fun t =>
        let argc := t.count
        if argc ≥ 1 then
          let func :=
            if argv t 0 = "set".toList then FUNC_SET
            else if argv t 0 = "setbit".toList then FUNC_SETBIT
            else FUNC_NULL
          if func = FUNC_SET ∨ func = FUNC_SETBIT then
            if argc ≥ 2 then
              match get_reg_by_name (argv t 1) with
              | none => ((count : Int), s)
              | some reg =>
                if func = FUNC_SETBIT ∧ argc ≥ 4 then
                  let bitno := (sscanf_i (argv t 2)).getD u.bitno
                  let val := (sscanf_i (argv t 3)).getD u.val
                  ((count : Int), set_reg_bit s (some reg) bitno val)
                else if func = FUNC_SET ∧ argc ≥ 3 then
                  let val := ((sscanf_i (argv t 2)).map int_to_u32).getD u.val_u32
                  ((count : Int), write_reg s (some reg) val)
                else ((count : Int), s)
            else ((count : Int), s)
          else ((count : Int), s)
        else ((count : Int), s))

/-! ## Rendering the snapshot -/

/-- The digit table of the kernel's `number()`, lower case. -/
def hex_digit (d : Nat) : Char :=
  if d < 10 then Char.ofNat ('0'.toNat + d) else Char.ofNat ('a'.toNat + (d - 10))

/-- The digits `number()` puts in its temporary array, least significant first. -/
def number_digits : Nat → Nat → List Char
  | 0, _ => []
  | fuel + 1, num =>
    if num = 0 then [] else hex_digit (num % 16) :: number_digits fuel (num / 16)

/-- The conversion `%0Nx` of field width `width`. -/
def fmt_0x (width : Nat) (num : Nat) : List Char :=
  let tmp := if num = 0 then ['0'] else number_digits 16 num
  List.replicate (width - tmp.length) '0' ++ tmp.reverse

/-- The conversion `%-Ns` of field width `width`. -/
def fmt_left_s (width : Nat) (str : List Char) : List Char :=
  str ++ List.replicate (width - str.length) ' '

/-- The text of the format `"%-15s 0x%08x\n"`. -/
def format_line (name : List Char) (value : Nat) : List Char :=
  fmt_left_s 15 name ++ " 0x".toList ++ fmt_0x 8 value ++ ['\n']

/-- Overwrite the bytes of `buf` from offset `off` with `data`. -/
def write_at (buf : List Char) (off : Nat) (data : List Char) : List Char :=
  buf.take off ++ data ++ buf.drop (off + data.length)

/-- The call `snprintf(buf + c, size, ...)` producing `text`: at most `size - 1`
characters and a NUL are stored; nothing is stored when `size` is 0. -/
def snprintf (buf : List Char) (c size : Nat) (text : List Char) : List Char :=
  if size = 0 then buf else write_at buf c (text.take (size - 1) ++ [NUL])

/-- The loop of `make_proc_message` over the catalog entries still to render;
`c` is the offset of the cursor in `proc_message`. -/
def make_proc_message_loop : List ich7_register → Driver → Nat → Nat → Driver
  | [], s, _, _ => s
  | r :: rs, s, c, pm_length =>
    let res := read_reg s (some r)
    let s1 : Driver :=
      { res.2 with
        proc_message := snprintf res.2.proc_message c pm_length (format_line r.name res.1) }
    let n := strlen (s1.proc_message.drop c)
    make_proc_message_loop rs s1 (c + n) (pm_length - n)

def make_proc_message (s : Driver) : Driver :=
  make_proc_message_loop ich7_registers s 0 PROC_MESSAGE_LENGTH

/-- The text of the rendered snapshot: the C string at `proc_message`. -/
def snapshot (s : Driver) : List Char := cstr s.proc_message 0

/-- Words joined by single spaces. -/
def join_words : List (List Char) → List Char
  | [] => []
  | [w] => w
  | w :: w2 :: ws => w ++ ' ' :: join_words (w2 :: ws)

/-- A command line: words joined by single spaces, with a newline at the end
when `nl` is set. -/
def command_line (words : List (List Char)) (nl : Bool) : List Char :=
  join_words words ++ (if nl then ['\n'] else [])

/-- The 32-bit value `v` written as exactly 8 lower-case hexadecimal digits,
most significant first. -/
def hex8 (v : Nat) : List Char :=
  [7, 6, 5, 4, 3, 2, 1, 0].map (fun k => "0123456789abcdef".toList.getD (v / 16 ^ k % 16) '0')

/-! ## Integer literals -/

/-- Value of a string of decimal digits. -/
def dec_value (l : List Char) : Nat :=
  l.foldl (fun a c => a * 10 + (c.toNat - '0'.toNat)) 0

/-- Value of a string of hexadecimal digits. -/
def hex_value (l : List Char) : Nat :=
  l.foldl (fun a c => a * 16 + digit_value c) 0

/-- The string `l` is a literal of the number `v`: either a decimal literal (a
non-empty string of decimal digits that does not start with `0`, or the string
`0` itself) of value `v`, or `0x` followed by a non-empty string of hexadecimal
digits of value `v`. -/
def literal_of (v : Nat) (l : List Char) : Prop :=
  (l ≠ [] ∧ (∀ c ∈ l, isdigit c = true) ∧ (l.head? = some '0' → l = ['0']) ∧
    dec_value l = v) ∨
  (∃ ds, l = '0' :: 'x' :: ds ∧ ds ≠ [] ∧ (∀ c ∈ ds, isxdigit c = true) ∧ hex_value ds = v)

/-! ## Sample inputs -/

/-- The catalog entry of GPE0_STS. -/
def reg_GPE0_STS : ich7_register :=
  { name := "GPE0_STS".toList, base_reg := PM_BASE, offset := GPE0_STS }

/-- The catalog entry of GPE0_EN. -/
def reg_GPE0_EN : ich7_register :=
  { name := "GPE0_EN".toList, base_reg := PM_BASE, offset := GPE0_EN }

/-- The state used to instantiate the register-access theorems: IO base 0x400,
every port holding 0x5. -/
def sample_driver : Driver :=
  { nas_pm_io_base := 0x400, pm_resource := true, ports := fun _ => 0x5,
    trace := [], proc_message := List.replicate PROC_MESSAGE_LENGTH NUL, finished := false }

/-- Stack contents used to instantiate the theorems on the write handler. -/
def sample_uninit : Uninit :=
  { mem := fun _ => 'x', bitno := 7, val := 1, val_u32 := 0xdeadbeef }

/-! ## Stores into `read_buf` -/

/-- The indices of `read_buf` stored to before the call of `token`, in order:
those filled by `copy_from_user`, then the one of `read_buf[count] = '\0'`. -/
def read_buf_stores (count : Nat) : List Nat :=
  List.range (if count < READ_BUF then count else READ_BUF) ++ [count]

/-! ## The read handler of the control file -/

/-- The copy loop of `ich7_proc_read_event`,
`for(i = 0; i < length && proc_message[i]; i++) put_user(proc_message[i], buffer + i)`,
by recursion on the characters of `proc_message` not yet visited and the
number of bytes still allowed: the bytes stored to the user buffer, in order.
Their number is the final `i`. -/
def read_copy : List Char → Nat → List Char
  | [], _ => []
  | _ :: _, 0 => []
  | c :: cs, length + 1 => if c = NUL then [] else c :: read_copy cs length

/-- What a call of `ich7_proc_read_event` leaves behind: the value returned,
the bytes stored to the user buffer, the position `*ppos` and the state. -/
structure ReadResult where
  ret : Int
  data : List Char
  ppos : Nat
  drv : Driver

/-- The read handler, called with the requested `length` and the position
`*ppos` of the handle. -/
def ich7_proc_read_event (s : Driver) (length ppos : Nat) : ReadResult :=
  let s1 := if ppos = 0 then make_proc_message s else s
  if s1.finished then
    { ret := 0, data := [], ppos := ppos, drv := { s1 with finished := false } }
  else
    let data := read_copy s1.proc_message length
    { ret := (data.length : Int), data := data, ppos := ppos + data.length,
      drv := { s1 with finished := true } }

/-- A read cycle on one handle: the handler is called with the same `length`,
each call at the position the previous one left, until a call returns zero, for
at most `fuel` calls.  The result is the concatenation of the bytes delivered,
the final position and the final state; `none` when the fuel is used up before
a call returns zero. -/
def read_cycle : Nat → Driver → Nat → Nat → Option (List Char × Nat × Driver)
  | 0, _, _, _ => none
  | fuel + 1, s, length, ppos =>
    let r := ich7_proc_read_event s length ppos
    if r.ret = 0 then some ([], r.ppos, r.drv)
    else (read_cycle fuel r.drv length r.ppos).map (fun x => (r.data ++ x.1, x.2.1, x.2.2))

/-- The two lines of the snapshot for the values `sts` and `en` of the two
registers. -/
def two_lines (sts en : Nat) : List Char :=
  format_line "GPE0_STS".toList sts ++ format_line "GPE0_EN".toList en

/-! ## Probe, remove and module load -/

def EEXIST : Int := 17
def ENOMEM : Int := 12

/-- What the PCI core and the resource tree answer during one call of
`ich7_lpc_probe`: the status of `pci_enable_device`, the dword read from
ACPI_CNTL, the status of the read of PM_BASE and the dword it stores in
`nas_pm_io_base`, and whether `request_region` grants the region. -/
structure ProbeEnv where
  enable_status : Int
  ac : Nat
  pm_base_status : Int
  pm_base : Nat
  region_granted : Bool

/-- Return the IO address range if it has been obtained. -/
def ich7_lpc_cleanup (s : Driver) : Driver :=
  if s.pm_resource then { s with pm_resource := false } else s

/-- The probe function: the status returned and the state afterwards.  Every
path reaches the label `out`, where a non-zero status calls the cleanup. -/
def ich7_lpc_probe (s : Driver) (e : ProbeEnv) : Int × Driver :=
  if e.enable_status ≠ 0 then (e.enable_status, ich7_lpc_cleanup s)
  else if ACPI_EN &&& e.ac = 0 then (-EEXIST, ich7_lpc_cleanup s)
  else
    let s1 : Driver := { s with nas_pm_io_base := e.pm_base }
    if e.pm_base_status < 0 then (e.pm_base_status, ich7_lpc_cleanup s1)
    else
      let s2 : Driver := { s1 with nas_pm_io_base := s1.nas_pm_io_base &&& 0x0000ffc0 }
      let s3 : Driver := { s2 with pm_resource := e.region_granted }
      if e.region_granted = false then (-1, ich7_lpc_cleanup s3)
      else if e.pm_base_status ≠ 0 then (e.pm_base_status, ich7_lpc_cleanup s3)
      else (0, s3)

def ich7_lpc_remove (s : Driver) : Driver := ich7_lpc_cleanup s

/-- The module: its globals, whether the PCI driver is registered and whether
the control file exists. -/
structure Module where
  drv : Driver
  registered : Bool
  proc_entry : Bool

/-- The call `pci_register_driver` when it succeeds: probe is called for every
matching device present, one after the other; its status does not reach the
caller of `pci_register_driver`. -/
def pci_register_driver (s : Driver) (devices : List ProbeEnv) : Driver :=
  devices.foldl (fun s e => (ich7_lpc_probe s e).2) s

/-- Module load.  `register_ret` is the return value of `pci_register_driver`,
`devices` the matching devices it probes, `proc_created` whether
`create_proc_entry` returns an entry. -/
def nas_pm_init (m : Module) (register_ret : Int) (devices : List ProbeEnv)
    (proc_created : Bool) : Int × Module :=
  if register_ret ≠ 0 then (register_ret, m)
  else
    let drv := pci_register_driver m.drv devices
    if proc_created = false then
      (-ENOMEM, { drv := ich7_lpc_remove drv, registered := false, proc_entry := false })
    else (0, { drv := drv, registered := true, proc_entry := true })

/-- The steps of the module. -/
inductive Action where
  | load (register_ret : Int) (devices : List ProbeEnv) (proc_created : Bool)
  | probe (e : ProbeEnv)
  | remove
  | read (length ppos : Nat)
  | write (u : Uninit) (buf : Option (List Char)) (count : Nat)

/-- One step: `none` when the step cannot happen in the state (load of a loaded
module, probe or remove of a driver that is not registered, a read or write of
a control file that does not exist), or when it is a write with no defined
result. -/
def apply_action (m : Module) : Action → Option Module
  | Action.load register_ret devices proc_created =>
    if m.registered = true ∨ m.proc_entry = true then none
    else some (nas_pm_init m register_ret devices proc_created).2
  | Action.probe e =>
    if m.registered then some { m with drv := (ich7_lpc_probe m.drv e).2 } else none
  | Action.remove =>
    if m.registered then some { m with drv := ich7_lpc_remove m.drv } else none
  | Action.read length ppos =>
    if m.proc_entry then some { m with drv := (ich7_proc_read_event m.drv length ppos).drv }
    else none
  | Action.write u buf count =>
    if m.proc_entry then
      (ich7_proc_write_event m.drv u buf count).map (fun r => { m with drv := r.2 })
    else none

/-- A sequence of steps. -/
def run_actions : Module → List Action → Option Module
  | m, [] => some m
  | m, a :: as => (apply_action m a).bind (fun m' => run_actions m' as)

/-- The module before it is loaded: the globals as the loader zeroes them. -/
def boot : Module :=
  { drv := { nas_pm_io_base := 0, pm_resource := false, ports := fun _ => 0, trace := [],
             proc_message := List.replicate PROC_MESSAGE_LENGTH NUL, finished := false },
    registered := false, proc_entry := false }

/-- A device whose ACPI_CNTL has no bit of ACPI_EN set: probe fails. -/
def device_acpi_off : ProbeEnv :=
  { enable_status := 0, ac := 0, pm_base_status := 0, pm_base := 0x401, region_granted := true }

/-- A device on which probe succeeds, with PM_BASE 0x401. -/
def device_ok : ProbeEnv :=
  { enable_status := 0, ac := 0x81, pm_base_status := 0, pm_base := 0x401,
    region_granted := true }

/-! ## The cursor of `make_proc_message` -/

/-- One pass of the loop of `make_proc_message`: the offset `c` of the cursor in
`proc_message` and the value of `pm_length` at the call of `snprintf`, and the
number of bytes the call stores from the cursor on. -/
structure RenderIter where
  c : Nat
  pm_length : Nat
  stored : Nat

/-- Number of bytes `snprintf` stores for a buffer size `size` and a text:
the characters kept and the NUL. -/
def snprintf_stored (size : Nat) (text : List Char) : Nat :=
  if size = 0 then 0 else (text.take (size - 1)).length + 1

/-- The passes of the loop of `make_proc_message`, in order; the recursion is
the one of `make_proc_message_loop`. -/
def make_proc_message_iters : List ich7_register → Driver → Nat → Nat → List RenderIter
  | [], _, _, _ => []
  | r :: rs, s, c, pm_length =>
    let res := read_reg s (some r)
    let s1 : Driver :=
      { res.2 with
        proc_message := snprintf res.2.proc_message c pm_length (format_line r.name res.1) }
    let n := strlen (s1.proc_message.drop c)
    { c := c, pm_length := pm_length,
      stored := snprintf_stored pm_length (format_line r.name res.1) } ::
      make_proc_message_iters rs s1 (c + n) (pm_length - n)

/-! ## Calls of `set_reg_bit` running at the same time

A call of `set_reg_bit` that passes its checks takes four steps:
`spin_lock`, `inl`, `outl` (with the new value computed from the value read)
and `spin_unlock`.  Two calls run on two threads; a schedule says which thread
takes the next step.  A thread that tries `spin_lock` while the other holds the
lock spins: its step changes nothing. -/

/-- The step a call of `set_reg_bit` takes next. -/
inductive Pc where
  | lock
  | read
  | write
  | unlock
  | done
deriving DecidableEq

/-- The call holds `ich7_pm_lock`. -/
def Pc.holds : Pc → Bool
  | Pc.read => true
  | Pc.write => true
  | Pc.unlock => true
  | _ => false

/-- The call has made its `outl`. -/
def Pc.written : Pc → Bool
  | Pc.unlock => true
  | Pc.done => true
  | _ => false

/-- A call of `set_reg_bit` in progress: its arguments, the step it takes next
and its local `in_val`. -/
structure BitCall where
  reg : Option ich7_register
  bitno : Int
  val : Int
  pc : Pc
  in_val : Nat

/-- A call as it stands when the checks made before `spin_lock` are done: a call
that fails one of them returns at once.  `in_val` is not yet set. -/
def bit_call_start (s : Driver) (reg : Option ich7_register) (bitno val : Int) : BitCall :=
  { reg := reg, bitno := bitno, val := val, in_val := 0,
    pc := if (bitno < 0 ∨ bitno ≥ 32) ∨ (val < 0 ∨ val ≥ 2) ∨ get_reg_port s reg = NO_PORT
          then Pc.done else Pc.lock }

/-- Two calls in progress: the shared state, the holder of `ich7_pm_lock` if it
is held, and the call of each thread. -/
structure Par where
  drv : Driver
  lock : Option Bool
  calls : Bool → BitCall

/-- One step of thread `t`. -/
def par_step (p : Par) (t : Bool) : Par :=
  let c := p.calls t
  let port := get_reg_port p.drv c.reg
  match c.pc with
  | Pc.lock =>
    if p.lock = none then
      { p with lock := some t, calls := Function.update p.calls t { c with pc := Pc.read } }
    else p
  | Pc.read =>
    { p with
      drv := (inl p.drv port).2,
      calls := Function.update p.calls t { c with pc := Pc.write, in_val := (inl p.drv port).1 } }
  | Pc.write =>
    let in_val :=
      if c.val ≠ 0 then c.in_val ||| int_to_u32 (shl1 c.bitno)
      else c.in_val &&& int_to_u32 (bnot (shl1 c.bitno))
    { p with
      drv := outl p.drv in_val port,
      calls := Function.update p.calls t { c with pc := Pc.unlock, in_val := in_val } }
  | Pc.unlock =>
    { p with lock := none, calls := Function.update p.calls t { c with pc := Pc.done } }
  | Pc.done => p

/-- The steps of a schedule, in order. -/
def par_run (p : Par) (sched : List Bool) : Par := sched.foldl par_step p

/-- Two calls about to start: thread `false` runs the first, thread `true` the
second. -/
def par_start (s : Driver) (ra : Option ich7_register) (ba va : Int)
    (rb : Option ich7_register) (bb vb : Int) : Par :=
  { drv := s, lock := none,
    calls := fun t => if t then bit_call_start s rb bb vb else bit_call_start s ra ba va }

/-- What holds at every moment while two calls on the register `reg`, with bit
index `bit t` and value `v t` on thread `t`, are in progress: the IO base and
the arguments are unchanged; a thread is between its `spin_lock` and its
`spin_unlock` exactly when it is the holder of the lock; a thread about to
write has in `in_val` the value the port holds; and once a thread has written,
its bit of the port has its value. -/
def par_inv (s : Driver) (reg : ich7_register) (bit v : Bool → Nat) (p : Par) : Prop :=
  p.drv.nas_pm_io_base = s.nas_pm_io_base ∧
  (∀ t, (p.calls t).reg = some reg ∧ (p.calls t).bitno = (bit t : Int) ∧
    (p.calls t).val = (v t : Int)) ∧
  (∀ t, (p.calls t).pc.holds = true ↔ p.lock = some t) ∧
  (∀ t, (p.calls t).pc = Pc.write →
    (p.calls t).in_val = p.drv.ports (get_reg_port s (some reg))) ∧
  (∀ t, (p.calls t).pc.written = true →
    (p.drv.ports (get_reg_port s (some reg))).testBit (bit t) = decide (v t = 1))

/-! ## Facts about the machine-integer helpers -/

theorem int_to_u32_shl1 (b : Nat) (hb : b < 32) :
    int_to_u32 (shl1 (b : Int)) = 2 ^ b := by
  interval_cases b <;> rfl

theorem int_to_u32_bnot_shl1 (b : Nat) (hb : b < 32) :
    int_to_u32 (bnot (shl1 (b : Int))) = (2 ^ 32 - 1) ^^^ 2 ^ b := by
  interval_cases b <;> rfl

theorem masked_io_base_le (raw : Nat) : masked_io_base raw ≤ 0xffc0 := by
  unfold masked_io_base
  exact Nat.and_le_right

/-- With the IO base left by probe, a catalog register has a real port: the sum
does not wrap and is not the failure value. -/
theorem catalog_port (s : Driver) (raw : Nat) (reg : ich7_register)
    (hreg : reg ∈ ich7_registers) (hbase : s.nas_pm_io_base = masked_io_base raw) :
    get_reg_port s (some reg) = s.nas_pm_io_base + reg.offset ∧
      get_reg_port s (some reg) ≠ NO_PORT := by
  have hle := masked_io_base_le raw
  rw [← hbase] at hle
  simp only [ich7_registers, List.mem_cons, List.mem_singleton, List.not_mem_nil,
    or_false] at hreg
  have hN : NO_PORT = 4294967295 := rfl
  rcases hreg with h | h <;> subst h <;>
    simp only [get_reg_port, PM_BASE, GPE0_STS, GPE0_EN, U32, hN, if_true] <;>
    constructor <;> omega

theorem testBit_set (x b i : Nat) :
    (x ||| 2 ^ b).testBit i = if i = b then true else x.testBit i := by
  rw [Nat.testBit_or, Nat.testBit_two_pow]
  by_cases h : i = b
  · simp [h]
  · have h2 : ¬ b = i := fun e => h e.symm
    simp [h, h2]

theorem testBit_clear (x b i : Nat) (hx : x < 2 ^ 32) :
    (x &&& ((2 ^ 32 - 1) ^^^ 2 ^ b)).testBit i = if i = b then false else x.testBit i := by
  rw [Nat.testBit_and, Nat.testBit_xor, Nat.testBit_two_pow_sub_one, Nat.testBit_two_pow]
  by_cases h : i = b
  · subst h
    by_cases h32 : i < 32
    · simp [h32]
    · have : x.testBit i = false :=
        Nat.testBit_lt_two_pow (lt_of_lt_of_le hx (Nat.pow_le_pow_right (by norm_num) (by omega)))
      simp [this]
  · have h2 : ¬ b = i := fun e => h e.symm
    by_cases h32 : i < 32
    · simp [h, h2, h32]
    · have : x.testBit i = false :=
        Nat.testBit_lt_two_pow (lt_of_lt_of_le hx (Nat.pow_le_pow_right (by norm_num) (by omega)))
      simp [h, this]

/-! ## Register access: set_reg_bit, write_reg, read_reg -/

/-- C1: for a catalog register (IO base as left by probe), a 32-bit port value x,
a bit index b in [0,32) and v in {0,1}, set_reg_bit leaves the register's port
holding a 32-bit value whose bit b is v and whose other bits are those of x
(b = 31 included); every other port keeps its value and the only port write
added to the trace is the one to the register's port. -/
theorem set_reg_bit_changes_only_bit (s : Driver) (raw : Nat) (reg : ich7_register)
    (hreg : reg ∈ ich7_registers) (hbase : s.nas_pm_io_base = masked_io_base raw)
    (x : Nat) (hx : x < U32) (hport : s.ports (get_reg_port s (some reg)) = x)
    (b : Nat) (hb : b < 32) (v : Nat) (hv : v < 2) :
    (set_reg_bit s (some reg) b v).ports (get_reg_port s (some reg)) < U32 ∧
    (∀ i, ((set_reg_bit s (some reg) b v).ports (get_reg_port s (some reg))).testBit i =
        if i = b then decide (v = 1) else x.testBit i) ∧
    (∀ p, p ≠ get_reg_port s (some reg) →
        (set_reg_bit s (some reg) b v).ports p = s.ports p) ∧
    (set_reg_bit s (some reg) b v).trace =
        s.trace ++ [PortEvent.inl (get_reg_port s (some reg)),
          PortEvent.outl ((set_reg_bit s (some reg) b v).ports (get_reg_port s (some reg)))
            (get_reg_port s (some reg))] := by
  obtain ⟨-, hne⟩ := catalog_port s raw reg hreg hbase
  have hb1 : ¬ ((b : Int) < 0 ∨ (b : Int) ≥ 32) := by omega
  have hv1 : ¬ ((v : Int) < 0 ∨ (v : Int) ≥ 2) := by omega
  have hx32 : x < 2 ^ 32 := hx
  have hv01 : v = 0 ∨ v = 1 := by omega
  rcases hv01 with h0 | h1
  · subst h0
    have hres : set_reg_bit s (some reg) b ((0 : Nat) : Int) =
        outl (inl s (get_reg_port s (some reg))).2
          (x &&& ((2 ^ 32 - 1) ^^^ 2 ^ b)) (get_reg_port s (some reg)) := by
      simp only [set_reg_bit, hb1, hv1, hne, if_false, inl, hport,
        int_to_u32_bnot_shl1 b hb]
      simp
    rw [hres]
    refine ⟨?_, ?_, ?_, ?_⟩
    · simp only [outl, inl, Function.update_same]
      exact lt_of_le_of_lt Nat.and_le_left hx
    · intro i
      simp only [outl, inl, Function.update_same]
      rw [testBit_clear x b i hx32]
      simp
    · intro p hp
      simp only [outl, inl, Function.update_noteq hp]
    · simp [outl, inl]
  · subst h1
    have hres : set_reg_bit s (some reg) b ((1 : Nat) : Int) =
        outl (inl s (get_reg_port s (some reg))).2
          (x ||| 2 ^ b) (get_reg_port s (some reg)) := by
      simp only [set_reg_bit, hb1, hv1, hne, if_false, inl, hport,
        int_to_u32_shl1 b hb]
      simp
    rw [hres]
    refine ⟨?_, ?_, ?_, ?_⟩
    · simp only [outl, inl, Function.update_same]
      exact Nat.or_lt_two_pow hx32 (Nat.pow_lt_pow_right (by norm_num) hb)
    · intro i
      simp only [outl, inl, Function.update_same]
      rw [testBit_set x b i]
      simp
    · intro p hp
      simp only [outl, inl, Function.update_noteq hp]
    · simp [outl, inl]

theorem set_reg_bit_changes_only_bit_witness :
    reg_GPE0_EN ∈ ich7_registers ∧
    sample_driver.nas_pm_io_base = masked_io_base 0x400 ∧
    5 < U32 ∧ sample_driver.ports (get_reg_port sample_driver (some reg_GPE0_EN)) = 5 ∧
    31 < 32 ∧ 1 < 2 ∧
    ((set_reg_bit sample_driver (some reg_GPE0_EN) (31 : Nat) (1 : Nat)).ports
        (get_reg_port sample_driver (some reg_GPE0_EN)) < U32 ∧
    (∀ i, ((set_reg_bit sample_driver (some reg_GPE0_EN) (31 : Nat) (1 : Nat)).ports
          (get_reg_port sample_driver (some reg_GPE0_EN))).testBit i =
        if i = 31 then decide (1 = 1) else (5 : Nat).testBit i) ∧
    (∀ p, p ≠ get_reg_port sample_driver (some reg_GPE0_EN) →
        (set_reg_bit sample_driver (some reg_GPE0_EN) (31 : Nat) (1 : Nat)).ports p =
          sample_driver.ports p) ∧
    (set_reg_bit sample_driver (some reg_GPE0_EN) (31 : Nat) (1 : Nat)).trace =
        sample_driver.trace ++ [PortEvent.inl (get_reg_port sample_driver (some reg_GPE0_EN)),
          PortEvent.outl ((set_reg_bit sample_driver (some reg_GPE0_EN) (31 : Nat) (1 : Nat)).ports
              (get_reg_port sample_driver (some reg_GPE0_EN)))
            (get_reg_port sample_driver (some reg_GPE0_EN))]) :=
  ⟨by decide, by decide, by decide, rfl, by decide, by decide,
    set_reg_bit_changes_only_bit sample_driver 0x400 reg_GPE0_EN (by decide) (by decide)
      5 (by decide) rfl 31 (by decide) 1 (by decide)⟩

/-- C2: for every register (NULL included), every state and every pair of signed
integers (bitno, val) with bitno < 0 or bitno >= 32 or val < 0 or val >= 2,
set_reg_bit returns the state it was given: no port is read or written (the trace
is the same) and every port holds the value it held. -/
theorem set_reg_bit_out_of_range_noop (s : Driver) (reg : Option ich7_register)
    (bitno val : Int) (h : bitno < 0 ∨ bitno ≥ 32 ∨ val < 0 ∨ val ≥ 2) :
    set_reg_bit s reg bitno val = s := by
  unfold set_reg_bit
  by_cases hb : bitno < 0 ∨ bitno ≥ 32
  · simp only [hb, if_true]
  · have hv : val < 0 ∨ val ≥ 2 := by omega
    simp only [hb, hv, if_true, if_false]

theorem set_reg_bit_out_of_range_noop_witness :
    ((32 : Int) < 0 ∨ (32 : Int) ≥ 32 ∨ (1 : Int) < 0 ∨ (1 : Int) ≥ 2) ∧
    set_reg_bit sample_driver (some reg_GPE0_EN) 32 1 = sample_driver :=
  ⟨by decide, set_reg_bit_out_of_range_noop sample_driver (some reg_GPE0_EN) 32 1 (by decide)⟩

/-- C3: for a catalog register r (IO base as left by probe), every value v and
every port state, read_reg after write_reg r v returns v; the write changes no
port other than the port of r and adds exactly one port write, to that port. -/
theorem write_then_read_reg (s : Driver) (raw : Nat) (reg : ich7_register)
    (hreg : reg ∈ ich7_registers) (hbase : s.nas_pm_io_base = masked_io_base raw)
    (v : Nat) :
    (read_reg (write_reg s (some reg) v) (some reg)).1 = v ∧
    (∀ p, p ≠ get_reg_port s (some reg) → (write_reg s (some reg) v).ports p = s.ports p) ∧
    (write_reg s (some reg) v).trace =
      s.trace ++ [PortEvent.outl v (get_reg_port s (some reg))] := by
  obtain ⟨-, hne⟩ := catalog_port s raw reg hreg hbase
  have hw : write_reg s (some reg) v = outl s v (get_reg_port s (some reg)) := by
    simp only [write_reg, hne, if_false]
  have hport : get_reg_port (outl s v (get_reg_port s (some reg))) (some reg) =
      get_reg_port s (some reg) := rfl
  rw [hw]
  refine ⟨?_, ?_, ?_⟩
  · simp only [read_reg, hport, hne, if_false]
    simp only [inl, outl, Function.update_same]
  · intro p hp
    simp only [outl, Function.update_noteq hp]
  · rfl

theorem write_then_read_reg_witness :
    reg_GPE0_EN ∈ ich7_registers ∧
    sample_driver.nas_pm_io_base = masked_io_base 0x400 ∧
    ((read_reg (write_reg sample_driver (some reg_GPE0_EN) 0x10) (some reg_GPE0_EN)).1 = 0x10 ∧
    (∀ p, p ≠ get_reg_port sample_driver (some reg_GPE0_EN) →
      (write_reg sample_driver (some reg_GPE0_EN) 0x10).ports p = sample_driver.ports p) ∧
    (write_reg sample_driver (some reg_GPE0_EN) 0x10).trace =
      sample_driver.trace ++
        [PortEvent.outl 0x10 (get_reg_port sample_driver (some reg_GPE0_EN))]) :=
  ⟨by decide, by decide,
    write_then_read_reg sample_driver 0x400 reg_GPE0_EN (by decide) (by decide) 0x10⟩

/-! ## The tokenizer loop -/

theorem getD_append_cons (pre r : List Char) (c d : Char) :
    (pre ++ c :: r).getD pre.length d = c := by
  induction pre with
  | nil => rfl
  | cons a pre ih => simpa using ih

theorem set_append_cons (pre r : List Char) (c d : Char) :
    (pre ++ c :: r).set pre.length d = pre ++ d :: r := by
  induction pre with
  | nil => rfl
  | cons a pre ih => simp [ih]

theorem token_body_step (out_size : Int) (pre r post : List Char) (c : Char)
    (out : List (Nat × Nat)) (count : Nat) (start : Bool) :
    token_body out_size
        { buf := pre ++ (c :: r ++ post), out := out, count := count,
          i := pre.length, start_string_with_next := start } =
      { buf := pre ++ [if decide ((c = ' ' ∨ c = '\n') ∧
                  ((if start then count + 1 else count : Nat) : Int) < out_size)
                then NUL else c] ++ (r ++ post),
        out := out ++ (if start then [(count, pre.length)] else []),
        count := if start then count + 1 else count,
        i := pre.length + 1,
        start_string_with_next := decide ((c = ' ' ∨ c = '\n') ∧
                  ((if start then count + 1 else count : Nat) : Int) < out_size) } := by
  have hget : (pre ++ (c :: r ++ post)).getD pre.length NUL = c := by
    exact getD_append_cons pre (r ++ post) c NUL
  have hset : (pre ++ (c :: r ++ post)).set pre.length NUL = pre ++ NUL :: (r ++ post) := by
    exact set_append_cons pre (r ++ post) c NUL
  cases start with
  | true =>
    by_cases hd : (c = ' ' ∨ c = '\n') ∧ ((count + 1 : Nat) : Int) < out_size
    · simp only [token_body, if_true, hget, hd, and_self, hset, decide_True]
      simp
    · simp only [token_body, if_true, hget, hd, if_false, decide_False]
      simp
  | false =>
    by_cases hd : (c = ' ' ∨ c = '\n') ∧ ((count : Nat) : Int) < out_size
    · simp only [token_body, Bool.false_eq_true, if_true, if_false, hget, hd, and_self, hset,
        decide_True]
      simp
    · simp only [token_body, Bool.false_eq_true, if_true, if_false, hget, hd, decide_False]
      simp

theorem token_scan_cons (out_size : Int) (c : Char) (r : List Char) (i count : Nat)
    (start : Bool) (hc : (count : Int) < out_size) :
    token_scan out_size (c :: r) i count start =
      ((if decide ((c = ' ' ∨ c = '\n') ∧
            ((if start then count + 1 else count : Nat) : Int) < out_size) then NUL else c) ::
          (token_scan out_size r (i + 1) (if start then count + 1 else count)
            (decide ((c = ' ' ∨ c = '\n') ∧
              ((if start then count + 1 else count : Nat) : Int) < out_size))).1,
        (if start then [(count, i)] else []) ++
          (token_scan out_size r (i + 1) (if start then count + 1 else count)
            (decide ((c = ' ' ∨ c = '\n') ∧
              ((if start then count + 1 else count : Nat) : Int) < out_size))).2.1,
        (token_scan out_size r (i + 1) (if start then count + 1 else count)
            (decide ((c = ' ' ∨ c = '\n') ∧
              ((if start then count + 1 else count : Nat) : Int) < out_size))).2.2) := by
  rw [token_scan]
  simp only [hc, if_true]

theorem token_scan_full (out_size : Int) (l : List Char) (i count : Nat) (start : Bool)
    (hc : ¬ (count : Int) < out_size) :
    token_scan out_size l i count start = (l, [], count) := by
  cases l with
  | nil => rfl
  | cons c r => rw [token_scan]; simp only [hc, if_false]

/-- The loop, started at offset `pre.length` with `rest` still to visit and more
fuel than characters left, ends, and it ends in the state `token_scan` describes. -/
theorem token_loop_scan (out_size : Int) (post : List Char) :
    ∀ (rest pre : List Char) (out : List (Nat × Nat)) (count : Nat) (start : Bool)
      (fuel : Nat), rest.length < fuel →
      ∃ t, token_loop (pre.length + rest.length) out_size fuel
            { buf := pre ++ (rest ++ post), out := out, count := count,
              i := pre.length, start_string_with_next := start } = some t ∧
        t.buf = pre ++ ((token_scan out_size rest pre.length count start).1 ++ post) ∧
        t.out = out ++ (token_scan out_size rest pre.length count start).2.1 ∧
        t.count = (token_scan out_size rest pre.length count start).2.2 := by
  intro rest
  induction rest with
  | nil =>
    intro pre out count start fuel hf
    obtain ⟨f, rfl⟩ : ∃ f, fuel = f + 1 := ⟨fuel - 1, by simp at hf; omega⟩
    refine ⟨⟨pre ++ ([] ++ post), out, count, pre.length, start⟩, ?_, ?_, ?_, ?_⟩
    · simp [token_loop]
    · simp [token_scan]
    · simp [token_scan]
    · simp [token_scan]
  | cons c r ih =>
    intro pre out count start fuel hf
    obtain ⟨f, rfl⟩ : ∃ f, fuel = f + 1 := ⟨fuel - 1, by simp at hf; omega⟩
    have hf2 : r.length < f := by simp at hf; omega
    by_cases hc : (count : Int) < out_size
    · have hi : pre.length < pre.length + (c :: r).length := by simp
      have hlen : pre.length + (c :: r).length =
          (pre ++ [if decide ((c = ' ' ∨ c = '\n') ∧
                  ((if start then count + 1 else count : Nat) : Int) < out_size)
                then NUL else c]).length + r.length := by
        simp; omega
      have hlen1 : (pre ++ [if decide ((c = ' ' ∨ c = '\n') ∧
                  ((if start then count + 1 else count : Nat) : Int) < out_size)
                then NUL else c]).length = pre.length + 1 := by simp
      obtain ⟨t, h1, h2, h3, h4⟩ := ih
        (pre ++ [if decide ((c = ' ' ∨ c = '\n') ∧
                  ((if start then count + 1 else count : Nat) : Int) < out_size)
                then NUL else c])
        (out ++ (if start then [(count, pre.length)] else []))
        (if start then count + 1 else count)
        (decide ((c = ' ' ∨ c = '\n') ∧
                  ((if start then count + 1 else count : Nat) : Int) < out_size)) f hf2
      rw [hlen1] at h1 h2 h3 h4
      refine ⟨t, ?_, ?_, ?_, ?_⟩
      · rw [token_loop, if_pos ⟨hi, hc⟩, token_body_step, hlen, hlen1]
        exact h1
      · rw [h2, token_scan_cons out_size c r pre.length count start hc]
        simp
      · rw [h3, token_scan_cons out_size c r pre.length count start hc]
        simp
      · rw [h4, token_scan_cons out_size c r pre.length count start hc]
    · refine ⟨⟨pre ++ (c :: r ++ post), out, count, pre.length, start⟩, ?_, ?_, ?_, ?_⟩
      · simp [token_loop, hc]
      · rw [token_scan_full out_size _ _ _ _ hc]
      · rw [token_scan_full out_size _ _ _ _ hc]; simp
      · rw [token_scan_full out_size _ _ _ _ hc]

/-- The function `token` always returns, and its result is the one `token_scan`
gives for the characters before the first NUL. -/
theorem token_eq_scan (src : List Char) (out_size : Int) :
    ∃ t, token src out_size = some t ∧
      t.buf = (token_scan out_size (src.takeWhile (fun c => c ≠ NUL)) 0 0 true).1 ++
          src.dropWhile (fun c => c ≠ NUL) ∧
      t.out = (token_scan out_size (src.takeWhile (fun c => c ≠ NUL)) 0 0 true).2.1 ∧
      t.count = (token_scan out_size (src.takeWhile (fun c => c ≠ NUL)) 0 0 true).2.2 := by
  have h := token_loop_scan out_size (src.dropWhile (fun c => c ≠ NUL))
    (src.takeWhile (fun c => c ≠ NUL)) [] [] 0 true (strlen src + 1)
    (by simp [strlen])
  simp only [List.takeWhile_append_dropWhile, List.nil_append, List.length_nil,
    Nat.zero_add] at h
  exact h

/-- The stores of a scan go to the slots `count, count+1, ..., final count - 1`,
one store each, in this order. -/
theorem token_scan_slots (out_size : Int) :
    ∀ (rest : List Char) (i count : Nat) (start : Bool),
      count ≤ (token_scan out_size rest i count start).2.2 ∧
      (token_scan out_size rest i count start).2.1.map Prod.fst =
        List.range' count ((token_scan out_size rest i count start).2.2 - count) := by
  intro rest
  induction rest with
  | nil => intro i count start; simp [token_scan]
  | cons c r ih =>
    intro i count start
    by_cases hc : (count : Int) < out_size
    · rw [token_scan_cons out_size c r i count start hc]
      cases start with
      | true =>
        obtain ⟨h1, h2⟩ := ih (i + 1) (count + 1)
          (decide ((c = ' ' ∨ c = '\n') ∧ ((count + 1 : Nat) : Int) < out_size))
        simp only [if_true] at h1 h2 ⊢
        refine ⟨by omega, ?_⟩
        simp only [List.singleton_append, List.map_cons, h2]
        obtain ⟨m, hm⟩ : ∃ m, (token_scan out_size r (i + 1) (count + 1)
            (decide ((c = ' ' ∨ c = '\n') ∧ ((count + 1 : Nat) : Int) < out_size))).2.2
              = count + 1 + m := ⟨_, (Nat.add_sub_cancel' h1).symm⟩
        rw [hm]
        have e1 : count + 1 + m - (count + 1) = m := by omega
        have e2 : count + 1 + m - count = m + 1 := by omega
        rw [e1, e2, List.range'_succ]
      | false =>
        obtain ⟨h1, h2⟩ := ih (i + 1) count
          (decide ((c = ' ' ∨ c = '\n') ∧ ((count : Nat) : Int) < out_size))
        simp only [Bool.false_eq_true, if_false] at h1 h2 ⊢
        exact ⟨h1, by simpa using h2⟩
    · rw [token_scan_full out_size _ _ _ _ hc]
      simp

/-- A scan never takes `count` past `out_size`. -/
theorem token_scan_count_le (out_size : Int) :
    ∀ (rest : List Char) (i count : Nat) (start : Bool), (count : Int) ≤ out_size →
      ((token_scan out_size rest i count start).2.2 : Int) ≤ out_size := by
  intro rest
  induction rest with
  | nil => intro i count start h; simpa [token_scan] using h
  | cons c r ih =>
    intro i count start h
    by_cases hc : (count : Int) < out_size
    · rw [token_scan_cons out_size c r i count start hc]
      apply ih
      cases start with
      | true => simp only [if_true]; push_cast; omega
      | false => simpa using h
    · rw [token_scan_full out_size _ _ _ _ hc]
      exact h

/-- Every pointer stored by a scan is the offset of a character it visits. -/
theorem token_scan_ptr_bounds (out_size : Int) :
    ∀ (rest : List Char) (i count : Nat) (start : Bool),
      ∀ w ∈ (token_scan out_size rest i count start).2.1,
        i ≤ w.2 ∧ w.2 < i + rest.length := by
  intro rest
  induction rest with
  | nil => intro i count start w hw; simp [token_scan] at hw
  | cons c r ih =>
    intro i count start w hw
    by_cases hc : (count : Int) < out_size
    · rw [token_scan_cons out_size c r i count start hc] at hw
      simp only [List.mem_append] at hw
      rcases hw with hw | hw
      · cases start with
        | true =>
          simp only [if_true, List.mem_singleton] at hw
          subst hw
          simp
        | false => simp at hw
      · have := ih _ _ _ w hw
        simp only [List.length_cons]
        omega
    · rw [token_scan_full out_size _ _ _ _ hc] at hw
      simp at hw

theorem token_scan_length (out_size : Int) :
    ∀ (rest : List Char) (i count : Nat) (start : Bool),
      (token_scan out_size rest i count start).1.length = rest.length := by
  intro rest
  induction rest with
  | nil => intro i count start; simp [token_scan]
  | cons c r ih =>
    intro i count start
    by_cases hc : (count : Int) < out_size
    · rw [token_scan_cons out_size c r i count start hc]
      simp [ih]
    · rw [token_scan_full out_size _ _ _ _ hc]

/-! ## Reading `out[j]` -/

theorem out_slot_cons (a : Nat × Nat) (ws : List (Nat × Nat)) (j : Nat) :
    out_slot (a :: ws) j =
      (out_slot ws j).or (if a.1 = j then some a.2 else none) := by
  unfold out_slot
  rw [List.reverse_cons, List.find?_append]
  cases h : List.find? (fun w => decide (w.1 = j)) ws.reverse with
  | some w => simp
  | none =>
    by_cases ha : a.1 = j
    · simp [List.find?, ha]
    · simp [List.find?, ha]

theorem out_slot_none (ws : List (Nat × Nat)) (j : Nat) (h : ∀ w ∈ ws, w.1 ≠ j) :
    out_slot ws j = none := by
  unfold out_slot
  rw [Option.map_eq_none', List.find?_eq_none]
  intro w hw
  simpa using h w (List.mem_reverse.mp hw)

/-- When the stores went to consecutive slots, one store each, every one of
these slots holds the pointer of its store. -/
theorem out_slot_of_range :
    ∀ (ws : List (Nat × Nat)) (c n : Nat), ws.map Prod.fst = List.range' c n →
      ∀ j, c ≤ j → j < c + n → ∃ p, out_slot ws j = some p ∧ (j, p) ∈ ws := by
  intro ws
  induction ws with
  | nil =>
    intro c n h j h1 h2
    cases n with
    | zero => omega
    | succ n => simp [List.range'_succ] at h
  | cons a ws ih =>
    intro c n h j h1 h2
    cases n with
    | zero => simp at h
    | succ n =>
      rw [List.range'_succ, List.map_cons, List.cons.injEq] at h
      obtain ⟨ha, hws⟩ := h
      rw [out_slot_cons]
      by_cases hj : j = c
      · subst hj
        have hnone : out_slot ws j = none := by
          apply out_slot_none
          intro w hw
          have : w.1 ∈ List.range' (j + 1) n := by
            rw [← hws]; exact List.mem_map_of_mem _ hw
          rw [List.mem_range'_1] at this
          omega
        refine ⟨a.2, ?_, ?_⟩
        · rw [hnone]; simp [ha]
        · rw [← ha]; exact List.mem_cons_self _ _
      · obtain ⟨p, hp1, hp2⟩ := ih (c + 1) n hws j (by omega) (by omega)
        exact ⟨p, by rw [hp1]; rfl, List.mem_cons_of_mem _ hp2⟩

/-! ## C strings in a buffer -/

theorem takeWhile_append_nul (x post : List Char) (h : ∀ c ∈ post.head?, c = NUL) :
    (x ++ post).takeWhile (fun c => c ≠ NUL) = x.takeWhile (fun c => c ≠ NUL) := by
  induction x with
  | nil =>
    cases post with
    | nil => rfl
    | cons a post =>
      have : a = NUL := h a (by simp)
      simp [this]
  | cons a x ih =>
    by_cases ha : a = NUL
    · simp [ha]
    · simpa [List.takeWhile_cons, ha] using ih

theorem dropWhile_head_nul (src : List Char) :
    ∀ c ∈ (src.dropWhile (fun c => c ≠ NUL)).head?, c = NUL := by
  induction src with
  | nil => simp
  | cons a src ih =>
    by_cases ha : a = NUL
    · simp [ha]
    · simpa [List.dropWhile_cons, ha] using ih

theorem takeWhile_no_nul (src : List Char) :
    ∀ c ∈ src.takeWhile (fun c => c ≠ NUL), c ≠ NUL := by
  intro c hc
  simpa using List.mem_takeWhile_imp hc

theorem takeWhile_of_all (p : Char → Bool) (l : List Char) (h : ∀ c ∈ l, p c = true) :
    l.takeWhile p = l := by
  induction l with
  | nil => rfl
  | cons a l ih =>
    have ha := h a (List.mem_cons_self _ _)
    simp only [List.takeWhile_cons, ha, if_true]
    rw [ih (fun c hc => h c (List.mem_cons_of_mem _ hc))]

/-! ## What the tokens are -/

/-- Inside a token and below the cap: the scan cuts the token at the next
delimiter. -/
theorem token_scan_cut (out_size : Int) :
    ∀ (rest : List Char) (i count : Nat), (∀ c ∈ rest, c ≠ NUL) → (count : Int) < out_size →
      (token_scan out_size rest i count false).1.takeWhile (fun c => c ≠ NUL) =
        rest.takeWhile (fun c => decide (c ≠ ' ' ∧ c ≠ '\n')) := by
  intro rest
  induction rest with
  | nil => intro i count _ _; simp [token_scan]
  | cons c r ih =>
    intro i count hn hc
    have hcn : c ≠ NUL := hn c (List.mem_cons_self _ _)
    have hr : ∀ c ∈ r, c ≠ NUL := fun x hx => hn x (List.mem_cons_of_mem _ hx)
    rw [token_scan_cons out_size c r i count false hc]
    simp only [Bool.false_eq_true, if_false]
    by_cases hD : c = ' ' ∨ c = '\n'
    · have h1 : decide ((c = ' ' ∨ c = '\n') ∧ (count : Int) < out_size) = true := by
        simp [hD, hc]
      have h2 : decide (c ≠ ' ' ∧ c ≠ '\n') = false := by
        rw [decide_eq_false_iff_not]; tauto
      rw [h1]
      simp only [if_true, List.takeWhile_cons, h2]
      simp
    · have h1 : decide ((c = ' ' ∨ c = '\n') ∧ (count : Int) < out_size) = false := by
        simp [hD]
      have h2 : decide (c ≠ ' ' ∧ c ≠ '\n') = true := by
        rw [decide_eq_true_iff]; tauto
      have h3 : decide (c ≠ NUL) = true := by simp [hcn]
      rw [h1]
      simp only [Bool.false_eq_true, if_false, List.takeWhile_cons, h2, h3, if_true]
      rw [ih (i + 1) count hr hc]

/-- Where a scan stores a pointer, and what the buffer holds from there on: the
token of a slot below the last one is cut at the next delimiter, from the
pointer of slot `out_size - 1` on the buffer is left as it was. -/
theorem token_scan_tokens (out_size : Int) :
    ∀ (rest : List Char) (i count : Nat) (start : Bool), (∀ c ∈ rest, c ≠ NUL) →
      ∀ w ∈ (token_scan out_size rest i count start).2.1,
        (((w.1 + 1 : Nat) : Int) < out_size →
          ((token_scan out_size rest i count start).1.drop (w.2 - i)).takeWhile
              (fun c => c ≠ NUL) =
            (rest.drop (w.2 - i)).takeWhile (fun c => decide (c ≠ ' ' ∧ c ≠ '\n'))) ∧
        (¬ ((w.1 + 1 : Nat) : Int) < out_size →
          (token_scan out_size rest i count start).1.drop (w.2 - i) = rest.drop (w.2 - i)) := by
  intro rest
  induction rest with
  | nil => intro i count start _ w hw; simp [token_scan] at hw
  | cons c r ih =>
    intro i count start hn w hw
    have hcn : c ≠ NUL := hn c (List.mem_cons_self _ _)
    have hr : ∀ c ∈ r, c ≠ NUL := fun x hx => hn x (List.mem_cons_of_mem _ hx)
    by_cases hc : (count : Int) < out_size
    · rw [token_scan_cons out_size c r i count start hc] at hw ⊢
      simp only [List.mem_append] at hw
      have hrec : ∀ (c1 : Nat) (d : Bool), w ∈ (token_scan out_size r (i + 1) c1 d).2.1 →
          ∀ x : Char,
          (((w.1 + 1 : Nat) : Int) < out_size →
            ((x :: (token_scan out_size r (i + 1) c1 d).1).drop (w.2 - i)).takeWhile
                (fun c => c ≠ NUL) =
              ((c :: r).drop (w.2 - i)).takeWhile (fun c => decide (c ≠ ' ' ∧ c ≠ '\n'))) ∧
          (¬ ((w.1 + 1 : Nat) : Int) < out_size →
            (x :: (token_scan out_size r (i + 1) c1 d).1).drop (w.2 - i) =
              (c :: r).drop (w.2 - i)) := by
        intro c1 d hwr x
        have hb := (token_scan_ptr_bounds out_size r (i + 1) c1 d w hwr).1
        have hm : w.2 - i = (w.2 - (i + 1)) + 1 := by omega
        have := ih (i + 1) c1 d hr w hwr
        rw [hm, List.drop_succ_cons, List.drop_succ_cons]
        exact this
      rcases hw with hw | hw
      · cases start with
        | false => simp at hw
        | true =>
          simp only [if_true, List.mem_singleton] at hw
          subst hw
          simp only [if_true, Nat.sub_self, List.drop_zero]
          constructor
          · intro hlt
            by_cases hD : c = ' ' ∨ c = '\n'
            · have h1 : decide ((c = ' ' ∨ c = '\n') ∧ ((count + 1 : Nat) : Int) < out_size)
                  = true := by simp [hD]; exact_mod_cast hlt
              have h2 : decide (c ≠ ' ' ∧ c ≠ '\n') = false := by
                rw [decide_eq_false_iff_not]; tauto
              rw [h1]
              simp only [if_true, List.takeWhile_cons, h2]
              simp
            · have h1 : decide ((c = ' ' ∨ c = '\n') ∧ ((count + 1 : Nat) : Int) < out_size)
                  = false := by simp [hD]
              have h2 : decide (c ≠ ' ' ∧ c ≠ '\n') = true := by
                rw [decide_eq_true_iff]; tauto
              have h3 : decide (c ≠ NUL) = true := by simp [hcn]
              rw [h1]
              simp only [Bool.false_eq_true, if_false, List.takeWhile_cons, h2, h3, if_true]
              rw [token_scan_cut out_size r (i + 1) (count + 1) hr hlt]
          · intro hge
            have h1 : decide ((c = ' ' ∨ c = '\n') ∧ ((count + 1 : Nat) : Int) < out_size)
                = false := by
              rw [decide_eq_false_iff_not]; tauto
            rw [h1]
            simp only [Bool.false_eq_true, if_false]
            rw [token_scan_full out_size r (i + 1) (count + 1) false hge]
      · exact hrec _ _ hw _
    · rw [token_scan_full out_size _ _ _ _ hc] at hw
      simp at hw

/-- A pointer is stored either at the place the scan starts from, when it starts
with `start_string_with_next` set, or right after a delimiter. -/
theorem token_scan_starts (out_size : Int) :
    ∀ (rest : List Char) (i count : Nat) (start : Bool),
      ∀ w ∈ (token_scan out_size rest i count start).2.1,
        (w.2 = i ∧ start = true) ∨
        (i < w.2 ∧ (rest.getD (w.2 - i - 1) NUL = ' ' ∨ rest.getD (w.2 - i - 1) NUL = '\n')) := by
  intro rest
  induction rest with
  | nil => intro i count start w hw; simp [token_scan] at hw
  | cons c r ih =>
    intro i count start w hw
    by_cases hc : (count : Int) < out_size
    · rw [token_scan_cons out_size c r i count start hc] at hw
      simp only [List.mem_append] at hw
      rcases hw with hw | hw
      · cases start with
        | false => simp at hw
        | true =>
          simp only [if_true, List.mem_singleton] at hw
          subst hw
          exact Or.inl ⟨rfl, rfl⟩
      · right
        rcases ih _ _ _ w hw with ⟨h1, h2⟩ | ⟨h1, h2⟩
        · rw [decide_eq_true_iff] at h2
          refine ⟨by omega, ?_⟩
          have e : w.2 - i - 1 = 0 := by omega
          rw [e]
          exact h2.1
        · refine ⟨by omega, ?_⟩
          have hm : w.2 - i - 1 = (w.2 - (i + 1) - 1) + 1 := by omega
          rw [hm]
          simpa using h2
    · rw [token_scan_full out_size _ _ _ _ hc] at hw
      simp at hw

theorem takeWhile_delim_append (x post : List Char) (hx : ∀ c ∈ x, c ≠ NUL)
    (h : ∀ c ∈ post.head?, c = NUL) :
    (x ++ post).takeWhile (fun c => decide (c ≠ ' ' ∧ c ≠ '\n' ∧ c ≠ NUL)) =
      x.takeWhile (fun c => decide (c ≠ ' ' ∧ c ≠ '\n')) := by
  induction x with
  | nil =>
    cases post with
    | nil => rfl
    | cons a post =>
      have : a = NUL := h a (by simp)
      simp [this]
  | cons a x ih =>
    have ha : a ≠ NUL := hx a (List.mem_cons_self _ _)
    have hx2 : ∀ c ∈ x, c ≠ NUL := fun c hc => hx c (List.mem_cons_of_mem _ hc)
    by_cases hD : a ≠ ' ' ∧ a ≠ '\n'
    · have h1 : decide (a ≠ ' ' ∧ a ≠ '\n' ∧ a ≠ NUL) = true := by
        rw [decide_eq_true_iff]; exact ⟨hD.1, hD.2, ha⟩
      have h2 : decide (a ≠ ' ' ∧ a ≠ '\n') = true := by
        rw [decide_eq_true_iff]; exact hD
      rw [List.cons_append, List.takeWhile_cons, List.takeWhile_cons]
      simp only [h1, h2, if_true]
      rw [ih hx2]
    · have h1 : decide (a ≠ ' ' ∧ a ≠ '\n' ∧ a ≠ NUL) = false := by
        rw [decide_eq_false_iff_not]; tauto
      have h2 : decide (a ≠ ' ' ∧ a ≠ '\n') = false := by
        rw [decide_eq_false_iff_not]; exact hD
      rw [List.cons_append, List.takeWhile_cons, List.takeWhile_cons]
      simp only [h1, h2, Bool.false_eq_true, if_false]

/-- The result of `token`, in full: it returns; `count` does not exceed a
non-negative `out_size`; the stores go to the slots `0 .. count-1`, one store
each, in order; every pointer stored is the offset of a character of the input,
the first one or one that follows a delimiter; the token of a slot other than
`out_size - 1` is the input from its pointer to the next space, newline or
NUL, and the token of slot `out_size - 1` is the input from its pointer to the
NUL. -/
theorem token_spec (src : List Char) (out_size : Int) :
    ∃ t, token src out_size = some t ∧
      (0 ≤ out_size → (t.count : Int) ≤ out_size) ∧
      t.out.map Prod.fst = List.range t.count ∧
      (∀ w ∈ t.out, w.2 < strlen src) ∧
      (∀ w ∈ t.out, w.2 = 0 ∨
        (0 < w.2 ∧ (src.getD (w.2 - 1) NUL = ' ' ∨ src.getD (w.2 - 1) NUL = '\n'))) ∧
      (∀ w ∈ t.out,
        (((w.1 + 1 : Nat) : Int) < out_size →
          cstr t.buf w.2 =
            (src.drop w.2).takeWhile (fun c => decide (c ≠ ' ' ∧ c ≠ '\n' ∧ c ≠ NUL))) ∧
        (¬ ((w.1 + 1 : Nat) : Int) < out_size → cstr t.buf w.2 = cstr src w.2)) := by
  obtain ⟨t, ht, hbuf, hout, hcount⟩ := token_eq_scan src out_size
  have hsrc : src.takeWhile (fun c => c ≠ NUL) ++ src.dropWhile (fun c => c ≠ NUL) = src :=
    List.takeWhile_append_dropWhile _ _
  have hpost := dropWhile_head_nul src
  have hrest := takeWhile_no_nul src
  have hlen := token_scan_length out_size (src.takeWhile (fun c => c ≠ NUL)) 0 0 true
  generalize hR : src.takeWhile (fun c => c ≠ NUL) = rest at *
  generalize hP : src.dropWhile (fun c => c ≠ NUL) = post at *
  have hstrlen : strlen src = rest.length := by rw [strlen, hR]
  refine ⟨t, ht, ?_, ?_, ?_, ?_, ?_⟩
  · intro h0
    rw [hcount]
    exact token_scan_count_le out_size rest 0 0 true (by simpa using h0)
  · have := (token_scan_slots out_size rest 0 0 true).2
    rw [hout, hcount, this, List.range_eq_range']
    simp
  · intro w hw
    rw [hout] at hw
    have := (token_scan_ptr_bounds out_size rest 0 0 true w hw).2
    omega
  · intro w hw
    rw [hout] at hw
    have hb := (token_scan_ptr_bounds out_size rest 0 0 true w hw).2
    rcases token_scan_starts out_size rest 0 0 true w hw with ⟨h1, _⟩ | ⟨h1, h2⟩
    · exact Or.inl h1
    · right
      refine ⟨h1, ?_⟩
      have hget : src.getD (w.2 - 1) NUL = rest.getD (w.2 - 0 - 1) NUL := by
        rw [← hsrc, Nat.sub_zero]
        exact List.getD_append _ _ _ _ (by omega)
      rw [hget]
      exact h2
  · intro w hw
    rw [hout] at hw
    have hb := (token_scan_ptr_bounds out_size rest 0 0 true w hw).2
    have hle : w.2 ≤ (token_scan out_size rest 0 0 true).1.length := by rw [hlen]; omega
    have hle2 : w.2 ≤ rest.length := by omega
    have hdrop_t : t.buf.drop w.2 =
        (token_scan out_size rest 0 0 true).1.drop w.2 ++ post := by
      rw [hbuf]; exact List.drop_append_of_le_length hle
    have hdrop_s : src.drop w.2 = rest.drop w.2 ++ post := by
      rw [← hsrc]; exact List.drop_append_of_le_length hle2
    have hrest2 : ∀ c ∈ rest.drop w.2, c ≠ NUL :=
      fun c hc => hrest c (List.mem_of_mem_drop hc)
    obtain ⟨hA, hB⟩ := token_scan_tokens out_size rest 0 0 true hrest w hw
    rw [Nat.sub_zero] at hA hB
    constructor
    · intro hlt
      rw [cstr, hdrop_t, takeWhile_append_nul _ _ hpost, hA hlt, hdrop_s,
        takeWhile_delim_append _ _ hrest2 hpost]
    · intro hge
      rw [cstr, cstr, hdrop_t, hB hge, hdrop_s]

/-- Slot `j < count` of `out` holds the pointer of the one store made to it. -/
theorem token_slot (t : TokenState) (h : t.out.map Prod.fst = List.range t.count)
    (j : Nat) (hj : j < t.count) :
    ∃ p, out_slot t.out j = some p ∧ (j, p) ∈ t.out := by
  rw [List.range_eq_range'] at h
  exact out_slot_of_range t.out 0 t.count h j (Nat.zero_le _) (by omega)

/-! ## Tokenizing words joined by single spaces -/

theorem out_slot_index :
    ∀ (ws : List (Nat × Nat)) (c n : Nat), ws.map Prod.fst = List.range' c n →
      ∀ j (hj : j < ws.length), out_slot ws (c + j) = some (ws.get ⟨j, hj⟩).2 := by
  intro ws
  induction ws with
  | nil => intro c n _ j hj; simp at hj
  | cons a ws ih =>
    intro c n h j hj
    cases n with
    | zero => simp at h
    | succ n =>
      rw [List.range'_succ, List.map_cons, List.cons.injEq] at h
      obtain ⟨ha, hws⟩ := h
      rw [out_slot_cons]
      cases j with
      | zero =>
        have hnone : out_slot ws (c + 0) = none := by
          apply out_slot_none
          intro w hw
          have : w.1 ∈ List.range' (c + 1) n := by
            rw [← hws]; exact List.mem_map_of_mem _ hw
          rw [List.mem_range'_1] at this
          omega
        rw [hnone]
        simp [ha]
      | succ j =>
        have hj2 : j < ws.length := by simpa using hj
        have := ih (c + 1) n hws j hj2
        have e : c + (j + 1) = c + 1 + j := by omega
        rw [e, this]
        rfl

/-- With one store per slot, the token strings are the C strings at the stored
pointers, in the order of the stores. -/
theorem token_strs_eq (t : TokenState) (h : t.out.map Prod.fst = List.range t.count) :
    token_strs t = t.out.map (fun w => some (cstr t.buf w.2)) := by
  have hlen : t.out.length = t.count := by
    have := congrArg List.length h
    simpa using this
  rw [List.range_eq_range'] at h
  apply List.ext_get
  · simp [token_strs, hlen]
  · intro j h1 h2
    have hj : j < t.out.length := by simpa using h2
    have hs := out_slot_index t.out 0 t.count h j hj
    rw [Nat.zero_add] at hs
    simp [token_strs, token_str, hs]

theorem token_scan_word_tail (out_size : Int) (tl : List Char) :
    ∀ (w : List Char) (i count : Nat), (∀ c ∈ w, c ≠ ' ' ∧ c ≠ '\n') →
      (count : Int) < out_size →
      token_scan out_size (w ++ tl) i count false =
        (w ++ (token_scan out_size tl (i + w.length) count false).1,
          (token_scan out_size tl (i + w.length) count false).2.1,
          (token_scan out_size tl (i + w.length) count false).2.2) := by
  intro w
  induction w with
  | nil => intro i count _ _; simp
  | cons c w ih =>
    intro i count hw hc
    have hD : ¬ (c = ' ' ∨ c = '\n') := by
      have := hw c (List.mem_cons_self _ _); tauto
    have h1 : decide ((c = ' ' ∨ c = '\n') ∧ (count : Int) < out_size) = false := by
      simp [hD]
    rw [List.cons_append, token_scan_cons out_size c (w ++ tl) i count false hc]
    simp only [Bool.false_eq_true, if_false, h1]
    rw [ih (i + 1) count (fun x hx => hw x (List.mem_cons_of_mem _ hx)) hc]
    have e : i + 1 + w.length = i + (c :: w).length := by simp; omega
    rw [e]
    simp

/-- The scan of a word that starts a token. -/
theorem token_scan_word (out_size : Int) (tl : List Char) (c : Char) (w : List Char)
    (i count : Nat) (hw : ∀ x ∈ c :: w, x ≠ ' ' ∧ x ≠ '\n') (hc : (count : Int) < out_size) :
    token_scan out_size (c :: w ++ tl) i count true =
      if ((count + 1 : Nat) : Int) < out_size then
        (c :: w ++ (token_scan out_size tl (i + (c :: w).length) (count + 1) false).1,
          (count, i) :: (token_scan out_size tl (i + (c :: w).length) (count + 1) false).2.1,
          (token_scan out_size tl (i + (c :: w).length) (count + 1) false).2.2)
      else (c :: w ++ tl, [(count, i)], count + 1) := by
  have hD : ¬ (c = ' ' ∨ c = '\n') := by
    have := hw c (List.mem_cons_self _ _); tauto
  have h1 : decide ((c = ' ' ∨ c = '\n') ∧ ((count + 1 : Nat) : Int) < out_size) = false := by
    simp [hD]
  rw [List.cons_append, token_scan_cons out_size c (w ++ tl) i count true hc]
  simp only [if_true, h1, Bool.false_eq_true, if_false]
  by_cases hlt : ((count + 1 : Nat) : Int) < out_size
  · rw [if_pos hlt,
      token_scan_word_tail out_size tl w (i + 1) (count + 1)
        (fun x hx => hw x (List.mem_cons_of_mem _ hx)) hlt]
    have e : i + 1 + w.length = i + (c :: w).length := by simp; omega
    rw [e]
    simp
  · rw [if_neg hlt, token_scan_full out_size _ _ _ _ hlt]
    simp

theorem takeWhile_word (w tl : List Char) (hw : ∀ c ∈ w, c ≠ NUL) :
    (w ++ NUL :: tl).takeWhile (fun c => c ≠ NUL) = w := by
  induction w with
  | nil => simp
  | cons a w ih =>
    have ha : decide (a ≠ NUL) = true := by simpa using hw a (List.mem_cons_self _ _)
    rw [List.cons_append, List.takeWhile_cons]
    simp only [ha, if_true]
    rw [ih (fun c hc => hw c (List.mem_cons_of_mem _ hc))]

theorem takeWhile_word_end (w : List Char) (hw : ∀ c ∈ w, c ≠ NUL) :
    w.takeWhile (fun c => c ≠ NUL) = w :=
  takeWhile_of_all _ w (fun c hc => by simpa using hw c hc)

/-- The scan of a command line from the start of its first word: every word
becomes one token. -/
theorem token_scan_words (out_size : Int) (nl : Bool) :
    ∀ (words : List (List Char)) (i count : Nat), words ≠ [] →
      (∀ w ∈ words, w ≠ [] ∧ ∀ c ∈ w, c ≠ ' ' ∧ c ≠ '\n' ∧ c ≠ NUL) →
      ((count + words.length : Nat) : Int) ≤ out_size →
      (nl = true → ((count + words.length : Nat) : Int) < out_size) →
      (token_scan out_size (command_line words nl) i count true).2.2 = count + words.length ∧
      (token_scan out_size (command_line words nl) i count true).2.1.map
          (fun w => ((token_scan out_size (command_line words nl) i count true).1.drop
            (w.2 - i)).takeWhile (fun c => c ≠ NUL)) = words := by
  intro words
  induction words with
  | nil => intro i count h; exact absurd rfl h
  | cons w ws ih =>
    intro i count _ hwords hle hnl
    obtain ⟨hwne, hwc⟩ := hwords w (List.mem_cons_self _ _)
    have hwd : ∀ x ∈ w, x ≠ ' ' ∧ x ≠ '\n' := fun x hx => ⟨(hwc x hx).1, (hwc x hx).2.1⟩
    have hwn : ∀ x ∈ w, x ≠ NUL := fun x hx => (hwc x hx).2.2
    have hc : (count : Int) < out_size := by
      have : ((count + (w :: ws).length : Nat) : Int) ≤ out_size := hle
      simp only [List.length_cons] at this
      push_cast at this
      omega
    obtain ⟨c, w', rfl⟩ : ∃ c w', w = c :: w' := by
      cases w with
      | nil => exact absurd rfl hwne
      | cons c w' => exact ⟨c, w', rfl⟩
    cases ws with
    | nil =>
      have hcl : command_line [c :: w'] nl = c :: w' ++ (if nl then ['\n'] else []) := rfl
      rw [hcl, token_scan_word out_size _ c w' i count hwd hc]
      by_cases hlt : ((count + 1 : Nat) : Int) < out_size
      · rw [if_pos hlt]
        cases nl with
        | false =>
          simp only [Bool.false_eq_true, if_false, token_scan, List.length_singleton,
            List.map_cons, List.map_nil, Nat.sub_self, List.drop_zero, List.append_nil]
          exact ⟨trivial, by rw [takeWhile_word_end _ hwn]⟩
        | true =>
          simp only [if_true]
          rw [token_scan_cons out_size '\n' [] _ (count + 1) false hlt]
          have h1 : decide (('\n' = ' ' ∨ '\n' = '\n') ∧
              ((if false = true then count + 1 + 1 else count + 1 : Nat) : Int) < out_size)
                = true := by
            simp only [Bool.false_eq_true, if_false]
            rw [decide_eq_true_iff]
            exact ⟨Or.inr trivial, hlt⟩
          rw [h1]
          simp only [Bool.false_eq_true, if_false, if_true, token_scan, List.length_singleton,
            List.map_cons, List.map_nil, Nat.sub_self, List.drop_zero, List.nil_append,
            List.append_nil]
          exact ⟨trivial, by rw [takeWhile_word _ _ hwn]⟩
      · rw [if_neg hlt]
        have hnl2 : nl = false := by
          cases nl with
          | false => rfl
          | true =>
            have := hnl rfl
            simp only [List.length_singleton] at this
            exact absurd this hlt
        subst hnl2
        simp only [Bool.false_eq_true, if_false, List.length_singleton, List.map_cons,
          List.map_nil, Nat.sub_self, List.drop_zero, List.append_nil]
        exact ⟨trivial, by rw [takeWhile_word_end _ hwn]⟩
    | cons w2 ws =>
      have hlt : ((count + 1 : Nat) : Int) < out_size := by
        have : ((count + ((c :: w') :: w2 :: ws).length : Nat) : Int) ≤ out_size := hle
        simp only [List.length_cons] at this
        push_cast at this ⊢
        omega
      have hcl : command_line ((c :: w') :: w2 :: ws) nl =
          c :: w' ++ ' ' :: command_line (w2 :: ws) nl := by
        simp [command_line, join_words]
      have ih2 := ih (i + (c :: w').length + 1) (count + 1) (by simp)
        (fun x hx => hwords x (List.mem_cons_of_mem _ hx))
        (by
          have : ((count + ((c :: w') :: w2 :: ws).length : Nat) : Int) ≤ out_size := hle
          simp only [List.length_cons] at this ⊢
          push_cast at this ⊢
          omega)
        (by
          intro h
          have := hnl h
          simp only [List.length_cons] at this ⊢
          push_cast at this ⊢
          omega)
      have hptr := token_scan_ptr_bounds out_size (command_line (w2 :: ws) nl)
        (i + (c :: w').length + 1) (count + 1) true
      have h1 : decide ((' ' = ' ' ∨ ' ' = '\n') ∧
          ((if false = true then count + 1 + 1 else count + 1 : Nat) : Int) < out_size)
            = true := by
        simp only [Bool.false_eq_true, if_false]
        rw [decide_eq_true_iff]
        exact ⟨Or.inl trivial, hlt⟩
      have hR : token_scan out_size (command_line ((c :: w') :: w2 :: ws) nl) i count true =
          (c :: w' ++ NUL :: (token_scan out_size (command_line (w2 :: ws) nl)
              (i + (c :: w').length + 1) (count + 1) true).1,
            (count, i) :: (token_scan out_size (command_line (w2 :: ws) nl)
              (i + (c :: w').length + 1) (count + 1) true).2.1,
            (token_scan out_size (command_line (w2 :: ws) nl)
              (i + (c :: w').length + 1) (count + 1) true).2.2) := by
        rw [hcl, token_scan_word out_size _ c w' i count hwd hc, if_pos hlt,
          token_scan_cons out_size ' ' _ _ (count + 1) false hlt, h1]
        simp only [Bool.false_eq_true, if_false, if_true, List.nil_append]
      rw [hR]
      generalize token_scan out_size (command_line (w2 :: ws) nl)
        (i + (c :: w').length + 1) (count + 1) true = R2 at ih2 hptr
      obtain ⟨ihc, iht⟩ := ih2
      refine ⟨?_, ?_⟩
      · simp only [ihc, List.length_cons]; omega
      · simp only [List.map_cons, Nat.sub_self, List.drop_zero]
        rw [takeWhile_word _ _ hwn]
        congr 1
        rw [← iht]
        apply List.map_congr_left
        intro x hx
        have hb := (hptr x hx).1
        have e : x.2 - i = (c :: w').length + 1 + (x.2 - (i + (c :: w').length + 1)) := by
          omega
        have hd : (c :: w' ++ NUL :: R2.1).drop ((c :: w').length + 1 +
            (x.2 - (i + (c :: w').length + 1))) =
            R2.1.drop (x.2 - (i + (c :: w').length + 1)) := by
          have e2 : c :: w' ++ NUL :: R2.1 = (c :: w' ++ [NUL]) ++ R2.1 := by simp
          have e3 : (c :: w').length + 1 = (c :: w' ++ [NUL]).length := by simp
          rw [e2, e3, List.drop_append]
        rw [e, hd]

theorem join_words_no_nul :
    ∀ (words : List (List Char)), (∀ w ∈ words, ∀ c ∈ w, c ≠ NUL) →
      ∀ c ∈ join_words words, c ≠ NUL := by
  intro words
  induction words with
  | nil => intro _ c hc; simp [join_words] at hc
  | cons w ws ih =>
    intro h c hc
    cases ws with
    | nil => exact h w (List.mem_cons_self _ _) c (by simpa [join_words] using hc)
    | cons w2 ws =>
      simp only [join_words, List.mem_append, List.mem_cons] at hc
      rcases hc with hc | hc | hc
      · exact h w (List.mem_cons_self _ _) c hc
      · rw [hc]; decide
      · exact ih (fun x hx => h x (List.mem_cons_of_mem _ hx)) c hc

theorem command_line_no_nul (words : List (List Char)) (nl : Bool)
    (h : ∀ w ∈ words, ∀ c ∈ w, c ≠ NUL) : ∀ c ∈ command_line words nl, c ≠ NUL := by
  intro c hc
  simp only [command_line, List.mem_append] at hc
  rcases hc with hc | hc
  · exact join_words_no_nul words h c hc
  · cases nl with
    | false => simp at hc
    | true =>
      simp only [if_true, List.mem_singleton] at hc
      rw [hc]; decide

/-- Tokenizing a command line of at most `out_size` words (fewer than `out_size`
when a newline follows the last word) returns the number of words and produces
exactly the words. -/
theorem token_of_words (words : List (List Char)) (nl : Bool) (out_size : Nat)
    (hne : words ≠ [])
    (hwords : ∀ w ∈ words, w ≠ [] ∧ ∀ c ∈ w, c ≠ ' ' ∧ c ≠ '\n' ∧ c ≠ NUL)
    (hle : words.length ≤ out_size) (hnl : nl = true → words.length < out_size) :
    ∃ t, token (command_line words nl) out_size = some t ∧
      t.count = words.length ∧ token_strs t = words.map some := by
  obtain ⟨t, ht, hbuf, hout, hcount⟩ := token_eq_scan (command_line words nl) out_size
  have hnn := command_line_no_nul words nl (fun w hw c hc => ((hwords w hw).2 c hc).2.2)
  have htw : (command_line words nl).takeWhile (fun c => c ≠ NUL) = command_line words nl :=
    takeWhile_word_end _ hnn
  have hdw : (command_line words nl).dropWhile (fun c => c ≠ NUL) = [] := by
    have := List.takeWhile_append_dropWhile (fun c => decide (c ≠ NUL)) (command_line words nl)
    rw [htw] at this
    exact List.append_right_eq_self.mp this
  rw [htw] at hbuf hout hcount
  rw [hdw, List.append_nil] at hbuf
  obtain ⟨hc, htok⟩ := token_scan_words (out_size : Int) nl words 0 0 hne hwords
    (by simpa using hle) (by intro h; simpa using hnl h)
  have hslots := (token_scan_slots (out_size : Int) (command_line words nl) 0 0 true).2
  rw [← hout, ← hcount] at hslots
  rw [← hcount, Nat.zero_add] at hc
  refine ⟨t, ht, hc, ?_⟩
  rw [token_strs_eq t (by rw [hslots, List.range_eq_range']; simp)]
  rw [← hout, ← hbuf] at htok
  conv_rhs => rw [← htok]
  rw [List.map_map]
  apply List.map_congr_left
  intro w _
  simp [cstr]

/-! ## The tokenizer: claims -/

/-- C4, as stated, fails when the number of words equals `max_tokens` and a
newline follows: for the words "a", "b", a trailing newline and `max_tokens = 2`
the second token is "b\n", not "b". -/
theorem token_newline_kept_at_cap :
    (token (command_line ["a".toList, "b".toList] true) 2).map token_strs =
        some [some "a".toList, some "b\n".toList] ∧
    (token (command_line ["a".toList, "b".toList] true) 2).map token_strs ≠
        some (["a".toList, "b".toList].map some) := by
  decide

/-- C4 (amended): for every list of k words, 1 <= k <= max_tokens, each word
non-empty and free of space, newline and NUL, joined by single spaces, and
optionally followed by one newline provided k < max_tokens, `token` returns k
and produces exactly these k words in order; the newline is not part of the
last token. -/
theorem token_splits_words (words : List (List Char)) (nl : Bool) (max_tokens : Nat)
    (h1 : 1 ≤ words.length) (hle : words.length ≤ max_tokens)
    (hnl : nl = true → words.length < max_tokens)
    (hwords : ∀ w ∈ words, w ≠ [] ∧ ∀ c ∈ w, c ≠ ' ' ∧ c ≠ '\n' ∧ c ≠ NUL) :
    ∃ t, token (command_line words nl) max_tokens = some t ∧
      t.count = words.length ∧ token_strs t = words.map some := by
  have hne : words ≠ [] := by
    intro h; rw [h] at h1; simp at h1
  exact token_of_words words nl max_tokens hne hwords hle hnl

theorem token_splits_words_witness :
    command_line ["set".toList, "GPE0_EN".toList, "0x10".toList] true =
      "set GPE0_EN 0x10\n".toList ∧
    1 ≤ ["set".toList, "GPE0_EN".toList, "0x10".toList].length ∧
    ["set".toList, "GPE0_EN".toList, "0x10".toList].length ≤ 12 ∧
    (true = true → ["set".toList, "GPE0_EN".toList, "0x10".toList].length < 12) ∧
    (∀ w ∈ ["set".toList, "GPE0_EN".toList, "0x10".toList],
      w ≠ [] ∧ ∀ c ∈ w, c ≠ ' ' ∧ c ≠ '\n' ∧ c ≠ NUL) ∧
    ∃ t, token (command_line ["set".toList, "GPE0_EN".toList, "0x10".toList] true)
        (12 : Nat) = some t ∧
      t.count = ["set".toList, "GPE0_EN".toList, "0x10".toList].length ∧
      token_strs t = ["set".toList, "GPE0_EN".toList, "0x10".toList].map some :=
  ⟨by decide, by decide, by decide, by decide, by decide,
    token_splits_words ["set".toList, "GPE0_EN".toList, "0x10".toList] true 12
      (by decide) (by decide) (by decide) (by decide)⟩

/-- C5, as stated, fails for the token that fills the last slot: on "a b c"
with `max_tokens = 2` the loop stops right after storing the second pointer,
and the second token is "b c", which contains a space. -/
theorem token_last_slot_keeps_delimiters :
    token "a b c".toList 2 =
        some { buf := ['a', NUL, 'b', ' ', 'c'], out := [(0, 0), (1, 2)], count := 2, i := 3,
               start_string_with_next := false } ∧
    (token "a b c".toList 2).map (fun t => token_str t 1) = some (some "b c".toList) ∧
    ' ' ∈ "b c".toList := by
  decide

/-- C5 (amended): for every input and every `max_tokens`, `token` returns, and
every token it produces starts at the first character of the input or at the
character that follows a space or newline; a token in a slot other than the
last one (`max_tokens - 1`) ends at the next space, newline or end of input, so
it contains no space and no newline; the token in the last slot, when it is
produced, runs to the end of the input. -/
theorem token_boundaries (src : List Char) (max_tokens : Nat) :
    ∃ t, token src max_tokens = some t ∧
      ∀ j, j < t.count →
        ∃ p, out_slot t.out j = some p ∧ p < strlen src ∧
          (p = 0 ∨ (0 < p ∧ (src.getD (p - 1) NUL = ' ' ∨ src.getD (p - 1) NUL = '\n'))) ∧
          (j + 1 < max_tokens →
            token_str t j = some ((src.drop p).takeWhile
                (fun c => decide (c ≠ ' ' ∧ c ≠ '\n' ∧ c ≠ NUL))) ∧
            ∀ s, token_str t j = some s → ' ' ∉ s ∧ '\n' ∉ s) ∧
          (j + 1 = max_tokens → token_str t j = some (cstr src p)) := by
  obtain ⟨t, ht, _, hslots, hptr, hstart, htok⟩ := token_spec src max_tokens
  refine ⟨t, ht, ?_⟩
  intro j hj
  obtain ⟨p, hp, hmem⟩ := token_slot t hslots j hj
  refine ⟨p, hp, hptr _ hmem, hstart _ hmem, ?_, ?_⟩
  · intro hlt
    have h := (htok _ hmem).1 (by exact_mod_cast hlt)
    have hs : token_str t j = some ((src.drop p).takeWhile
        (fun c => decide (c ≠ ' ' ∧ c ≠ '\n' ∧ c ≠ NUL))) := by
      simp only [token_str, hp, Option.map_some']
      exact congrArg some h
    refine ⟨hs, ?_⟩
    intro s hs2
    rw [hs, Option.some.injEq] at hs2
    subst hs2
    constructor
    · intro hmem2
      have := List.mem_takeWhile_imp hmem2
      simp at this
    · intro hmem2
      have := List.mem_takeWhile_imp hmem2
      simp at this
  · intro heq
    have h := (htok _ hmem).2 (by
      intro hlt
      have : j + 1 < max_tokens := by exact_mod_cast hlt
      omega)
    simp only [token_str, hp, Option.map_some']
    exact congrArg some h

/-- C6: for every input and every `out_size >= 0`, `token` returns a count with
0 <= count <= out_size; its stores go to the slots 0 .. count-1 of `out`, one
store each, so never to an index >= out_size; every pointer stored is the
offset of a character of the input; and the call made by the write handler,
with `ARG_BUF` slots, never produces more than 12 tokens. -/
theorem token_stays_within_out (src : List Char) (out_size : Nat) :
    (∃ t, token src out_size = some t ∧
      t.count ≤ out_size ∧
      t.out.map Prod.fst = List.range t.count ∧
      ∀ w ∈ t.out, w.1 < t.count ∧ w.1 < out_size ∧ w.2 < strlen src) ∧
    (∀ (u : Uninit) (data : List Char) (count : Nat),
      ∃ t, token (fill_read_buf u data count) ARG_BUF = some t ∧ t.count ≤ 12) := by
  constructor
  · obtain ⟨t, ht, hcount, hslots, hptr, _, _⟩ := token_spec src out_size
    have hc : t.count ≤ out_size := by
      have := hcount (by simp)
      exact_mod_cast this
    refine ⟨t, ht, hc, hslots, ?_⟩
    intro w hw
    have h1 : w.1 ∈ List.range t.count := by
      rw [← hslots]; exact List.mem_map_of_mem _ hw
    rw [List.mem_range] at h1
    exact ⟨h1, by omega, hptr w hw⟩
  · intro u data count
    obtain ⟨t, ht, hcount, _⟩ := token_spec (fill_read_buf u data count) (ARG_BUF : Nat)
    refine ⟨t, ht, ?_⟩
    have := hcount (by simp)
    have h12 : (ARG_BUF : Int) = 12 := rfl
    omega

/-! ## The write handler: return value and ignored input -/

theorem fill_read_buf_short (u : Uninit) (data : List Char) (h : data.length ≤ READ_BUF) :
    fill_read_buf u data data.length = data := by
  apply List.ext_get
  · simp [fill_read_buf]
  · intro i h1 h2
    have hi : i < data.length := h2
    have hlt : i < (if data.length < READ_BUF then data.length else READ_BUF) := by
      split_ifs <;> omega
    simp [fill_read_buf, hlt, List.getElem?_eq_getElem hi]

theorem copy_len_le (data : List Char) :
    ¬ data.length < (if data.length < READ_BUF then data.length else READ_BUF) := by
  split_ifs <;> omega

theorem terminator_in_bounds (data : List Char) (h : data.length ≤ 127) :
    ¬ READ_BUF_SIZE ≤ data.length := by
  have hS : READ_BUF_SIZE = 128 := rfl
  omega

/-- The write handler returns, with the length of its input as value, exactly
when the store of the terminator is inside `read_buf`, that is for the inputs of
at most 127 bytes, whatever they hold and whatever the stack held; for every
longer input the call has no defined result. -/
theorem write_event_returns_count_iff (s : Driver) (u : Uninit) (data : List Char) :
    ((∃ s', ich7_proc_write_event s u (some data) data.length =
        some ((data.length : Int), s')) ↔ data.length < READ_BUF_SIZE) ∧
    (ich7_proc_write_event s u (some data) data.length = none ↔
      READ_BUF_SIZE ≤ data.length) := by
  by_cases h : READ_BUF_SIZE ≤ data.length
  · have hn : ich7_proc_write_event s u (some data) data.length = none := by
      simp only [ich7_proc_write_event, copy_len_le data, if_false, h, if_true]
    rw [hn]
    refine ⟨⟨fun ⟨_, h1⟩ => absurd h1 (by simp), fun h1 => absurd h (by omega)⟩, ?_⟩
    exact ⟨fun _ => h, fun _ => rfl⟩
  · obtain ⟨t, ht, -⟩ := token_eq_scan (fill_read_buf u data data.length) (ARG_BUF : Nat)
    have hex : ∃ s', ich7_proc_write_event s u (some data) data.length =
        some ((data.length : Int), s') := by
      simp only [ich7_proc_write_event, copy_len_le data, if_false, h, ht, Option.map_some']
      refine ⟨_, congrArg some (Prod.ext ?_ rfl)⟩
      split_ifs <;> first | rfl | (split <;> rfl)
    refine ⟨⟨fun _ => by omega, fun _ => hex⟩, ?_⟩
    obtain ⟨s', hs'⟩ := hex
    rw [hs']
    exact ⟨fun h1 => absurd h1 (by simp), fun h1 => absurd h1 h⟩

set_option maxRecDepth 100000 in
/-- C7: a write of 128 bytes does not return 128.  The handler copies the first
127 bytes and then stores the terminator at index 128, outside the 128-byte
`read_buf`, so the call has no defined result; the first 127 of the same bytes,
written with count 127, are consumed and 127 is returned without any port
access. -/
theorem write_event_no_result_beyond_read_buf :
    ich7_proc_write_event sample_driver sample_uninit (some (List.replicate 128 'a')) 128 =
      none ∧
    128 ∈ read_buf_stores 128 ∧ ¬ (128 < READ_BUF_SIZE) ∧
    (ich7_proc_write_event sample_driver sample_uninit (some (List.replicate 127 'a')) 127).map
        (fun r => (r.1, r.2.trace)) = some (127, []) := by
  refine ⟨rfl, by decide, by decide, by decide⟩

theorem get_reg_by_name_none (name : List Char) (h : ∀ r ∈ ich7_registers, name ≠ r.name) :
    get_reg_by_name name = none := by
  have h1 := h _ (List.mem_cons_self _ _)
  have h2 := h _ (List.mem_cons_of_mem _ (List.mem_cons_self _ _))
  simp only [get_reg_by_name, ich7_registers, get_reg_by_name_loop, h1, h2, if_false]

/-- C8: for every input of at most 127 bytes whose first token is neither "set"
nor "setbit", or whose second token is not the name of a catalog register
(compared as whole strings, case-sensitively), or which has fewer than 3 tokens
for "set" or fewer than 4 for "setbit", the write handler returns the state it
was given: no port is read or written and every register is unchanged. -/
theorem write_event_ignores (s : Driver) (u : Uninit) (data : List Char)
    (hlen : data.length ≤ 127)
    (h : ∃ t, token data ARG_BUF = some t ∧
      ((argv t 0 ≠ "set".toList ∧ argv t 0 ≠ "setbit".toList) ∨
       (∀ r ∈ ich7_registers, argv t 1 ≠ r.name) ∨
       (argv t 0 = "set".toList ∧ t.count < 3) ∨
       (argv t 0 = "setbit".toList ∧ t.count < 4))) :
    ich7_proc_write_event s u (some data) data.length = some ((data.length : Int), s) := by
  obtain ⟨t, ht, hcond⟩ := h
  simp only [ich7_proc_write_event, copy_len_le data, terminator_in_bounds data hlen, if_false,
    fill_read_buf_short u data hlen, ht, Option.map_some']
  congr 1
  rcases hcond with ⟨h1, h2⟩ | h | ⟨h1, h2⟩ | ⟨h1, h2⟩
  · have hno : ¬ (FUNC_NULL = FUNC_SET ∨ FUNC_NULL = FUNC_SETBIT) := by decide
    simp only [h1, h2, if_false, hno]
    split_ifs <;> rfl
  · rw [get_reg_by_name_none _ h]
    split_ifs <;> rfl
  · have h3 : ¬ t.count ≥ 3 := by omega
    have h4 : ¬ t.count ≥ 4 := by omega
    simp only [h1, if_true, h3, h4, and_false, if_false]
    split_ifs <;> first | rfl | (split <;> rfl)
  · have h4 : ¬ t.count ≥ 4 := by omega
    have h5 : "setbit".toList ≠ "set".toList := by decide
    have h6 : FUNC_SETBIT ≠ FUNC_SET := by decide
    simp only [h1, h5, if_true, if_false, h4, h6, and_false, false_and]
    split_ifs <;> first | rfl | (split <;> rfl)

theorem write_event_ignores_witness :
    ("frobnicate".toList.length ≤ 127 ∧
     (∃ t, token "frobnicate".toList ARG_BUF = some t ∧
      ((argv t 0 ≠ "set".toList ∧ argv t 0 ≠ "setbit".toList) ∨
       (∀ r ∈ ich7_registers, argv t 1 ≠ r.name) ∨
       (argv t 0 = "set".toList ∧ t.count < 3) ∨
       (argv t 0 = "setbit".toList ∧ t.count < 4))) ∧
     ich7_proc_write_event sample_driver sample_uninit (some "frobnicate".toList)
        "frobnicate".toList.length = some (("frobnicate".toList.length : Int), sample_driver)) ∧
    ("set NOPE 1".toList.length ≤ 127 ∧
     (∃ t, token "set NOPE 1".toList ARG_BUF = some t ∧
      ((argv t 0 ≠ "set".toList ∧ argv t 0 ≠ "setbit".toList) ∨
       (∀ r ∈ ich7_registers, argv t 1 ≠ r.name) ∨
       (argv t 0 = "set".toList ∧ t.count < 3) ∨
       (argv t 0 = "setbit".toList ∧ t.count < 4))) ∧
     ich7_proc_write_event sample_driver sample_uninit (some "set NOPE 1".toList)
        "set NOPE 1".toList.length = some (("set NOPE 1".toList.length : Int), sample_driver)) :=
  have hf : ∃ t, token "frobnicate".toList ARG_BUF = some t ∧
      ((argv t 0 ≠ "set".toList ∧ argv t 0 ≠ "setbit".toList) ∨
       (∀ r ∈ ich7_registers, argv t 1 ≠ r.name) ∨
       (argv t 0 = "set".toList ∧ t.count < 3) ∨
       (argv t 0 = "setbit".toList ∧ t.count < 4)) :=
    ⟨{ buf := "frobnicate".toList, out := [(0, 0)], count := 1, i := 10,
       start_string_with_next := false }, by decide, by decide⟩
  have hn : ∃ t, token "set NOPE 1".toList ARG_BUF = some t ∧
      ((argv t 0 ≠ "set".toList ∧ argv t 0 ≠ "setbit".toList) ∨
       (∀ r ∈ ich7_registers, argv t 1 ≠ r.name) ∨
       (argv t 0 = "set".toList ∧ t.count < 3) ∨
       (argv t 0 = "setbit".toList ∧ t.count < 4)) :=
    ⟨{ buf := ['s', 'e', 't', NUL, 'N', 'O', 'P', 'E', NUL, '1'],
       out := [(0, 0), (1, 4), (2, 9)], count := 3, i := 10,
       start_string_with_next := false }, by decide, by decide⟩
  ⟨⟨by decide, hf,
      write_event_ignores sample_driver sample_uninit "frobnicate".toList (by decide) hf⟩,
    ⟨by decide, hn,
      write_event_ignores sample_driver sample_uninit "set NOPE 1".toList (by decide) hn⟩⟩

/-! ## Rendering: `%08x` -/

theorem hex_digit_eq (d : Nat) (h : d < 16) :
    hex_digit d = "0123456789abcdef".toList.getD d '0' := by
  interval_cases d <;> rfl

theorem hex8_no_nul (v : Nat) : ∀ c ∈ hex8 v, c ≠ NUL := by
  have key : ∀ d, d < 16 → "0123456789abcdef".toList.getD d '0' ≠ NUL := by
    intro d hd; interval_cases d <;> decide
  intro c hc
  simp only [hex8, List.mem_map] at hc
  obtain ⟨k, _, rfl⟩ := hc
  exact key _ (Nat.mod_lt _ (by norm_num))

theorem hex8_length (v : Nat) : (hex8 v).length = 8 := by
  simp [hex8]

/-- The digits of `number()`, padded with zeros up to `k` digits, are the `k`
low hexadecimal digits of the number, least significant first. -/
theorem number_digits_padded :
    ∀ (k fuel num : Nat), k ≤ fuel → num < 16 ^ k →
      number_digits fuel num ++ List.replicate (k - (number_digits fuel num).length) '0' =
        (List.range k).map (fun j => hex_digit (num / 16 ^ j % 16)) := by
  intro k
  induction k with
  | zero =>
    intro fuel num _ hnum
    have h0 : num = 0 := by simpa using hnum
    subst h0
    cases fuel <;> simp [number_digits]
  | succ k ih =>
    intro fuel num hf hnum
    obtain ⟨f, rfl⟩ : ∃ f, fuel = f + 1 := ⟨fuel - 1, by omega⟩
    by_cases h0 : num = 0
    · subst h0
      have hz : hex_digit 0 = '0' := rfl
      simp only [number_digits, if_true, List.nil_append, List.length_nil, Nat.sub_zero,
        Nat.zero_div, Nat.zero_mod, hz]
      symm
      rw [List.eq_replicate_iff]
      simp
    · have hdiv : num / 16 < 16 ^ k := by
        rw [Nat.div_lt_iff_lt_mul (by norm_num)]
        rw [pow_succ] at hnum
        exact hnum
      have := ih f (num / 16) (by omega) hdiv
      simp only [number_digits, h0, if_false, List.cons_append, List.length_cons,
        Nat.add_sub_add_right]
      rw [this, List.range_succ_eq_map, List.map_cons, List.map_map]
      congr 1
      · simp
      · apply List.map_congr_left
        intro j _
        simp only [Function.comp, Nat.div_div_eq_div_mul, pow_succ, Nat.mul_comm]

theorem fmt_0x_8 (v : Nat) (hv : v < U32) : fmt_0x 8 v = hex8 v := by
  have hrhs : hex8 v = ((List.range 8).map (fun j => hex_digit (v / 16 ^ j % 16))).reverse := by
    have hd : ∀ j, hex_digit (v / 16 ^ j % 16) =
        "0123456789abcdef".toList.getD (v / 16 ^ j % 16) '0' :=
      fun j => hex_digit_eq _ (Nat.mod_lt _ (by norm_num))
    simp only [hd]
    rfl
  by_cases h0 : v = 0
  · subst h0; rfl
  · have h := number_digits_padded 8 16 v (by norm_num) (by simpa [U32] using hv)
    rw [hrhs, ← h]
    simp [fmt_0x, h0]

/-! ## Rendering: one line and the whole snapshot -/

theorem format_line_length (name : List Char) (v : Nat) (hl : name.length ≤ 15)
    (hv : v < U32) : (format_line name v).length = 27 := by
  simp only [format_line, fmt_left_s, fmt_0x_8 v hv, List.length_append, List.length_replicate,
    hex8_length, List.length_singleton]
  have : " 0x".toList.length = 3 := rfl
  omega

theorem format_line_no_nul (name : List Char) (v : Nat) (hn : ∀ c ∈ name, c ≠ NUL)
    (hv : v < U32) : ∀ c ∈ format_line name v, c ≠ NUL := by
  intro c hc
  simp only [format_line, fmt_left_s, fmt_0x_8 v hv, List.mem_append, List.mem_replicate,
    List.mem_singleton] at hc
  rcases hc with (((hc | hc) | hc) | hc) | hc
  · exact hn c hc
  · rw [hc.2]; decide
  · have : ∀ x ∈ " 0x".toList, x ≠ NUL := by decide
    exact this c hc
  · exact hex8_no_nul v c hc
  · rw [hc]; decide

/-- The call `snprintf` when the text and its terminator fit in `size`. -/
theorem snprintf_fits (buf : List Char) (c size : Nat) (text : List Char)
    (hfit : text.length < size) :
    snprintf buf c size text =
      buf.take c ++ (text ++ NUL :: buf.drop (c + (text.length + 1))) := by
  have h0 : ¬ size = 0 := by omega
  have ht : text.take (size - 1) = text := List.take_of_length_le (by omega)
  simp [snprintf, h0, write_at, ht]

/-- One pass of the loop of `make_proc_message` for a register with a real port,
when the line fits: the port is read once, the line and a NUL are stored at the
cursor, and the cursor moves to the NUL. -/
theorem make_proc_message_step (r : ich7_register) (rs : List ich7_register) (s : Driver)
    (c pm_length : Nat) (hport : get_reg_port s (some r) ≠ NO_PORT)
    (hc : c ≤ s.proc_message.length)
    (hfit : (format_line r.name (s.ports (get_reg_port s (some r)))).length < pm_length)
    (hn : ∀ ch ∈ format_line r.name (s.ports (get_reg_port s (some r))), ch ≠ NUL) :
    make_proc_message_loop (r :: rs) s c pm_length =
      make_proc_message_loop rs
        { s with
          trace := s.trace ++ [PortEvent.inl (get_reg_port s (some r))],
          proc_message := s.proc_message.take c ++
            (format_line r.name (s.ports (get_reg_port s (some r))) ++
              NUL :: s.proc_message.drop
                (c + ((format_line r.name (s.ports (get_reg_port s (some r)))).length + 1))) }
        (c + (format_line r.name (s.ports (get_reg_port s (some r)))).length)
        (pm_length - (format_line r.name (s.ports (get_reg_port s (some r)))).length) := by
  have hread : read_reg s (some r) =
      (s.ports (get_reg_port s (some r)),
        { s with trace := s.trace ++ [PortEvent.inl (get_reg_port s (some r))] }) := by
    simp only [read_reg, hport, if_false, inl]
  have htake : (s.proc_message.take c).length = c := by
    rw [List.length_take]; omega
  have hstr : strlen ((s.proc_message.take c ++
      (format_line r.name (s.ports (get_reg_port s (some r))) ++
        NUL :: s.proc_message.drop
          (c + ((format_line r.name (s.ports (get_reg_port s (some r)))).length + 1)))).drop c)
      = (format_line r.name (s.ports (get_reg_port s (some r)))).length := by
    rw [List.drop_left' htake, strlen, takeWhile_word _ _ hn]
  rw [make_proc_message_loop]
  simp only [hread, snprintf_fits _ c pm_length _ hfit, hstr]

/-- The snapshot of the two-register catalog: `make_proc_message` reads each
register once, in catalog order, writes no port, and leaves in `proc_message`
the two formatted lines followed by a NUL. -/
theorem make_proc_message_two_lines (st : Driver) (raw : Nat)
    (hbase : st.nas_pm_io_base = masked_io_base raw)
    (hs : st.ports (st.nas_pm_io_base + GPE0_STS) < U32)
    (he : st.ports (st.nas_pm_io_base + GPE0_EN) < U32) :
    snapshot (make_proc_message st) =
        format_line "GPE0_STS".toList (st.ports (st.nas_pm_io_base + GPE0_STS)) ++
          format_line "GPE0_EN".toList (st.ports (st.nas_pm_io_base + GPE0_EN)) ∧
    (make_proc_message st).ports = st.ports ∧
    (make_proc_message st).trace =
        st.trace ++ [PortEvent.inl (st.nas_pm_io_base + GPE0_STS),
          PortEvent.inl (st.nas_pm_io_base + GPE0_EN)] := by
  obtain ⟨hp1, hn1⟩ := catalog_port st raw reg_GPE0_STS (by decide) hbase
  obtain ⟨hp2, hn2⟩ := catalog_port st raw reg_GPE0_EN (by decide) hbase
  have ho1 : reg_GPE0_STS.offset = GPE0_STS := rfl
  have ho2 : reg_GPE0_EN.offset = GPE0_EN := rfl
  have hm1 : reg_GPE0_STS.name = "GPE0_STS".toList := rfl
  have hm2 : reg_GPE0_EN.name = "GPE0_EN".toList := rfl
  rw [ho1] at hp1
  rw [ho2] at hp2
  have hl1 := format_line_length "GPE0_STS".toList _ (by decide) hs
  have hl2 := format_line_length "GPE0_EN".toList _ (by decide) he
  have hz1 := format_line_no_nul "GPE0_STS".toList _ (by decide) hs
  have hz2 := format_line_no_nul "GPE0_EN".toList _ (by decide) he
  generalize hT1 : format_line "GPE0_STS".toList (st.ports (st.nas_pm_io_base + GPE0_STS)) = t1
    at hl1 hz1 ⊢
  generalize hT2 : format_line "GPE0_EN".toList (st.ports (st.nas_pm_io_base + GPE0_EN)) = t2
    at hl2 hz2 ⊢
  have hcat : ich7_registers = [reg_GPE0_STS, reg_GPE0_EN] := rfl
  have step1 := make_proc_message_step reg_GPE0_STS [reg_GPE0_EN] st 0 PROC_MESSAGE_LENGTH hn1
    (Nat.zero_le _)
    (by rw [hp1, hm1, hT1, hl1]; decide)
    (by rw [hp1, hm1, hT1]; exact hz1)
  rw [hp1, hm1, hT1, hl1] at step1
  have step2 := make_proc_message_step reg_GPE0_EN []
    { st with
      trace := st.trace ++ [PortEvent.inl (st.nas_pm_io_base + GPE0_STS)],
      proc_message := st.proc_message.take 0 ++
        (t1 ++ NUL :: st.proc_message.drop (0 + (27 + 1))) }
    (0 + 27) (PROC_MESSAGE_LENGTH - 27) hn2
    (by simp [hl1])
    (by
      show (format_line reg_GPE0_EN.name (st.ports (get_reg_port st (some reg_GPE0_EN)))).length
        < PROC_MESSAGE_LENGTH - 27
      rw [hp2, hm2, hT2, hl2]; decide)
    (by
      show ∀ ch ∈ format_line reg_GPE0_EN.name (st.ports (get_reg_port st (some reg_GPE0_EN))),
        ch ≠ NUL
      rw [hp2, hm2, hT2]; exact hz2)
  have hp2' : get_reg_port
      { st with
        trace := st.trace ++ [PortEvent.inl (st.nas_pm_io_base + GPE0_STS)],
        proc_message := st.proc_message.take 0 ++
          (t1 ++ NUL :: st.proc_message.drop (0 + (27 + 1))) } (some reg_GPE0_EN)
      = st.nas_pm_io_base + GPE0_EN := hp2
  rw [hp2'] at step2
  simp only [hm2, hT2, hl2] at step2
  unfold make_proc_message
  rw [hcat, step1, step2]
  simp only [make_proc_message_loop, snapshot, cstr, List.drop_zero, List.take_zero,
    List.nil_append, Nat.zero_add, List.append_assoc, List.cons_append]
  refine ⟨?_, trivial, ?_⟩
  · have hk : (t1 ++ NUL :: st.proc_message.drop 28).take 27 = t1 := by
      rw [List.take_append_of_le_length (by omega), List.take_of_length_le (by omega)]
    rw [hk, ← List.append_assoc]
    exact takeWhile_word _ _ (fun c hc => by
      rcases List.mem_append.mp hc with h | h
      · exact hz1 c h
      · exact hz2 c h)
  · simp

/-! ## Parsing integer literals with `%i` -/

theorem isxdigit_of_isdigit (c : Char) (h : isdigit c = true) : isxdigit c = true := by
  simp [isxdigit, h]

theorem digit_value_of_isdigit (c : Char) (h : isdigit c = true) :
    digit_value c = c.toNat - '0'.toNat ∧ digit_value c < 10 := by
  have h2 := h
  simp only [isdigit, decide_eq_true_eq] at h2
  have e0 : '0'.toNat = 48 := rfl
  have e9 : '9'.toNat = 57 := rfl
  simp only [digit_value, h, if_true, e0, e9] at h2 ⊢
  exact ⟨trivial, by omega⟩

theorem digit_value_lt_16 (c : Char) (h : isxdigit c = true) : digit_value c < 16 := by
  by_cases hd : isdigit c = true
  · have := (digit_value_of_isdigit c hd).2
    omega
  · have hd2 : isdigit c = false := by simpa using hd
    simp only [isxdigit, hd2, Bool.false_or, Bool.or_eq_true, decide_eq_true_eq] at h
    simp only [digit_value, hd2, Bool.false_eq_true, if_false, TOLOWER]
    have ea : 'a'.toNat = 97 := rfl
    have ef : 'f'.toNat = 102 := rfl
    have eA : 'A'.toNat = 65 := rfl
    have eF : 'F'.toNat = 70 := rfl
    rw [ea, ef, eA, eF] at h
    rw [ea]
    generalize c.toNat = n at h
    rcases h with h | h <;> obtain ⟨h1, h2⟩ := h <;> interval_cases n <;> decide

theorem not_delim_of_isxdigit (c : Char) (h : isxdigit c = true) :
    c ≠ ' ' ∧ c ≠ '\n' ∧ c ≠ NUL := by
  refine ⟨?_, ?_, ?_⟩ <;> intro e <;> rw [e] at h <;> exact absurd h (by decide)

theorem strtoul_loop_dec :
    ∀ (l : List Char) (acc : Nat), (∀ c ∈ l, isdigit c = true) →
      strtoul_loop 10 l acc = l.foldl (fun a c => a * 10 + (c.toNat - '0'.toNat)) acc := by
  intro l
  induction l with
  | nil => intro acc _; rfl
  | cons c l ih =>
    intro acc h
    have hc := h c (List.mem_cons_self _ _)
    obtain ⟨hv, hlt⟩ := digit_value_of_isdigit c hc
    have hx := isxdigit_of_isdigit c hc
    simp only [strtoul_loop, hx, hlt, and_self, if_true, List.foldl_cons]
    rw [ih _ (fun x hx => h x (List.mem_cons_of_mem _ hx)), hv]

theorem strtoul_loop_hex :
    ∀ (l : List Char) (acc : Nat), (∀ c ∈ l, isxdigit c = true) →
      strtoul_loop 16 l acc = l.foldl (fun a c => a * 16 + digit_value c) acc := by
  intro l
  induction l with
  | nil => intro acc _; rfl
  | cons c l ih =>
    intro acc h
    have hc := h c (List.mem_cons_self _ _)
    have hlt := digit_value_lt_16 c hc
    simp only [strtoul_loop, hc, hlt, and_self, if_true, List.foldl_cons]
    rw [ih _ (fun x hx => h x (List.mem_cons_of_mem _ hx))]

theorem int_to_u32_to_int (v : Nat) (hv : v < U32) : int_to_u32 (to_int (v : Int)) = v := by
  have hv2 : v < 4294967296 := hv
  unfold int_to_u32 to_int
  split_ifs <;> omega

theorem isdigit_facts (c : Char) (h : isdigit c = true) :
    isspace c = false ∧ c ≠ '-' ∧ c ≠ NUL := by
  refine ⟨?_, ?_, ?_⟩
  · have h2 := h
    simp only [isdigit, decide_eq_true_eq] at h2
    have e0 : '0'.toNat = 48 := rfl
    have e9 : '9'.toNat = 57 := rfl
    rw [e0, e9] at h2
    simp only [isspace, decide_eq_false_iff_not]
    omega
  · intro e; rw [e] at h; exact absurd h (by decide)
  · intro e; rw [e] at h; exact absurd h (by decide)

/-- A literal of a 32-bit number is converted by `%i` to that number. -/
theorem sscanf_i_literal (v : Nat) (l : List Char) (hv : v < U32) (h : literal_of v l) :
    (sscanf_i l).map int_to_u32 = some v := by
  rcases h with ⟨hne, hdig, hzero, hval⟩ | ⟨ds, rfl, hne, hdig, hval⟩
  · obtain ⟨c, l', rfl⟩ : ∃ c l', l = c :: l' := by
      cases l with
      | nil => exact absurd rfl hne
      | cons c l' => exact ⟨c, l', rfl⟩
    have hc := hdig c (List.mem_cons_self _ _)
    obtain ⟨hsp, hminus, hnul⟩ := isdigit_facts c hc
    by_cases hc0 : c = '0'
    · subst hc0
      have hl := hzero rfl
      rw [hl] at hval ⊢
      have h0 : v = 0 := by rw [← hval]; rfl
      subst h0
      decide
    · have hguess : simple_guess_base (c :: l') = 10 := by
        simp [simple_guess_base, hc0]
      have hul : simple_strtoul (c :: l') 0 = dec_value (c :: l') := by
        have h1016 : ¬ (10 = 16 ∧ (c :: l').getD 0 NUL = '0' ∧
            TOLOWER ((c :: l').getD 1 NUL) = 'x') := by
          intro h; exact absurd h.1 (by decide)
        simp only [simple_strtoul, if_true, hguess, h1016, if_false]
        exact strtoul_loop_dec _ 0 hdig
      have hl : simple_strtol (c :: l') 0 = (v : Int) := by
        have hg : (c :: l').getD 0 NUL = c := rfl
        simp only [simple_strtol, hg, hminus, if_false, hul, hval]
      have hdw : (c :: l').dropWhile isspace = c :: l' := by
        simp [List.dropWhile, hsp]
      have hg : (c :: l').getD 0 NUL = c := rfl
      have hcond : ¬ (c = NUL ∨ ¬ isdigit c = true) := by
        intro h; rcases h with h | h
        · exact hnul h
        · exact h hc
      have hs : sscanf_i (c :: l') = some (to_int (v : Int)) := by
        simp only [sscanf_i, hdw, hg, hminus, if_false, hcond, hl]
        simp
      rw [hs, Option.map_some', int_to_u32_to_int v hv]
  · obtain ⟨d, ds', rfl⟩ : ∃ d ds', ds = d :: ds' := by
      cases ds with
      | nil => exact absurd rfl hne
      | cons d ds' => exact ⟨d, ds', rfl⟩
    have hd := hdig d (List.mem_cons_self _ _)
    have hlow : TOLOWER 'x' = 'x' := by decide
    have hguess : simple_guess_base ('0' :: 'x' :: d :: ds') = 16 := by
      have g0 : ('0' :: 'x' :: d :: ds').getD 0 NUL = '0' := rfl
      have g1 : ('0' :: 'x' :: d :: ds').getD 1 NUL = 'x' := rfl
      have g2 : ('0' :: 'x' :: d :: ds').getD 2 NUL = d := rfl
      simp only [simple_guess_base, g0, g1, g2, hlow, hd, and_self, if_true]
    have hul : simple_strtoul ('0' :: 'x' :: d :: ds') 0 = v := by
      have g0 : ('0' :: 'x' :: d :: ds').getD 0 NUL = '0' := rfl
      have g1 : ('0' :: 'x' :: d :: ds').getD 1 NUL = 'x' := rfl
      simp only [simple_strtoul, if_true, hguess, g0, g1, hlow, and_self, List.drop_succ_cons,
        List.drop_zero]
      rw [strtoul_loop_hex _ 0 hdig]
      exact hval
    have hl : simple_strtol ('0' :: 'x' :: d :: ds') 0 = (v : Int) := by
      have g0 : ('0' :: 'x' :: d :: ds').getD 0 NUL = '0' := rfl
      have hm : ¬ ('0' = '-') := by decide
      simp only [simple_strtol, g0, hm, if_false, hul]
    have hsp : isspace '0' = false := by decide
    have hdw : ('0' :: 'x' :: d :: ds').dropWhile isspace = '0' :: 'x' :: d :: ds' := by
      simp [List.dropWhile, hsp]
    have g0 : ('0' :: 'x' :: d :: ds').getD 0 NUL = '0' := rfl
    have hm : ¬ ('0' = '-') := by decide
    have hcond : ¬ ('0' = NUL ∨ ¬ isdigit '0' = true) := by decide
    have hs : sscanf_i ('0' :: 'x' :: d :: ds') = some (to_int (v : Int)) := by
      simp only [sscanf_i, hdw, g0, hm, if_false, hcond, hl]
      simp
    rw [hs, Option.map_some', int_to_u32_to_int v hv]

/-- A literal is a non-empty word: it holds no space, newline or NUL. -/
theorem literal_is_word (v : Nat) (l : List Char) (h : literal_of v l) :
    l ≠ [] ∧ ∀ c ∈ l, c ≠ ' ' ∧ c ≠ '\n' ∧ c ≠ NUL := by
  rcases h with ⟨hne, hdig, -, -⟩ | ⟨ds, rfl, -, hdig, -⟩
  · exact ⟨hne, fun c hc => not_delim_of_isxdigit c (isxdigit_of_isdigit c (hdig c hc))⟩
  · refine ⟨by simp, ?_⟩
    intro c hc
    simp only [List.mem_cons] at hc
    rcases hc with hc | hc | hc
    · rw [hc]; decide
    · rw [hc]; decide
    · exact not_delim_of_isxdigit c (hdig c hc)

/-! ## The command `set GPE0_EN <literal>` -/

/-- Dispatching `set GPE0_EN <literal>`, the command fitting the 127-byte
input, performs exactly one port write: the value of the literal to the port of
GPE0_EN. -/
theorem write_event_set_literal (st : Driver) (u : Uninit) (raw : Nat)
    (hbase : st.nas_pm_io_base = masked_io_base raw)
    (l : List Char) (v : Nat) (hv : v < U32) (hlit : literal_of v l)
    (hlen : (command_line ["set".toList, "GPE0_EN".toList, l] false).length ≤ 127) :
    ich7_proc_write_event st u
        (some (command_line ["set".toList, "GPE0_EN".toList, l] false))
        (command_line ["set".toList, "GPE0_EN".toList, l] false).length =
      some (((command_line ["set".toList, "GPE0_EN".toList, l] false).length : Int),
        outl st v (st.nas_pm_io_base + GPE0_EN)) := by
  obtain ⟨hlne, hlw⟩ := literal_is_word v l hlit
  have hwords : ∀ w ∈ ["set".toList, "GPE0_EN".toList, l],
      w ≠ [] ∧ ∀ c ∈ w, c ≠ ' ' ∧ c ≠ '\n' ∧ c ≠ NUL := by
    intro w hw
    simp only [List.mem_cons, List.mem_singleton, List.not_mem_nil, or_false] at hw
    rcases hw with hw | hw | hw
    · rw [hw]; decide
    · rw [hw]; decide
    · rw [hw]; exact ⟨hlne, hlw⟩
  obtain ⟨t, ht, hcnt, hstrs⟩ := token_of_words ["set".toList, "GPE0_EN".toList, l] false
    ARG_BUF (by simp) hwords (by simp [ARG_BUF]) (by intro h; exact absurd h (by decide))
  have hcnt3 : t.count = 3 := hcnt
  have hstrs3 : [token_str t 0, token_str t 1, token_str t 2] =
      [some "set".toList, some "GPE0_EN".toList, some l] := by
    have : token_strs t = [token_str t 0, token_str t 1, token_str t 2] := by
      simp [token_strs, hcnt3, List.range_succ]
    rw [← this, hstrs]; rfl
  simp only [List.cons.injEq, and_true] at hstrs3
  obtain ⟨hs0, hs1, hs2⟩ := hstrs3
  have ha0 : argv t 0 = "set".toList := by simp only [argv, hs0, Option.getD_some]
  have ha1 : argv t 1 = "GPE0_EN".toList := by simp only [argv, hs1, Option.getD_some]
  have ha2 : argv t 2 = l := by simp only [argv, hs2, Option.getD_some]
  have hreg : get_reg_by_name "GPE0_EN".toList = some reg_GPE0_EN := by decide
  obtain ⟨hp, hn⟩ := catalog_port st raw reg_GPE0_EN (by decide) hbase
  have ho : reg_GPE0_EN.offset = GPE0_EN := rfl
  rw [ho] at hp
  have hw : write_reg st (some reg_GPE0_EN) v = outl st v (st.nas_pm_io_base + GPE0_EN) := by
    have hn2 := hn
    rw [hp] at hn2
    simp only [write_reg, hp, hn2, if_false]
  have hc1 : t.count ≥ 1 := by omega
  have hc2 : t.count ≥ 2 := by omega
  have hc3 : t.count ≥ 3 := by omega
  have hf1 : FUNC_SET = FUNC_SET ∨ FUNC_SET = FUNC_SETBIT := Or.inl rfl
  have hf2 : ¬ (FUNC_SET = FUNC_SETBIT ∧ t.count ≥ 4) := by
    intro h; exact absurd h.1 (by decide)
  simp only [ich7_proc_write_event, copy_len_le, terminator_in_bounds _ hlen, if_false,
    fill_read_buf_short u _ hlen, ht, Option.map_some', hc1, hc2, hc3, if_true, ha0, ha1, ha2,
    hf1, hf2, hreg, and_self, sscanf_i_literal v l hv hlit, Option.getD_some, hw, true_or]

set_option maxRecDepth 200000 in
/-- C9, as stated, fails in two places.  After "set GPE0_EN 0x10" the GPE0_EN
line of the snapshot has nine spaces between the name and `0x` (eight of
padding to the 15-character field and the separating one), so the snapshot does
not contain the string the claim quotes, which has eight.  And a literal that
makes the command longer than 127 bytes does not reach the handler whole: for
0x10 written with 120 leading zeros, a command of 136 bytes, the handler copies
the first 127 bytes only, in which the literal reads 0, not 16; the call then
has no defined result, the terminator being stored outside `read_buf`. -/
theorem set_command_counterexample :
    (ich7_proc_write_event sample_driver sample_uninit (some "set GPE0_EN 0x10".toList) 16).map
        (fun r => snapshot (make_proc_message r.2)) =
      some "GPE0_STS        0x00000005\nGPE0_EN         0x00000010\n".toList ∧
    ¬ ("GPE0_EN        0x00000010".toList <:+: "GPE0_STS        0x00000005\nGPE0_EN         0x00000010\n".toList) ∧
    literal_of 16 "0x00000000000000000000000000000000000000000000000000000000000000000000000000000000000000000000000000000000000000000000000010".toList ∧
    sscanf_i (((fill_read_buf sample_uninit
        "set GPE0_EN 0x00000000000000000000000000000000000000000000000000000000000000000000000000000000000000000000000000000000000000000000000010".toList 136).take 127).drop 12) = some 0 ∧
    ich7_proc_write_event sample_driver sample_uninit
        (some "set GPE0_EN 0x00000000000000000000000000000000000000000000000000000000000000000000000000000000000000000000000000000000000000000000000010".toList) 136 = none := by
  refine ⟨by decide, by decide, Or.inr ⟨_, rfl, by decide, by decide, by decide⟩, by decide,
    rfl⟩

/-- C9 (amended): for every 32-bit value v written as a decimal literal or as a
0x-prefixed hexadecimal literal such that the command `set GPE0_EN <literal>` is
at most 127 bytes long, dispatching the command writes v to the port of GPE0_EN
(one port write, nothing else), and the snapshot rendered afterwards shows v on
the GPE0_EN line: the name padded to 15 characters, one space, `0x`, v as 8
hexadecimal digits and a newline. -/
theorem set_command_writes_and_shows (st : Driver) (u : Uninit) (raw : Nat)
    (hbase : st.nas_pm_io_base = masked_io_base raw)
    (hsts : st.ports (st.nas_pm_io_base + GPE0_STS) < U32)
    (l : List Char) (v : Nat) (hv : v < U32) (hlit : literal_of v l)
    (hlen : (command_line ["set".toList, "GPE0_EN".toList, l] false).length ≤ 127) :
    ∃ st', ich7_proc_write_event st u
          (some (command_line ["set".toList, "GPE0_EN".toList, l] false))
          (command_line ["set".toList, "GPE0_EN".toList, l] false).length =
        some (((command_line ["set".toList, "GPE0_EN".toList, l] false).length : Int), st') ∧
      st'.ports (st.nas_pm_io_base + GPE0_EN) = v ∧
      st'.trace = st.trace ++ [PortEvent.outl v (st.nas_pm_io_base + GPE0_EN)] ∧
      snapshot (make_proc_message st') =
        ("GPE0_STS".toList ++ List.replicate 7 ' ' ++ " 0x".toList ++
            hex8 (st.ports (st.nas_pm_io_base + GPE0_STS)) ++ ['\n']) ++
          ("GPE0_EN".toList ++ List.replicate 8 ' ' ++ " 0x".toList ++ hex8 v ++ ['\n']) := by
  refine ⟨outl st v (st.nas_pm_io_base + GPE0_EN),
    write_event_set_literal st u raw hbase l v hv hlit hlen, ?_, rfl, ?_⟩
  · simp only [outl, Function.update_same]
  · have hne : st.nas_pm_io_base + GPE0_STS ≠ st.nas_pm_io_base + GPE0_EN := by
      have h1 : GPE0_STS = 0x28 := rfl
      have h2 : GPE0_EN = 0x2c := rfl
      omega
    have hS : (outl st v (st.nas_pm_io_base + GPE0_EN)).ports (st.nas_pm_io_base + GPE0_STS) =
        st.ports (st.nas_pm_io_base + GPE0_STS) := by
      simp only [outl, Function.update_noteq hne]
    have hE : (outl st v (st.nas_pm_io_base + GPE0_EN)).ports (st.nas_pm_io_base + GPE0_EN) =
        v := by
      simp only [outl, Function.update_same]
    have h := (make_proc_message_two_lines (outl st v (st.nas_pm_io_base + GPE0_EN)) raw hbase
      (by rw [show (outl st v (st.nas_pm_io_base + GPE0_EN)).nas_pm_io_base =
            st.nas_pm_io_base from rfl, hS]; exact hsts)
      (by rw [show (outl st v (st.nas_pm_io_base + GPE0_EN)).nas_pm_io_base =
            st.nas_pm_io_base from rfl, hE]; exact hv)).1
    rw [show (outl st v (st.nas_pm_io_base + GPE0_EN)).nas_pm_io_base =
      st.nas_pm_io_base from rfl, hS, hE] at h
    rw [h]
    simp only [format_line, fmt_0x_8 _ hsts, fmt_0x_8 _ hv]
    rfl

theorem set_command_writes_and_shows_witness :
    command_line ["set".toList, "GPE0_EN".toList, "0x10".toList] false =
      "set GPE0_EN 0x10".toList ∧
    "GPE0_EN".toList ++ List.replicate 8 ' ' ++ " 0x".toList ++ hex8 16 ++ ['\n'] =
      "GPE0_EN         0x00000010\n".toList ∧
    sample_driver.nas_pm_io_base = masked_io_base 0x400 ∧
    sample_driver.ports (sample_driver.nas_pm_io_base + GPE0_STS) < U32 ∧
    16 < U32 ∧ literal_of 16 "0x10".toList ∧
    (command_line ["set".toList, "GPE0_EN".toList, "0x10".toList] false).length ≤ 127 ∧
    ∃ st', ich7_proc_write_event sample_driver sample_uninit
          (some (command_line ["set".toList, "GPE0_EN".toList, "0x10".toList] false))
          (command_line ["set".toList, "GPE0_EN".toList, "0x10".toList] false).length =
        some (((command_line ["set".toList, "GPE0_EN".toList, "0x10".toList] false).length : Int),
          st') ∧
      st'.ports (sample_driver.nas_pm_io_base + GPE0_EN) = 16 ∧
      st'.trace = sample_driver.trace ++
        [PortEvent.outl 16 (sample_driver.nas_pm_io_base + GPE0_EN)] ∧
      snapshot (make_proc_message st') =
        ("GPE0_STS".toList ++ List.replicate 7 ' ' ++ " 0x".toList ++
            hex8 (sample_driver.ports (sample_driver.nas_pm_io_base + GPE0_STS)) ++ ['\n']) ++
          ("GPE0_EN".toList ++ List.replicate 8 ' ' ++ " 0x".toList ++ hex8 16 ++ ['\n']) :=
  ⟨by decide, by decide, by decide, by decide, by decide,
    Or.inr ⟨_, rfl, by decide, by decide, by decide⟩, by decide,
    set_command_writes_and_shows sample_driver sample_uninit 0x400 (by decide) (by decide)
      "0x10".toList 16 (by decide) (Or.inr ⟨_, rfl, by decide, by decide, by decide⟩)
      (by decide)⟩

/-! ## The snapshot format -/

/-- C10: for every pair of 32-bit values (s, e) held by the ports of GPE0_STS
and GPE0_EN (IO base as left by probe), `make_proc_message` renders exactly two
lines in catalog order, each the register name left-justified in a 15-character
field, one space, `0x`, the value as exactly 8 lower-case hexadecimal digits,
and a newline; the snapshot is 54 bytes long. -/
theorem make_proc_message_format (st : Driver) (raw : Nat)
    (hbase : st.nas_pm_io_base = masked_io_base raw)
    (s e : Nat) (hs : s < U32) (he : e < U32)
    (hS : st.ports (st.nas_pm_io_base + GPE0_STS) = s)
    (hE : st.ports (st.nas_pm_io_base + GPE0_EN) = e) :
    snapshot (make_proc_message st) =
        ("GPE0_STS".toList ++ List.replicate (15 - "GPE0_STS".toList.length) ' ' ++
            " 0x".toList ++ hex8 s ++ ['\n']) ++
          ("GPE0_EN".toList ++ List.replicate (15 - "GPE0_EN".toList.length) ' ' ++
            " 0x".toList ++ hex8 e ++ ['\n']) ∧
    (snapshot (make_proc_message st)).length = 54 ∧
    (hex8 s).length = 8 ∧ (hex8 e).length = 8 := by
  have h := (make_proc_message_two_lines st raw hbase (by rw [hS]; exact hs)
    (by rw [hE]; exact he)).1
  rw [hS, hE] at h
  have h2 : snapshot (make_proc_message st) =
      ("GPE0_STS".toList ++ List.replicate (15 - "GPE0_STS".toList.length) ' ' ++
          " 0x".toList ++ hex8 s ++ ['\n']) ++
        ("GPE0_EN".toList ++ List.replicate (15 - "GPE0_EN".toList.length) ' ' ++
          " 0x".toList ++ hex8 e ++ ['\n']) := by
    rw [h]
    simp only [format_line, fmt_left_s, fmt_0x_8 _ hs, fmt_0x_8 _ he]
  refine ⟨h2, ?_, hex8_length s, hex8_length e⟩
  rw [h2]
  simp only [List.length_append, List.length_replicate, hex8_length, List.length_singleton]
  rfl

theorem make_proc_message_format_witness :
    sample_driver.nas_pm_io_base = masked_io_base 0x400 ∧ 5 < U32 ∧ 5 < U32 ∧
    sample_driver.ports (sample_driver.nas_pm_io_base + GPE0_STS) = 5 ∧
    sample_driver.ports (sample_driver.nas_pm_io_base + GPE0_EN) = 5 ∧
    (snapshot (make_proc_message sample_driver) =
        ("GPE0_STS".toList ++ List.replicate (15 - "GPE0_STS".toList.length) ' ' ++
            " 0x".toList ++ hex8 5 ++ ['\n']) ++
          ("GPE0_EN".toList ++ List.replicate (15 - "GPE0_EN".toList.length) ' ' ++
            " 0x".toList ++ hex8 5 ++ ['\n']) ∧
    (snapshot (make_proc_message sample_driver)).length = 54 ∧
    (hex8 5).length = 8 ∧ (hex8 5).length = 8) :=
  ⟨by decide, by decide, by decide, rfl, rfl,
    make_proc_message_format sample_driver 0x400 (by decide) 5 5 (by decide) (by decide)
      rfl rfl⟩

/-! ## The IO base left by probe and the ports of the catalog -/

theorem masked_io_base_aligned (raw : Nat) : masked_io_base raw % 64 = 0 := by
  have h : masked_io_base raw &&& (2 ^ 6 - 1) = 0 := by
    unfold masked_io_base
    rw [Nat.and_assoc]
    have : (0x0000ffc0 : Nat) &&& (2 ^ 6 - 1) = 0 := by decide
    rw [this, Nat.and_zero]
  rw [Nat.and_pow_two_sub_one_eq_mod] at h
  exact h

/-- C20: for every raw PM_BASE configuration value, with nas_pm_io_base the
value probe leaves (raw & 0x0000ffc0), the IO base is 64-byte aligned, and for
every register of the catalog `get_reg_port` does not return the failure value
0xFFFFFFFF and the 4-byte access [port, port+4) lies inside the reserved window
[nas_pm_io_base, nas_pm_io_base + 128). -/
theorem catalog_ports_in_window (s : Driver) (raw : Nat)
    (hbase : s.nas_pm_io_base = masked_io_base raw)
    (reg : ich7_register) (hreg : reg ∈ ich7_registers) :
    s.nas_pm_io_base % 64 = 0 ∧
    NO_PORT = 0xFFFFFFFF ∧
    get_reg_port s (some reg) ≠ NO_PORT ∧
    s.nas_pm_io_base ≤ get_reg_port s (some reg) ∧
    get_reg_port s (some reg) + 4 ≤ s.nas_pm_io_base + ICH7_PM_SIZE := by
  obtain ⟨hp, hn⟩ := catalog_port s raw reg hreg hbase
  refine ⟨by rw [hbase]; exact masked_io_base_aligned raw, rfl, hn, ?_, ?_⟩
  · rw [hp]; omega
  · rw [hp]
    simp only [ich7_registers, List.mem_cons, List.mem_singleton, List.not_mem_nil,
      or_false] at hreg
    rcases hreg with h | h <;> subst h <;> simp [GPE0_STS, GPE0_EN, ICH7_PM_SIZE]

theorem catalog_ports_in_window_witness :
    sample_driver.nas_pm_io_base = masked_io_base 0x12340437 ∧
    reg_GPE0_EN ∈ ich7_registers ∧
    (sample_driver.nas_pm_io_base % 64 = 0 ∧
    NO_PORT = 0xFFFFFFFF ∧
    get_reg_port sample_driver (some reg_GPE0_EN) ≠ NO_PORT ∧
    sample_driver.nas_pm_io_base ≤ get_reg_port sample_driver (some reg_GPE0_EN) ∧
    get_reg_port sample_driver (some reg_GPE0_EN) + 4 ≤
      sample_driver.nas_pm_io_base + ICH7_PM_SIZE) :=
  ⟨by decide, by decide,
    catalog_ports_in_window sample_driver 0x12340437 (by decide) reg_GPE0_EN (by decide)⟩

/-! ## The failure value of `get_reg_port` -/

/-- C15, as stated, fails where the sum is the failure value itself: with
IOBase 0xFFFFFFD3 the port of the catalog register GPE0_EN (group PM_BASE,
offset 0x2c) is 0xFFFFFFFF, and `write_reg` and `read_reg` take it for a
failure although the group is recognized. -/
theorem get_reg_port_sum_is_failure_value :
    reg_GPE0_EN.base_reg = PM_BASE ∧
    get_reg_port { sample_driver with nas_pm_io_base := 0xFFFFFFD3 } (some reg_GPE0_EN) =
      NO_PORT ∧
    (write_reg { sample_driver with nas_pm_io_base := 0xFFFFFFD3 } (some reg_GPE0_EN) 1).trace
      = [] ∧
    (read_reg { sample_driver with nas_pm_io_base := 0xFFFFFFD3 } (some reg_GPE0_EN)).1 = 0 ∧
    (read_reg { sample_driver with nas_pm_io_base := 0xFFFFFFD3 } (some reg_GPE0_EN)).2.trace
      = [] := by
  decide

/-- C15 (amended): for every IOBase and every descriptor, `get_reg_port` returns
IOBase + offset (mod 2^32) when the group is PM_BASE; it returns the failure
value 0xFFFFFFFF exactly when the descriptor is absent, the group tag is
unrecognized, or IOBase + offset is 0xFFFFFFFF modulo 2^32; and when it returns
the failure value `read_reg` returns 0 and `read_reg`, `write_reg` and
`set_reg_bit` leave the state, so the ports and the trace of port accesses, as
it was. -/
theorem get_reg_port_spec (s : Driver) :
    (∀ r : ich7_register, r.base_reg = PM_BASE →
      get_reg_port s (some r) = (s.nas_pm_io_base + r.offset) % U32) ∧
    (∀ reg : Option ich7_register, get_reg_port s reg = NO_PORT ↔
      (reg = none ∨ ∃ r, reg = some r ∧
        (r.base_reg ≠ PM_BASE ∨ (s.nas_pm_io_base + r.offset) % U32 = 0xFFFFFFFF))) ∧
    (∀ reg : Option ich7_register, get_reg_port s reg = NO_PORT →
      read_reg s reg = (0, s) ∧ (∀ v, write_reg s reg v = s) ∧
      ∀ bitno val, set_reg_bit s reg bitno val = s) := by
  have hN : NO_PORT = 0xFFFFFFFF := rfl
  refine ⟨?_, ?_, ?_⟩
  · intro r hr
    simp only [get_reg_port, hr, if_true]
  · intro reg
    cases reg with
    | none => simp [get_reg_port]
    | some r =>
      by_cases hr : r.base_reg = PM_BASE
      · simp only [get_reg_port, hr, if_true, hN]
        constructor
        · intro h; exact Or.inr ⟨r, rfl, Or.inr h⟩
        · intro h
          rcases h with h | ⟨r', h1, h2⟩
          · exact absurd h (by simp)
          · cases h1
            rcases h2 with h2 | h2
            · exact absurd hr h2
            · exact h2
      · simp only [get_reg_port, hr, if_false]
        constructor
        · intro _; exact Or.inr ⟨r, rfl, Or.inl hr⟩
        · intro _; trivial
  · intro reg h
    refine ⟨?_, ?_, ?_⟩
    · simp only [read_reg, h, if_true]
    · intro v; simp only [write_reg, h, if_true]
    · intro bitno val
      unfold set_reg_bit
      simp only [h, if_true]
      split_ifs <;> rfl

/-! ## The terminator of `read_buf` -/

set_option maxRecDepth 100000 in
/-- C14: at a write of 128 bytes the handler copies 127 bytes, indices 0..126,
and then stores the terminator at index 128, one past the last element of the
128-byte `read_buf`; the string handed to `token` is 128 characters long, its
character 127 being the byte the array held before the call. -/
theorem read_buf_terminator_out_of_bounds :
    read_buf_stores 128 = List.range 127 ++ [128] ∧
    ¬ (128 < READ_BUF_SIZE) ∧
    (fill_read_buf sample_uninit (List.replicate 128 'a') 128).length = 128 ∧
    (fill_read_buf sample_uninit (List.replicate 128 'a') 128).getD 127 NUL =
      sample_uninit.mem 127 := by
  decide

/-- The terminator store is inside `read_buf` exactly for counts below 128; the
stores of `copy_from_user` are inside it for every count. -/
theorem read_buf_stores_bounds (count : Nat) :
    (∀ i ∈ List.range (if count < READ_BUF then count else READ_BUF), i < READ_BUF) ∧
    ((∀ i ∈ read_buf_stores count, i < READ_BUF_SIZE) ↔ count < 128) := by
  have hR : READ_BUF = 127 := rfl
  have hS : READ_BUF_SIZE = 128 := rfl
  constructor
  · intro i hi
    rw [List.mem_range] at hi
    split_ifs at hi <;> omega
  · constructor
    · intro h
      have := h count (by simp [read_buf_stores])
      omega
    · intro h i hi
      simp only [read_buf_stores, List.mem_append, List.mem_range, List.mem_singleton] at hi
      rcases hi with hi | hi
      · split_ifs at hi <;> omega
      · omega

/-! ## Numeric arguments that do not parse -/

/-- C19: for "set GPE0_EN abc" and for "set GPE0_EN \n" the conversion of the
third token stores nothing, and the handler still calls `write_reg` with the
variable `val` as the stack left it: one port write of that value to the port
of GPE0_EN.  For "setbit GPE0_EN x y" the handler calls `set_reg_bit` with the
unset `bitno` and `val`, here 7 and 1, and bit 7 of the register is set. -/
theorem write_event_unparsed_number_writes :
    sscanf_i "abc".toList = none ∧ sscanf_i [] = none ∧
    (ich7_proc_write_event sample_driver sample_uninit (some "set GPE0_EN abc".toList) 15).map
        (fun r => (r.1, r.2.trace)) =
      some (15, [PortEvent.outl sample_uninit.val_u32 0x42c]) ∧
    (ich7_proc_write_event sample_driver sample_uninit (some "set GPE0_EN \n".toList) 13).map
        (fun r => (r.1, r.2.trace)) =
      some (13, [PortEvent.outl sample_uninit.val_u32 0x42c]) ∧
    (ich7_proc_write_event sample_driver sample_uninit (some "setbit GPE0_EN x y".toList)
        18).map (fun r => (r.1, r.2.trace, r.2.ports 0x42c)) =
      some (18, [PortEvent.inl 0x42c, PortEvent.outl 0x85 0x42c], 0x85) := by
  decide

/-! ## The read handler -/

theorem write_reg_GPE0_EN (s : Driver) (raw : Nat)
    (hbase : s.nas_pm_io_base = masked_io_base raw) (v : Nat) :
    write_reg s (some reg_GPE0_EN) v = outl s v (s.nas_pm_io_base + GPE0_EN) := by
  obtain ⟨hp, hn⟩ := catalog_port s raw reg_GPE0_EN (by decide) hbase
  have ho : reg_GPE0_EN.offset = GPE0_EN := rfl
  rw [ho] at hp
  have hn2 := hn
  rw [hp] at hn2
  simp only [write_reg, hp, hn2, if_false]


theorem read_copy_eq (msg : List Char) :
    ∀ length, read_copy msg length = (msg.takeWhile (fun c => c ≠ NUL)).take length := by
  induction msg with
  | nil => intro length; simp [read_copy]
  | cons c cs ih =>
    intro length
    cases length with
    | zero => simp [read_copy]
    | succ n =>
      by_cases hc : c = NUL
      · simp [read_copy, hc]
      · simp [read_copy, hc, List.takeWhile_cons, ih n]

/-- The loop of `make_proc_message` touches only the trace and `proc_message`. -/
theorem make_proc_message_loop_frame :
    ∀ (regs : List ich7_register) (s : Driver) (c pm_length : Nat),
      (make_proc_message_loop regs s c pm_length).finished = s.finished ∧
      (make_proc_message_loop regs s c pm_length).ports = s.ports ∧
      (make_proc_message_loop regs s c pm_length).nas_pm_io_base = s.nas_pm_io_base ∧
      (make_proc_message_loop regs s c pm_length).pm_resource = s.pm_resource := by
  intro regs
  induction regs with
  | nil => intro s c pm_length; exact ⟨rfl, rfl, rfl, rfl⟩
  | cons r rs ih =>
    intro s c pm_length
    rw [make_proc_message_loop]
    have hr : (read_reg s (some r)).2.finished = s.finished ∧
        (read_reg s (some r)).2.ports = s.ports ∧
        (read_reg s (some r)).2.nas_pm_io_base = s.nas_pm_io_base ∧
        (read_reg s (some r)).2.pm_resource = s.pm_resource := by
      by_cases hp : get_reg_port s (some r) = NO_PORT
      · simp only [read_reg, hp, if_true, and_self]
      · simp only [read_reg, hp, if_false, inl, and_self]
    obtain ⟨h1, h2, h3, h4⟩ := ih
      { (read_reg s (some r)).2 with
        proc_message := snprintf (read_reg s (some r)).2.proc_message c pm_length
          (format_line r.name (read_reg s (some r)).1) }
      (c + strlen ((snprintf (read_reg s (some r)).2.proc_message c pm_length
          (format_line r.name (read_reg s (some r)).1)).drop c))
      (pm_length - strlen ((snprintf (read_reg s (some r)).2.proc_message c pm_length
          (format_line r.name (read_reg s (some r)).1)).drop c))
    exact ⟨h1.trans hr.1, h2.trans hr.2.1, h3.trans hr.2.2.1, h4.trans hr.2.2.2⟩

theorem two_lines_length (sts en : Nat) (hs : sts < U32) (he : en < U32) :
    (two_lines sts en).length = 54 := by
  simp only [two_lines, List.length_append,
    format_line_length "GPE0_STS".toList sts (by decide) hs,
    format_line_length "GPE0_EN".toList en (by decide) he]

/-- A read at position 0 with `finished` clear: the snapshot is rendered and its
first `length` bytes are delivered; the flag is set and the position advanced. -/
theorem read_event_first (s : Driver) (raw : Nat)
    (hbase : s.nas_pm_io_base = masked_io_base raw)
    (hs : s.ports (s.nas_pm_io_base + GPE0_STS) < U32)
    (he : s.ports (s.nas_pm_io_base + GPE0_EN) < U32)
    (hfin : s.finished = false) (length : Nat) :
    ich7_proc_read_event s length 0 =
      { ret := (((two_lines (s.ports (s.nas_pm_io_base + GPE0_STS))
            (s.ports (s.nas_pm_io_base + GPE0_EN))).take length).length : Int),
        data := (two_lines (s.ports (s.nas_pm_io_base + GPE0_STS))
            (s.ports (s.nas_pm_io_base + GPE0_EN))).take length,
        ppos := 0 + ((two_lines (s.ports (s.nas_pm_io_base + GPE0_STS))
            (s.ports (s.nas_pm_io_base + GPE0_EN))).take length).length,
        drv := { make_proc_message s with finished := true } } := by
  have hsnap := (make_proc_message_two_lines s raw hbase hs he).1
  have hf : (make_proc_message s).finished = false := by
    rw [make_proc_message, (make_proc_message_loop_frame _ _ _ _).1, hfin]
  have hcopy : read_copy (make_proc_message s).proc_message length =
      (two_lines (s.ports (s.nas_pm_io_base + GPE0_STS))
        (s.ports (s.nas_pm_io_base + GPE0_EN))).take length := by
    rw [read_copy_eq, two_lines, ← hsnap]
    simp [snapshot, cstr]
  simp only [ich7_proc_read_event, if_true, hf, Bool.false_eq_true, if_false, hcopy]

/-- A read with `finished` set and the position not 0: nothing is rendered or
delivered, the flag is cleared. -/
theorem read_event_finished (s : Driver) (length ppos : Nat) (hp : ppos ≠ 0)
    (hfin : s.finished = true) :
    ich7_proc_read_event s length ppos =
      { ret := 0, data := [], ppos := ppos, drv := { s with finished := false } } := by
  simp only [ich7_proc_read_event, hp, if_false, hfin, if_true]

/-- A read with `finished` clear and the position not 0: nothing is rendered,
the buffer is delivered as it is. -/
theorem read_event_stale (s : Driver) (length ppos : Nat) (hp : ppos ≠ 0)
    (hfin : s.finished = false) :
    ich7_proc_read_event s length ppos =
      { ret := ((read_copy s.proc_message length).length : Int),
        data := read_copy s.proc_message length,
        ppos := ppos + (read_copy s.proc_message length).length,
        drv := { s with finished := true } } := by
  simp only [ich7_proc_read_event, hp, if_false, hfin, Bool.false_eq_true]

/-- A read cycle from position 0 with `finished` clear takes two calls: the
first delivers the first `length` bytes of the snapshot, the second returns
zero. -/
theorem read_cycle_first (s : Driver) (raw : Nat)
    (hbase : s.nas_pm_io_base = masked_io_base raw)
    (hs : s.ports (s.nas_pm_io_base + GPE0_STS) < U32)
    (he : s.ports (s.nas_pm_io_base + GPE0_EN) < U32)
    (hfin : s.finished = false) (length : Nat) (hl : 1 ≤ length) :
    read_cycle 2 s length 0 =
      some ((two_lines (s.ports (s.nas_pm_io_base + GPE0_STS))
            (s.ports (s.nas_pm_io_base + GPE0_EN))).take length,
        min length 54,
        { make_proc_message s with finished := false }) := by
  have hlen := two_lines_length _ _ hs he
  have htl : ((two_lines (s.ports (s.nas_pm_io_base + GPE0_STS))
      (s.ports (s.nas_pm_io_base + GPE0_EN))).take length).length = min length 54 := by
    rw [List.length_take, hlen]
  have hpos : 0 + min length 54 ≠ 0 := by omega
  have hne : ¬ ((min length 54 : Nat) : Int) = 0 := by omega
  rw [read_cycle, read_event_first s raw hbase hs he hfin length]
  simp only [htl, hne, if_false]
  rw [read_cycle, read_event_finished _ length _ hpos rfl]
  simp

theorem make_proc_message_frame (s : Driver) :
    (make_proc_message s).finished = s.finished ∧
    (make_proc_message s).ports = s.ports ∧
    (make_proc_message s).nas_pm_io_base = s.nas_pm_io_base ∧
    (make_proc_message s).pm_resource = s.pm_resource :=
  make_proc_message_loop_frame _ _ _ _

/-- A read at position 0 with `finished` set: the snapshot is rendered, nothing
is delivered, the flag is cleared. -/
theorem read_event_finished_zero (s : Driver) (length : Nat) (hfin : s.finished = true) :
    ich7_proc_read_event s length 0 =
      { ret := 0, data := [], ppos := 0,
        drv := { make_proc_message s with finished := false } } := by
  have hf : (make_proc_message s).finished = true := by
    rw [(make_proc_message_frame s).1, hfin]
  simp only [ich7_proc_read_event, if_true, hf]

set_option maxRecDepth 100000 in
/-- C11, as stated, fails for a requested length below the length of the
snapshot: with length 10 the cycle delivers the first 10 bytes and ends, the
second call returning zero; the snapshot has 54 bytes. -/
theorem read_cycle_short_length_truncates :
    (read_cycle 2 sample_driver 10 0).map (fun x => (x.1, x.2.1)) =
      some ("GPE0_STS  ".toList, 10) ∧
    snapshot (make_proc_message sample_driver) =
      "GPE0_STS        0x00000005\nGPE0_EN         0x00000005\n".toList := by
  decide

/-- C11 (amended): for every requested length >= 1, on an untouched session
(position 0, `finished` clear), calling the read handler until it returns zero
takes two calls: the first delivers the first min(length, 54) bytes of the
2-register snapshot, the second returns zero.  The bytes delivered are the full
snapshot when length >= 54. -/
theorem read_cycle_delivers (s : Driver) (raw : Nat)
    (hbase : s.nas_pm_io_base = masked_io_base raw)
    (hs : s.ports (s.nas_pm_io_base + GPE0_STS) < U32)
    (he : s.ports (s.nas_pm_io_base + GPE0_EN) < U32)
    (hfin : s.finished = false) (length : Nat) (hl : 1 ≤ length) :
    ∃ s', read_cycle 2 s length 0 =
        some ((snapshot (make_proc_message s)).take length, min length 54, s') ∧
      (snapshot (make_proc_message s)).length = 54 ∧
      (54 ≤ length → (snapshot (make_proc_message s)).take length =
        snapshot (make_proc_message s)) ∧
      s'.finished = false := by
  have hsnap : snapshot (make_proc_message s) =
      two_lines (s.ports (s.nas_pm_io_base + GPE0_STS))
        (s.ports (s.nas_pm_io_base + GPE0_EN)) :=
    (make_proc_message_two_lines s raw hbase hs he).1
  have hlen := two_lines_length _ _ hs he
  refine ⟨{ make_proc_message s with finished := false }, ?_, ?_, ?_, ?_⟩
  · rw [hsnap]; exact read_cycle_first s raw hbase hs he hfin length hl
  · rw [hsnap]; exact hlen
  · intro h; exact List.take_of_length_le (by rw [hsnap, hlen]; exact h)
  · rfl

theorem read_cycle_delivers_witness :
    sample_driver.nas_pm_io_base = masked_io_base 0x400 ∧
    sample_driver.ports (sample_driver.nas_pm_io_base + GPE0_STS) < U32 ∧
    sample_driver.ports (sample_driver.nas_pm_io_base + GPE0_EN) < U32 ∧
    sample_driver.finished = false ∧ 1 ≤ 512 ∧
    ∃ s', read_cycle 2 sample_driver 512 0 =
        some ((snapshot (make_proc_message sample_driver)).take 512, min 512 54, s') ∧
      (snapshot (make_proc_message sample_driver)).length = 54 ∧
      (54 ≤ 512 → (snapshot (make_proc_message sample_driver)).take 512 =
        snapshot (make_proc_message sample_driver)) ∧
      s'.finished = false :=
  ⟨by decide, by decide, by decide, rfl, by decide,
    read_cycle_delivers sample_driver 0x400 (by decide) (by decide) (by decide) rfl 512
      (by decide)⟩

set_option maxRecDepth 100000 in
/-- C12, as stated, fails: after a full cycle on a handle (position left at
54), GPE0_EN is changed from 0x5 to 0x10; the next read on the same handle, at
position 54, reads no port and delivers the snapshot rendered in the first
cycle, with the old value. -/
theorem read_after_cycle_is_stale :
    (read_cycle 2 sample_driver 512 0).map (fun x =>
        (x.2.1,
         (ich7_proc_read_event (write_reg x.2.2 (some reg_GPE0_EN) 0x10) 512 x.2.1).data,
         (ich7_proc_read_event (write_reg x.2.2 (some reg_GPE0_EN) 0x10) 512 x.2.1).drv.trace))
      = some (54, "GPE0_STS        0x00000005\nGPE0_EN         0x00000005\n".toList,
          [PortEvent.inl 0x428, PortEvent.inl 0x42c, PortEvent.outl 0x10 0x42c]) := by
  decide

/-- C12 (amended): after a read cycle that started on an untouched session and
ended with a zero-byte read, let GPE0_EN be written with v.  The next read on
the same handle, at the position the cycle left, renders nothing: it reads no
port and delivers again the bytes of the first cycle.  A read at position 0 (a
reopened handle) renders a fresh snapshot and delivers the current values. -/
theorem read_after_cycle (s : Driver) (raw : Nat)
    (hbase : s.nas_pm_io_base = masked_io_base raw)
    (hs : s.ports (s.nas_pm_io_base + GPE0_STS) < U32)
    (he : s.ports (s.nas_pm_io_base + GPE0_EN) < U32)
    (hfin : s.finished = false) (length : Nat) (hl : 1 ≤ length) (v : Nat) (hv : v < U32) :
    ∃ d1 p1 s1, read_cycle 2 s length 0 = some (d1, p1, s1) ∧ p1 ≠ 0 ∧
      d1 = (two_lines (s.ports (s.nas_pm_io_base + GPE0_STS))
        (s.ports (s.nas_pm_io_base + GPE0_EN))).take length ∧
      (ich7_proc_read_event (write_reg s1 (some reg_GPE0_EN) v) length p1).data = d1 ∧
      (ich7_proc_read_event (write_reg s1 (some reg_GPE0_EN) v) length p1).drv.trace =
        (write_reg s1 (some reg_GPE0_EN) v).trace ∧
      (ich7_proc_read_event (write_reg s1 (some reg_GPE0_EN) v) length 0).data =
        (two_lines (s.ports (s.nas_pm_io_base + GPE0_STS)) v).take length := by
  have hsnap := (make_proc_message_two_lines s raw hbase hs he).1
  obtain ⟨-, hports, hio, -⟩ := make_proc_message_frame s
  have hc := read_cycle_first s raw hbase hs he hfin length hl
  generalize make_proc_message s = m at hsnap hports hio hc
  obtain ⟨s1, hs1⟩ : ∃ s1 : Driver, s1 = { m with finished := false } := ⟨_, rfl⟩
  have f1 : s1.finished = false := by rw [hs1]
  have f2 : s1.proc_message = m.proc_message := by rw [hs1]
  have f3 : s1.ports = s.ports := by rw [hs1]; exact hports
  have f4 : s1.nas_pm_io_base = s.nas_pm_io_base := by rw [hs1]; exact hio
  have hc1 : read_cycle 2 s length 0 =
      some ((two_lines (s.ports (s.nas_pm_io_base + GPE0_STS))
        (s.ports (s.nas_pm_io_base + GPE0_EN))).take length, min length 54, s1) := by
    rw [hs1]; exact hc
  clear hs1 hc
  have hw : write_reg s1 (some reg_GPE0_EN) v = outl s1 v (s.nas_pm_io_base + GPE0_EN) := by
    rw [← f4]; exact write_reg_GPE0_EN s1 raw (by rw [f4]; exact hbase) v
  have g1 : (outl s1 v (s.nas_pm_io_base + GPE0_EN)).finished = false := f1
  have g2 : (outl s1 v (s.nas_pm_io_base + GPE0_EN)).proc_message = m.proc_message := f2
  have g4 : (outl s1 v (s.nas_pm_io_base + GPE0_EN)).nas_pm_io_base = s.nas_pm_io_base := f4
  refine ⟨_, _, s1, hc1, by omega, rfl, ?_, ?_, ?_⟩
  · rw [hw, read_event_stale _ length _ (by omega) g1]
    simp only [g2]
    rw [read_copy_eq, two_lines, ← hsnap]
    simp [snapshot, cstr]
  · rw [hw, read_event_stale _ length _ (by omega) g1]
  · rw [hw]
    have hne : s.nas_pm_io_base + GPE0_STS ≠ s.nas_pm_io_base + GPE0_EN := by
      have h1 : GPE0_STS = 0x28 := rfl
      have h2 : GPE0_EN = 0x2c := rfl
      omega
    have hS : (outl s1 v (s.nas_pm_io_base + GPE0_EN)).ports (s.nas_pm_io_base + GPE0_STS) =
        s.ports (s.nas_pm_io_base + GPE0_STS) := by
      simp only [outl, Function.update_noteq hne, f3]
    have hE : (outl s1 v (s.nas_pm_io_base + GPE0_EN)).ports (s.nas_pm_io_base + GPE0_EN) =
        v := by
      simp only [outl, Function.update_same]
    have h := read_event_first (outl s1 v (s.nas_pm_io_base + GPE0_EN)) raw
        (by rw [g4]; exact hbase)
        (by rw [g4, hS]; exact hs) (by rw [g4, hE]; exact hv) g1 length
    rw [h, g4, hS, hE]

theorem read_after_cycle_witness :
    sample_driver.nas_pm_io_base = masked_io_base 0x400 ∧
    sample_driver.ports (sample_driver.nas_pm_io_base + GPE0_STS) < U32 ∧
    sample_driver.ports (sample_driver.nas_pm_io_base + GPE0_EN) < U32 ∧
    sample_driver.finished = false ∧ 1 ≤ 512 ∧ 0x10 < U32 ∧
    ∃ d1 p1 s1, read_cycle 2 sample_driver 512 0 = some (d1, p1, s1) ∧ p1 ≠ 0 ∧
      d1 = (two_lines (sample_driver.ports (sample_driver.nas_pm_io_base + GPE0_STS))
        (sample_driver.ports (sample_driver.nas_pm_io_base + GPE0_EN))).take 512 ∧
      (ich7_proc_read_event (write_reg s1 (some reg_GPE0_EN) 0x10) 512 p1).data = d1 ∧
      (ich7_proc_read_event (write_reg s1 (some reg_GPE0_EN) 0x10) 512 p1).drv.trace =
        (write_reg s1 (some reg_GPE0_EN) 0x10).trace ∧
      (ich7_proc_read_event (write_reg s1 (some reg_GPE0_EN) 0x10) 512 0).data =
        (two_lines (sample_driver.ports (sample_driver.nas_pm_io_base + GPE0_STS)) 0x10).take
          512 :=
  ⟨by decide, by decide, by decide, rfl, by decide, by decide,
    read_after_cycle sample_driver 0x400 (by decide) (by decide) (by decide) rfl 512
      (by decide) 0x10 (by decide)⟩

set_option maxRecDepth 100000 in
/-- C13, as stated, fails: the first read on a freshly opened handle B
(position 0) returns the 54 bytes of the snapshot when no other handle has
read, and zero bytes when another handle A has made its first read before. -/
theorem second_handle_reads_nothing :
    (ich7_proc_read_event sample_driver 512 0).ret = 54 ∧
    (ich7_proc_read_event (ich7_proc_read_event sample_driver 512 0).drv 512 0).ret = 0 ∧
    (ich7_proc_read_event (ich7_proc_read_event sample_driver 512 0).drv 512 0).data = [] := by
  decide

/-- C13 (amended): the flag `finished` and the buffer `proc_message` are shared
by all open handles; only the position belongs to a handle.  With `finished`
clear, the first read on a fresh handle B delivers the snapshot if no other
handle has read; after one read on another handle A it returns zero bytes and
leaves B at position 0, and the read after it on B delivers the snapshot. -/
theorem read_state_is_shared (s : Driver) (raw : Nat)
    (hbase : s.nas_pm_io_base = masked_io_base raw)
    (hs : s.ports (s.nas_pm_io_base + GPE0_STS) < U32)
    (he : s.ports (s.nas_pm_io_base + GPE0_EN) < U32)
    (hfin : s.finished = false) (la lb : Nat) :
    (ich7_proc_read_event s lb 0).data =
      (two_lines (s.ports (s.nas_pm_io_base + GPE0_STS))
        (s.ports (s.nas_pm_io_base + GPE0_EN))).take lb ∧
    (ich7_proc_read_event (ich7_proc_read_event s la 0).drv lb 0).ret = 0 ∧
    (ich7_proc_read_event (ich7_proc_read_event s la 0).drv lb 0).data = [] ∧
    (ich7_proc_read_event (ich7_proc_read_event s la 0).drv lb 0).ppos = 0 ∧
    (ich7_proc_read_event
        (ich7_proc_read_event (ich7_proc_read_event s la 0).drv lb 0).drv lb 0).data =
      (two_lines (s.ports (s.nas_pm_io_base + GPE0_STS))
        (s.ports (s.nas_pm_io_base + GPE0_EN))).take lb := by
  have hA := read_event_first s raw hbase hs he hfin la
  have hB := read_event_first s raw hbase hs he hfin lb
  obtain ⟨-, hports, hio, -⟩ := make_proc_message_frame s
  generalize make_proc_message s = m at hA hB hports hio
  obtain ⟨sA, hsA⟩ : ∃ sA : Driver, sA = { m with finished := true } := ⟨_, rfl⟩
  have a1 : sA.finished = true := by rw [hsA]
  have a3 : sA.ports = s.ports := by rw [hsA]; exact hports
  have a4 : sA.nas_pm_io_base = s.nas_pm_io_base := by rw [hsA]; exact hio
  have hdrv : (ich7_proc_read_event s la 0).drv = sA := by rw [hA, hsA]
  clear hsA hA
  have hB1 := read_event_finished_zero sA lb a1
  obtain ⟨-, hports2, hio2, -⟩ := make_proc_message_frame sA
  generalize make_proc_message sA = m2 at hB1 hports2 hio2
  obtain ⟨sB, hsB⟩ : ∃ sB : Driver, sB = { m2 with finished := false } := ⟨_, rfl⟩
  have b1 : sB.finished = false := by rw [hsB]
  have b3 : sB.ports = s.ports := by rw [hsB]; exact hports2.trans a3
  have b4 : sB.nas_pm_io_base = s.nas_pm_io_base := by rw [hsB]; exact hio2.trans a4
  have hdrv2 : (ich7_proc_read_event sA lb 0).drv = sB := by rw [hB1, hsB]
  clear hsB
  have hB2 := read_event_first sB raw (by rw [b4]; exact hbase)
    (by rw [b4, b3]; exact hs) (by rw [b4, b3]; exact he) b1 lb
  refine ⟨by rw [hB], ?_, ?_, ?_, ?_⟩
  · rw [hdrv, hB1]
  · rw [hdrv, hB1]
  · rw [hdrv, hB1]
  · rw [hdrv, hdrv2, hB2, b4, b3]

theorem read_state_is_shared_witness :
    sample_driver.nas_pm_io_base = masked_io_base 0x400 ∧
    sample_driver.ports (sample_driver.nas_pm_io_base + GPE0_STS) < U32 ∧
    sample_driver.ports (sample_driver.nas_pm_io_base + GPE0_EN) < U32 ∧
    sample_driver.finished = false ∧
    ((ich7_proc_read_event sample_driver 512 0).data =
      (two_lines (sample_driver.ports (sample_driver.nas_pm_io_base + GPE0_STS))
        (sample_driver.ports (sample_driver.nas_pm_io_base + GPE0_EN))).take 512 ∧
    (ich7_proc_read_event (ich7_proc_read_event sample_driver 64 0).drv 512 0).ret = 0 ∧
    (ich7_proc_read_event (ich7_proc_read_event sample_driver 64 0).drv 512 0).data = [] ∧
    (ich7_proc_read_event (ich7_proc_read_event sample_driver 64 0).drv 512 0).ppos = 0 ∧
    (ich7_proc_read_event
        (ich7_proc_read_event (ich7_proc_read_event sample_driver 64 0).drv 512 0).drv
        512 0).data =
      (two_lines (sample_driver.ports (sample_driver.nas_pm_io_base + GPE0_STS))
        (sample_driver.ports (sample_driver.nas_pm_io_base + GPE0_EN))).take 512) :=
  ⟨by decide, by decide, by decide, rfl,
    read_state_is_shared sample_driver 0x400 (by decide) (by decide) (by decide) rfl 64 512⟩

/-! ## Port access and the region reservation -/

set_option maxRecDepth 100000 in
/-- C16: port accesses happen while the region is not reserved.  (1) The module
is loaded and no device is probed: the control file exists, `pm_resource` is
NULL, `nas_pm_io_base` is 0, and a read reads the ports 0x28 and 0x2c.  (2) The
same when the one device probed has ACPI disabled, so that probe fails.  (3) A
device is probed with success and then removed: the region is released, and a
write of "set GPE0_EN 1" still writes the port 0x42c. -/
theorem port_access_without_reservation :
    (run_actions boot [Action.load 0 [] true]).map
        (fun m => (m.proc_entry, m.drv.pm_resource, m.drv.nas_pm_io_base, m.drv.trace)) =
      some (true, false, 0, []) ∧
    (run_actions boot [Action.load 0 [] true, Action.read 512 0]).map
        (fun m => (m.drv.pm_resource, m.drv.trace)) =
      some (false, [PortEvent.inl 0x28, PortEvent.inl 0x2c]) ∧
    (run_actions boot [Action.load 0 [device_acpi_off] true, Action.read 512 0]).map
        (fun m => (m.drv.pm_resource, m.drv.trace)) =
      some (false, [PortEvent.inl 0x28, PortEvent.inl 0x2c]) ∧
    (run_actions boot [Action.load 0 [device_ok] true, Action.remove]).map
        (fun m => (m.proc_entry, m.drv.pm_resource, m.drv.nas_pm_io_base, m.drv.trace)) =
      some (true, false, 0x400, []) ∧
    (run_actions boot [Action.load 0 [device_ok] true, Action.remove,
        Action.write sample_uninit (some "set GPE0_EN 1".toList) 13]).map
        (fun m => (m.drv.pm_resource, m.drv.trace)) =
      some (false, [PortEvent.outl 1 0x42c]) := by
  decide

/-! ## The bounds of `proc_message` -/

theorem strlen_append_nul_le (t rest : List Char) :
    strlen (t ++ NUL :: rest) ≤ t.length := by
  induction t with
  | nil => simp [strlen]
  | cons a t ih =>
    by_cases ha : a = NUL
    · simp [strlen, ha]
    · have ha2 : decide (a ≠ NUL) = true := by simpa using ha
      simp only [strlen, List.cons_append, List.takeWhile_cons, ha2, if_true,
        List.length_cons] at ih ⊢
      omega

theorem strlen_lt_of_mem (l : List Char) (h : NUL ∈ l) : strlen l < l.length := by
  induction l with
  | nil => simp at h
  | cons a l ih =>
    by_cases ha : a = NUL
    · simp [strlen, ha]
    · have ha2 : decide (a ≠ NUL) = true := by simpa using ha
      have hm : NUL ∈ l := by
        rcases List.mem_cons.mp h with h | h
        · exact absurd h.symm ha
        · exact h
      have := ih hm
      simp only [strlen, List.takeWhile_cons, ha2, if_true, List.length_cons] at this ⊢
      omega

theorem getD_strlen_nul (buf : List Char) (h : NUL ∈ buf) :
    buf.getD (strlen buf) 'x' = NUL := by
  induction buf with
  | nil => simp at h
  | cons a buf ih =>
    by_cases ha : a = NUL
    · simp [strlen, ha]
    · have ha2 : decide (a ≠ NUL) = true := by simpa using ha
      have hm : NUL ∈ buf := by
        rcases List.mem_cons.mp h with h | h
        · exact absurd h.symm ha
        · exact h
      have := ih hm
      simp only [strlen, List.takeWhile_cons, ha2, if_true, List.length_cons,
        List.getD_cons_succ] at this ⊢
      exact this

theorem read_reg_proc_message (s : Driver) (reg : Option ich7_register) :
    (read_reg s reg).2.proc_message = s.proc_message := by
  by_cases hp : get_reg_port s reg = NO_PORT
  · simp only [read_reg, hp, if_true]
  · simp only [read_reg, hp, if_false, inl]

/-- One call of `snprintf` at a cursor `c` with `c + size` the length of the
buffer and `size >= 1`: the stores stay inside the buffer, the buffer keeps its
length and holds a NUL, and the string at the cursor is shorter than `size`. -/
theorem snprintf_in_bounds (buf : List Char) (c size : Nat) (text : List Char)
    (hsum : c + size = buf.length) (hsize : 1 ≤ size) :
    c + snprintf_stored size text ≤ buf.length ∧
    (snprintf buf c size text).length = buf.length ∧
    NUL ∈ snprintf buf c size text ∧
    strlen ((snprintf buf c size text).drop c) ≤ size - 1 := by
  have h0 : ¬ size = 0 := by omega
  have htake : (text.take (size - 1)).length ≤ size - 1 := by
    rw [List.length_take]; exact Nat.min_le_left _ _
  have hcl : (buf.take c).length = c := by rw [List.length_take]; omega
  refine ⟨?_, ?_, ?_, ?_⟩
  · simp only [snprintf_stored, h0, if_false]; omega
  · simp only [snprintf, h0, if_false, write_at, List.length_append, List.length_drop, hcl,
      List.length_singleton]
    omega
  · simp [snprintf, h0, write_at]
  · have hd : (snprintf buf c size text).drop c =
        text.take (size - 1) ++ NUL :: buf.drop (c + ((text.take (size - 1)).length + 1)) := by
      simp only [snprintf, h0, if_false, write_at, List.append_assoc]
      rw [List.drop_left' hcl]
      simp
    rw [hd]
    exact le_trans (strlen_append_nul_le _ _) htake

/-- The invariant of the loop of `make_proc_message`, for every catalog. -/
theorem make_proc_message_loop_bounds :
    ∀ (regs : List ich7_register) (s : Driver) (c pm_length : Nat),
      c + pm_length = s.proc_message.length → 1 ≤ pm_length →
      (∀ it ∈ make_proc_message_iters regs s c pm_length,
        it.c + it.pm_length = s.proc_message.length ∧ 1 ≤ it.pm_length ∧
        it.c + it.stored ≤ s.proc_message.length) ∧
      (make_proc_message_loop regs s c pm_length).proc_message.length =
        s.proc_message.length ∧
      ((regs ≠ [] ∨ NUL ∈ s.proc_message) →
        NUL ∈ (make_proc_message_loop regs s c pm_length).proc_message) := by
  intro regs
  induction regs with
  | nil =>
    intro s c pm_length _ _
    refine ⟨by simp [make_proc_message_iters], rfl, ?_⟩
    intro h
    rcases h with h | h
    · exact absurd rfl h
    · exact h
  | cons r rs ih =>
    intro s c pm_length hsum hpm
    have hrp := read_reg_proc_message s (some r)
    obtain ⟨b1, b2, b3, b4⟩ := snprintf_in_bounds s.proc_message c pm_length
      (format_line r.name (read_reg s (some r)).1) hsum hpm
    have hn : strlen ((snprintf s.proc_message c pm_length
        (format_line r.name (read_reg s (some r)).1)).drop c) ≤ pm_length - 1 := b4
    obtain ⟨i1, i2, i3⟩ := ih
      { (read_reg s (some r)).2 with
        proc_message := snprintf (read_reg s (some r)).2.proc_message c pm_length
          (format_line r.name (read_reg s (some r)).1) }
      (c + strlen ((snprintf (read_reg s (some r)).2.proc_message c pm_length
          (format_line r.name (read_reg s (some r)).1)).drop c))
      (pm_length - strlen ((snprintf (read_reg s (some r)).2.proc_message c pm_length
          (format_line r.name (read_reg s (some r)).1)).drop c))
      (by
        show _ = (snprintf (read_reg s (some r)).2.proc_message c pm_length
          (format_line r.name (read_reg s (some r)).1)).length
        rw [hrp, b2]; omega)
      (by rw [hrp]; omega)
    have hlen1 : ({ (read_reg s (some r)).2 with
        proc_message := snprintf (read_reg s (some r)).2.proc_message c pm_length
          (format_line r.name (read_reg s (some r)).1) } : Driver).proc_message.length =
        s.proc_message.length := by
      show (snprintf (read_reg s (some r)).2.proc_message c pm_length
          (format_line r.name (read_reg s (some r)).1)).length = _
      rw [hrp, b2]
    rw [hlen1] at i1 i2
    refine ⟨?_, ?_, ?_⟩
    · intro it hit
      rw [make_proc_message_iters] at hit
      rcases List.mem_cons.mp hit with h | h
      · subst h
        exact ⟨hsum, hpm, b1⟩
      · exact i1 it h
    · rw [make_proc_message_loop]
      exact i2
    · intro _
      rw [make_proc_message_loop]
      apply i3
      right
      show NUL ∈ snprintf (read_reg s (some r)).2.proc_message c pm_length
          (format_line r.name (read_reg s (some r)).1)
      rw [hrp]
      exact b3

/-- C17: for every catalog and every register values, `make_proc_message`
stores only inside the 512-byte `proc_message`: at each pass of the loop the
offset of the cursor plus `pm_length` is 512, `pm_length` is at least 1, and the
bytes `snprintf` stores end at or before the end of the buffer; the buffer
keeps its 512 bytes, and the rendered text is at most 511 characters long and
NUL-terminated inside the buffer (for the empty catalog: when the buffer held a
NUL before). -/
theorem make_proc_message_in_bounds (regs : List ich7_register) (s : Driver)
    (hlen : s.proc_message.length = PROC_MESSAGE_LENGTH) :
    (∀ it ∈ make_proc_message_iters regs s 0 PROC_MESSAGE_LENGTH,
      it.c + it.pm_length = 512 ∧ 1 ≤ it.pm_length ∧ it.c + it.stored ≤ 512) ∧
    (make_proc_message_loop regs s 0 PROC_MESSAGE_LENGTH).proc_message.length = 512 ∧
    ((regs ≠ [] ∨ NUL ∈ s.proc_message) →
      strlen (make_proc_message_loop regs s 0 PROC_MESSAGE_LENGTH).proc_message ≤ 511 ∧
      (make_proc_message_loop regs s 0 PROC_MESSAGE_LENGTH).proc_message.getD
        (strlen (make_proc_message_loop regs s 0 PROC_MESSAGE_LENGTH).proc_message) 'x'
        = NUL) := by
  obtain ⟨h1, h2, h3⟩ := make_proc_message_loop_bounds regs s 0 PROC_MESSAGE_LENGTH
    (by rw [hlen]; simp) (by decide)
  rw [hlen] at h1 h2
  refine ⟨h1, h2, ?_⟩
  intro h
  have hmem := h3 h
  have hlt := strlen_lt_of_mem _ hmem
  rw [h2] at hlt
  have hlt2 : strlen (make_proc_message_loop regs s 0 PROC_MESSAGE_LENGTH).proc_message < 512 :=
    hlt
  exact ⟨by omega, getD_strlen_nul _ hmem⟩

/-! ## Two calls of `set_reg_bit` at the same time -/

theorem testBit_clear_low (x b i : Nat) (hi : i < 32) :
    (x &&& ((2 ^ 32 - 1) ^^^ 2 ^ b)).testBit i = if i = b then false else x.testBit i := by
  rw [Nat.testBit_and, Nat.testBit_xor, Nat.testBit_two_pow_sub_one, Nat.testBit_two_pow]
  by_cases h : i = b
  · subst h; simp [hi]
  · have h2 : ¬ b = i := fun e => h e.symm
    simp [h, h2, hi]

/-- The value `set_reg_bit` writes back, bit by bit. -/
theorem bit_write_testBit (x b v i : Nat) (hb : b < 32) (hv : v < 2) (hi : i < 32) :
    (if ((v : Nat) : Int) ≠ 0 then x ||| int_to_u32 (shl1 (b : Int))
      else x &&& int_to_u32 (bnot (shl1 (b : Int)))).testBit i =
      if i = b then decide (v = 1) else x.testBit i := by
  have hv01 : v = 0 ∨ v = 1 := by omega
  rcases hv01 with h | h
  · subst h
    simp only [Nat.cast_zero, ne_eq, not_true_eq_false, if_false, int_to_u32_bnot_shl1 b hb,
      testBit_clear_low x b i hi]
    simp
  · subst h
    have h1 : ((1 : Nat) : Int) ≠ 0 := by decide
    rw [if_pos h1, int_to_u32_shl1 b hb, testBit_set x b i]
    simp

theorem get_reg_port_congr (s1 s2 : Driver) (reg : Option ich7_register)
    (h : s1.nas_pm_io_base = s2.nas_pm_io_base) :
    get_reg_port s1 reg = get_reg_port s2 reg := by
  cases reg with
  | none => rfl
  | some r => simp only [get_reg_port, h]

/-- A call that runs alone, from `bit_call_start` through its steps, does to the
state what `set_reg_bit` does. -/
theorem par_solo (s : Driver) (reg : Option ich7_register) (bitno val : Int) (t : Bool)
    (calls : Bool → BitCall) (hc : calls t = bit_call_start s reg bitno val) :
    (par_run { drv := s, lock := none, calls := calls } [t, t, t, t]).drv =
      set_reg_bit s reg bitno val := by
  by_cases hb : bitno < 0 ∨ bitno ≥ 32
  · have hpc : (calls t).pc = Pc.done := by simp [hc, bit_call_start, hb]
    simp [par_run, par_step, hpc, set_reg_bit, hb]
  · by_cases hv : val < 0 ∨ val ≥ 2
    · have hpc : (calls t).pc = Pc.done := by simp [hc, bit_call_start, hv]
      simp [par_run, par_step, hpc, set_reg_bit, hb, hv]
    · by_cases hp : get_reg_port s reg = NO_PORT
      · have hpc : (calls t).pc = Pc.done := by simp [hc, bit_call_start, hp]
        simp [par_run, par_step, hpc, set_reg_bit, hb, hv, hp]
      · have hpc : (calls t).pc = Pc.lock := by
          simp only [hc, bit_call_start, hb, hv, hp, or_self, if_false]
        have hr : (calls t).reg = reg := by rw [hc]; rfl
        have hbn : (calls t).bitno = bitno := by rw [hc]; rfl
        have hvl : (calls t).val = val := by rw [hc]; rfl
        simp only [par_run, List.foldl, par_step, hpc, if_true, Function.update_same, hr, hbn,
          hvl, set_reg_bit, hb, hv, hp, if_false]
        rfl

theorem par_inv_step (s : Driver) (reg : ich7_register) (bit v : Bool → Nat)
    (hb : ∀ t, bit t < 32) (hv : ∀ t, v t < 2) (hne : bit false ≠ bit true)
    (p : Par) (h : par_inv s reg bit v p) (t : Bool) :
    par_inv s reg bit v (par_step p t) := by
  obtain ⟨i1, i2, i3, i4, i5⟩ := h
  have hbit : ∀ t', t' ≠ t → bit t' ≠ bit t := by
    intro t' ht'
    cases t <;> cases t' <;> simp_all
    exact fun e => hne e.symm
  have hport : get_reg_port p.drv (p.calls t).reg = get_reg_port s (some reg) := by
    rw [(i2 t).1]; exact get_reg_port_congr _ _ _ i1
  cases hpc : (p.calls t).pc with
  | done =>
    have e : par_step p t = p := by simp only [par_step, hpc]
    rw [e]; exact ⟨i1, i2, i3, i4, i5⟩
  | lock =>
    by_cases hl : p.lock = none
    · have e : par_step p t =
          { p with lock := some t,
                   calls := Function.update p.calls t { p.calls t with pc := Pc.read } } := by
        simp only [par_step, hpc, hl, if_true]
      rw [e]
      refine ⟨i1, ?_, ?_, ?_, ?_⟩
      · intro t'
        by_cases ht : t' = t
        · subst ht; simpa using i2 t'
        · simpa [Function.update_noteq ht] using i2 t'
      · intro t'
        by_cases ht : t' = t
        · subst ht; simp [Pc.holds]
        · have h3 := i3 t'
          rw [hl] at h3
          have ht2 : ¬ t = t' := fun e => ht e.symm
          simp only [Function.update_noteq ht, h3]
          simp [ht2]
      · intro t'
        by_cases ht : t' = t
        · subst ht; simp
        · simpa [Function.update_noteq ht] using i4 t'
      · intro t'
        by_cases ht : t' = t
        · subst ht; simp [Pc.written]
        · simpa [Function.update_noteq ht] using i5 t'
    · have e : par_step p t = p := by simp only [par_step, hpc, hl, if_false]
      rw [e]; exact ⟨i1, i2, i3, i4, i5⟩
  | read =>
    have e : par_step p t =
        { p with
          drv := (inl p.drv (get_reg_port s (some reg))).2,
          calls := Function.update p.calls t
            { p.calls t with pc := Pc.write,
                             in_val := (inl p.drv (get_reg_port s (some reg))).1 } } := by
      simp only [par_step, hpc, hport]
    have hlk : p.lock = some t := (i3 t).mp (by rw [hpc]; rfl)
    rw [e]
    refine ⟨i1, ?_, ?_, ?_, ?_⟩
    · intro t'
      by_cases ht : t' = t
      · subst ht; simpa using i2 t'
      · simpa [Function.update_noteq ht] using i2 t'
    · intro t'
      by_cases ht : t' = t
      · subst ht; simp [Pc.holds, hlk]
      · simpa [Function.update_noteq ht] using i3 t'
    · intro t'
      by_cases ht : t' = t
      · subst ht; simp [inl]
      · simpa [Function.update_noteq ht, inl] using i4 t'
    · intro t'
      by_cases ht : t' = t
      · subst ht; simp [Pc.written]
      · simpa [Function.update_noteq ht, inl] using i5 t'
  | write =>
    have hlk : p.lock = some t := (i3 t).mp (by rw [hpc]; rfl)
    have hin : (p.calls t).in_val = p.drv.ports (get_reg_port s (some reg)) := i4 t hpc
    have e : par_step p t =
        { p with
          drv := outl p.drv
            (if ((v t : Nat) : Int) ≠ 0 then
                p.drv.ports (get_reg_port s (some reg)) ||| int_to_u32 (shl1 (bit t : Int))
              else p.drv.ports (get_reg_port s (some reg)) &&&
                int_to_u32 (bnot (shl1 (bit t : Int))))
            (get_reg_port s (some reg)),
          calls := Function.update p.calls t
            { p.calls t with
              pc := Pc.unlock,
              in_val :=
                (if ((v t : Nat) : Int) ≠ 0 then
                  p.drv.ports (get_reg_port s (some reg)) ||| int_to_u32 (shl1 (bit t : Int))
                else p.drv.ports (get_reg_port s (some reg)) &&&
                  int_to_u32 (bnot (shl1 (bit t : Int)))) } } := by
      simp only [par_step, hpc, hport, hin, (i2 t).2.1, (i2 t).2.2]
    rw [e]
    refine ⟨i1, ?_, ?_, ?_, ?_⟩
    · intro t'
      by_cases ht : t' = t
      · subst ht; simpa using i2 t'
      · simpa [Function.update_noteq ht] using i2 t'
    · intro t'
      by_cases ht : t' = t
      · subst ht; simp [Pc.holds, hlk]
      · simpa [Function.update_noteq ht] using i3 t'
    · intro t'
      by_cases ht : t' = t
      · subst ht; simp
      · intro hw
        simp only [Function.update_noteq ht] at hw
        have h3 := (i3 t').mp (by rw [hw]; rfl)
        rw [hlk] at h3
        exact absurd (Option.some.inj h3).symm ht
    · intro t'
      by_cases ht : t' = t
      · subst ht
        intro _
        simp only [outl, Function.update_same]
        rw [bit_write_testBit _ _ _ _ (hb t') (hv t') (hb t')]
        simp
      · intro hw
        simp only [Function.update_noteq ht] at hw
        simp only [outl, Function.update_same]
        rw [bit_write_testBit _ _ _ _ (hb t) (hv t) (hb t')]
        simp only [hbit t' ht, if_false]
        exact i5 t' hw
  | unlock =>
    have hlk : p.lock = some t := (i3 t).mp (by rw [hpc]; rfl)
    have e : par_step p t =
        { p with lock := none,
                 calls := Function.update p.calls t { p.calls t with pc := Pc.done } } := by
      simp only [par_step, hpc]
    rw [e]
    refine ⟨i1, ?_, ?_, ?_, ?_⟩
    · intro t'
      by_cases ht : t' = t
      · subst ht; simpa using i2 t'
      · simpa [Function.update_noteq ht] using i2 t'
    · intro t'
      by_cases ht : t' = t
      · subst ht; simp [Pc.holds]
      · have h3 := i3 t'
        rw [hlk] at h3
        have ht2 : ¬ t = t' := fun e => ht e.symm
        simp only [Function.update_noteq ht, h3]
        simp [ht2]
    · intro t'
      by_cases ht : t' = t
      · subst ht; simp
      · simpa [Function.update_noteq ht] using i4 t'
    · intro t'
      by_cases ht : t' = t
      · subst ht
        intro _
        exact i5 t' (by rw [hpc]; rfl)
      · simpa [Function.update_noteq ht] using i5 t'

theorem par_inv_run (s : Driver) (reg : ich7_register) (bit v : Bool → Nat)
    (hb : ∀ t, bit t < 32) (hv : ∀ t, v t < 2) (hne : bit false ≠ bit true)
    (sched : List Bool) :
    ∀ p, par_inv s reg bit v p → par_inv s reg bit v (par_run p sched) := by
  induction sched with
  | nil => intro p h; exact h
  | cons t ts ih =>
    intro p h
    exact ih (par_step p t) (par_inv_step s reg bit v hb hv hne p h t)

theorem par_inv_start (s : Driver) (raw : Nat) (reg : ich7_register)
    (hreg : reg ∈ ich7_registers) (hbase : s.nas_pm_io_base = masked_io_base raw)
    (ba bb va vb : Nat) (hba : ba < 32) (hbb : bb < 32) (hva : va < 2) (hvb : vb < 2) :
    par_inv s reg (fun t => if t then bb else ba) (fun t => if t then vb else va)
      (par_start s (some reg) ba va (some reg) bb vb) := by
  obtain ⟨-, hn⟩ := catalog_port s raw reg hreg hbase
  have hA : bit_call_start s (some reg) (ba : Int) (va : Int) =
      { reg := some reg, bitno := ba, val := va, in_val := 0, pc := Pc.lock } := by
    have h1 : ¬ (((ba : Int) < 0 ∨ (ba : Int) ≥ 32) ∨ ((va : Int) < 0 ∨ (va : Int) ≥ 2) ∨
        get_reg_port s (some reg) = NO_PORT) := by
      intro h; rcases h with h | h | h
      · omega
      · omega
      · exact hn h
    simp only [bit_call_start, h1, if_false]
  have hB : bit_call_start s (some reg) (bb : Int) (vb : Int) =
      { reg := some reg, bitno := bb, val := vb, in_val := 0, pc := Pc.lock } := by
    have h1 : ¬ (((bb : Int) < 0 ∨ (bb : Int) ≥ 32) ∨ ((vb : Int) < 0 ∨ (vb : Int) ≥ 2) ∨
        get_reg_port s (some reg) = NO_PORT) := by
      intro h; rcases h with h | h | h
      · omega
      · omega
      · exact hn h
    simp only [bit_call_start, h1, if_false]
  refine ⟨rfl, ?_, ?_, ?_, ?_⟩
  · intro t; cases t <;> simp [par_start, hA, hB]
  · intro t; cases t <;> simp [par_start, hA, hB, Pc.holds]
  · intro t; cases t <;> simp [par_start, hA, hB]
  · intro t; cases t <;> simp [par_start, hA, hB, Pc.written]

/-- C18: two calls of `set_reg_bit` on the same catalog register, with
different bit indices in [0,32) and values in {0,1}, run on two threads.  For
every schedule of their steps, a thread that finds `ich7_pm_lock` held
spinning, once both calls have returned the register holds both bits at the
values requested; and at every moment at most one thread is between its
`spin_lock` and its `spin_unlock`. -/
theorem concurrent_set_reg_bit_keeps_both (s : Driver) (raw : Nat) (reg : ich7_register)
    (hreg : reg ∈ ich7_registers) (hbase : s.nas_pm_io_base = masked_io_base raw)
    (ba bb va vb : Nat) (hba : ba < 32) (hbb : bb < 32) (hne : ba ≠ bb)
    (hva : va < 2) (hvb : vb < 2) (sched : List Bool) :
    ¬ (((par_run (par_start s (some reg) ba va (some reg) bb vb) sched).calls false).pc.holds
          = true ∧
       ((par_run (par_start s (some reg) ba va (some reg) bb vb) sched).calls true).pc.holds
          = true) ∧
    (((par_run (par_start s (some reg) ba va (some reg) bb vb) sched).calls false).pc = Pc.done →
     ((par_run (par_start s (some reg) ba va (some reg) bb vb) sched).calls true).pc = Pc.done →
      ((par_run (par_start s (some reg) ba va (some reg) bb vb) sched).drv.ports
          (get_reg_port s (some reg))).testBit ba = decide (va = 1) ∧
      ((par_run (par_start s (some reg) ba va (some reg) bb vb) sched).drv.ports
          (get_reg_port s (some reg))).testBit bb = decide (vb = 1)) := by
  have hinv := par_inv_run s reg (fun t => if t then bb else ba) (fun t => if t then vb else va)
    (by intro t; cases t <;> simpa) (by intro t; cases t <;> simpa) (by simpa using hne)
    sched _ (par_inv_start s raw reg hreg hbase ba bb va vb hba hbb hva hvb)
  obtain ⟨-, -, i3, -, i5⟩ := hinv
  constructor
  · intro h
    have h1 := (i3 false).mp h.1
    have h2 := (i3 true).mp h.2
    rw [h1] at h2
    exact absurd h2 (by decide)
  · intro h1 h2
    have a := i5 false (by rw [h1]; rfl)
    have b := i5 true (by rw [h2]; rfl)
    exact ⟨by simpa using a, by simpa using b⟩

theorem concurrent_set_reg_bit_keeps_both_witness :
    reg_GPE0_EN ∈ ich7_registers ∧ sample_driver.nas_pm_io_base = masked_io_base 0x400 ∧
    3 < 32 ∧ 0 < 32 ∧ 3 ≠ 0 ∧ 1 < 2 ∧ 0 < 2 ∧
    (¬ (((par_run (par_start sample_driver (some reg_GPE0_EN) (3 : Nat) (1 : Nat)
            (some reg_GPE0_EN) (0 : Nat) (0 : Nat))
          [false, true, false, true, false, true, false, true, true, true, true]).calls
            false).pc.holds = true ∧
       ((par_run (par_start sample_driver (some reg_GPE0_EN) (3 : Nat) (1 : Nat)
            (some reg_GPE0_EN) (0 : Nat) (0 : Nat))
          [false, true, false, true, false, true, false, true, true, true, true]).calls
            true).pc.holds = true) ∧
    (((par_run (par_start sample_driver (some reg_GPE0_EN) (3 : Nat) (1 : Nat)
            (some reg_GPE0_EN) (0 : Nat) (0 : Nat))
          [false, true, false, true, false, true, false, true, true, true, true]).calls
            false).pc = Pc.done →
     ((par_run (par_start sample_driver (some reg_GPE0_EN) (3 : Nat) (1 : Nat)
            (some reg_GPE0_EN) (0 : Nat) (0 : Nat))
          [false, true, false, true, false, true, false, true, true, true, true]).calls
            true).pc = Pc.done →
      ((par_run (par_start sample_driver (some reg_GPE0_EN) (3 : Nat) (1 : Nat)
            (some reg_GPE0_EN) (0 : Nat) (0 : Nat))
          [false, true, false, true, false, true, false, true, true, true, true]).drv.ports
          (get_reg_port sample_driver (some reg_GPE0_EN))).testBit 3 = decide (1 = 1) ∧
      ((par_run (par_start sample_driver (some reg_GPE0_EN) (3 : Nat) (1 : Nat)
            (some reg_GPE0_EN) (0 : Nat) (0 : Nat))
          [false, true, false, true, false, true, false, true, true, true, true]).drv.ports
          (get_reg_port sample_driver (some reg_GPE0_EN))).testBit 0 = decide (0 = 1))) ∧
    ((par_run (par_start sample_driver (some reg_GPE0_EN) (3 : Nat) (1 : Nat)
            (some reg_GPE0_EN) (0 : Nat) (0 : Nat))
          [false, true, false, true, false, true, false, true, true, true, true]).calls
            false).pc = Pc.done ∧
    ((par_run (par_start sample_driver (some reg_GPE0_EN) (3 : Nat) (1 : Nat)
            (some reg_GPE0_EN) (0 : Nat) (0 : Nat))
          [false, true, false, true, false, true, false, true, true, true, true]).calls
            true).pc = Pc.done ∧
    (par_run (par_start sample_driver (some reg_GPE0_EN) (3 : Nat) (1 : Nat)
            (some reg_GPE0_EN) (0 : Nat) (0 : Nat))
          [false, true, false, true, false, true, false, true, true, true, true]).drv.ports
        0x42c = 0xc :=
  ⟨by decide, by decide, by decide, by decide, by decide, by decide, by decide,
    concurrent_set_reg_bit_keeps_both sample_driver 0x400 reg_GPE0_EN (by decide) (by decide)
      3 0 1 0 (by decide) (by decide) (by decide) (by decide) (by decide)
      [false, true, false, true, false, true, false, true, true, true, true],
    by decide, by decide, by decide⟩

set_option maxRecDepth 1000000 in
theorem make_proc_message_in_bounds_witness :
    sample_driver.proc_message.length = PROC_MESSAGE_LENGTH ∧
    ((∀ it ∈ make_proc_message_iters (List.replicate 30 reg_GPE0_EN) sample_driver 0
        PROC_MESSAGE_LENGTH,
      it.c + it.pm_length = 512 ∧ 1 ≤ it.pm_length ∧ it.c + it.stored ≤ 512) ∧
    (make_proc_message_loop (List.replicate 30 reg_GPE0_EN) sample_driver 0
        PROC_MESSAGE_LENGTH).proc_message.length = 512 ∧
    ((List.replicate 30 reg_GPE0_EN ≠ [] ∨ NUL ∈ sample_driver.proc_message) →
      strlen (make_proc_message_loop (List.replicate 30 reg_GPE0_EN) sample_driver 0
        PROC_MESSAGE_LENGTH).proc_message ≤ 511 ∧
      (make_proc_message_loop (List.replicate 30 reg_GPE0_EN) sample_driver 0
          PROC_MESSAGE_LENGTH).proc_message.getD
        (strlen (make_proc_message_loop (List.replicate 30 reg_GPE0_EN) sample_driver 0
          PROC_MESSAGE_LENGTH).proc_message) 'x' = NUL)) ∧
    strlen (make_proc_message_loop (List.replicate 30 reg_GPE0_EN) sample_driver 0
        PROC_MESSAGE_LENGTH).proc_message = 511 :=
  ⟨List.length_replicate _ _,
    make_proc_message_in_bounds (List.replicate 30 reg_GPE0_EN) sample_driver
      (List.length_replicate _ _),
    by decide⟩

end Ich7
